import Mathlib

/-!
# go-iconv: verification of `iconv_cgo.c`

A shallow embedding of the C wrapper around `iconv` found in `iconv_cgo.c`.

* `size_t` values are natural numbers; arithmetic that can wrap is written
  with an explicit `% 2 ^ w`, where `w` is the number of bits of `size_t`.
* The external collaborators (`iconv_open`, `iconv`, `iconv_close`, `realloc`)
  are fields of an environment `Env`; every call to them is recorded in a
  trace of `Event`s.
* `errno` is an explicit component of the state.
* Pointers into the output buffer are offsets from `h->buf`; the buffer
  contents are a list of bytes (bytes never written read as `0`).
* A result `none` stands for an execution that does not return (a loop that
  runs out of fuel) or that violates a documented precondition of a static
  function ("the caller must ensure that h is valid").
-/

namespace IconvCgo

/-! ## Data model -/

/-- A `char` of the input or output, as a number. -/
abbrev Byte := Nat

/-- The values of `errno` that the code distinguishes. `E0` is `errno = 0`,
`EOTHER` stands for any value that the code does not test for. -/
inductive Errno
  | E0
  | E2BIG
  | EILSEQ
  | EINVAL
  | ENOMEM
  | EOTHER
  deriving DecidableEq

/-- Calls to the external collaborators. `step` is `iconv` with an input,
`flush` is `iconv(cd, NULL, NULL, out, out_size)` and `reset` is
`iconv(cd, NULL, NULL, NULL, NULL)`. A `step` and a `flush` record the bytes
that the call stored in the output window. -/
inductive Event
  | open
  | close
  | reset
  | step (produced : List Byte)
  | flush (produced : List Byte)
  | realloc (size : Nat)
  deriving DecidableEq

/-- The anonymous enum `ICONV_CGO_SUFFIX_*`. -/
inductive Suffix
  | NONE
  | TRANSLIT
  | IGNORE
  deriving DecidableEq

/-- The struct `iconv_cgo_t`. `cd = none` is `(iconv_t)-1`, and `none` in a
pointer field is `NULL`. `buf` holds the known contents of the buffer. -/
structure iconv_cgo_t (σ : Type) where
  cd : Option σ
  to_code : Option (List Char)
  from_code : Option (List Char)
  suffix : Suffix
  buf : Option (List Byte)
  buf_size : Nat

/-- What one call of `iconv` does: the new converter state, how many input
bytes it consumed, the bytes it stored at `*outbuf`, and `err = none` when it
returned a value other than `(size_t)-1`, else the `errno` it set. -/
structure IconvOut (σ : Type) where
  cd : σ
  consumed : Nat
  produced : List Byte
  err : Option Errno

/-- The external collaborators. `w` is `sizeof(size_t) * 8`. The outcome of an
allocation may depend on everything that happened before it. -/
structure Env (σ : Type) where
  w : Nat
  iconv_open : List Char → List Char → Except Errno σ
  iconv_close : σ → Option Errno
  iconv_reset : σ → σ × Option Errno
  iconv_step : σ → List Byte → Nat → IconvOut σ
  iconv_flush : σ → Nat → IconvOut σ
  malloc_ok : List Event → Bool
  realloc_ok : List Event → Nat → Bool

/-- A handle together with the global `errno` and the trace of external
calls made so far. -/
structure Sys (σ : Type) where
  h : iconv_cgo_t σ
  errno : Errno
  trace : List Event

def ICONV_CGO_MIN_BUF_SIZE : Nat := 256

/-- The macro `(size_t)1 << (sizeof(size_t) * 8 - 1)`. -/
def ICONV_CGO_MAX_BUF_SIZE (w : Nat) : Nat := 2 ^ (w - 1)

def ICONV_CGO_SUFFIX_TRANSLIT_STR : List Char := "//TRANSLIT".toList

def ICONV_CGO_SUFFIX_IGNORE_STR : List Char := "//IGNORE".toList

/-- Subtraction of `size_t` values, wrapping modulo `2 ^ w`. -/
def size_sub (w a b : Nat) : Nat := (a + 2 ^ w - b % 2 ^ w) % 2 ^ w

/-- The first `n` bytes of a memory region. -/
def mem_read (mem : List Byte) (n : Nat) : List Byte :=
  (mem ++ List.replicate (n - mem.length) 0).take n

/-- Store `bs` at offset `off` of a memory region. -/
def mem_write (mem : List Byte) (off : Nat) (bs : List Byte) : List Byte :=
  mem_read mem off ++ bs ++ mem.drop (off + bs.length)

/-! ## Handle life cycle -/

/-- The function `iconv_cgo_init`. -/
def iconv_cgo_init {σ : Type} : iconv_cgo_t σ :=
  { cd := none, to_code := none, from_code := none, suffix := Suffix.NONE,
    buf := none, buf_size := 0 }

/-- The function `iconv_cgo_new`: `none` is the `NULL` of a failed `malloc`. -/
def iconv_cgo_new {σ : Type} (E : Env σ) (trace : List Event) : Option (iconv_cgo_t σ) :=
  if E.malloc_ok trace then some iconv_cgo_init else none

/-- The function `iconv_cgo_fin`. -/
def iconv_cgo_fin {σ : Type} (E : Env σ) (s : Sys σ) : Int × Sys σ :=
  let result : Int := 0
  let h := s.h
  let h := if h.buf.isSome then { h with buf := none, buf_size := 0 } else h
  let h := if h.from_code.isSome then { h with from_code := none } else h
  let h := if h.to_code.isSome then { h with to_code := none } else h
  match h.cd with
  | some cd =>
    let errno := (E.iconv_close cd).getD s.errno
    let h := { h with cd := none }
    let result : Int := -1
    (result, { h := h, errno := errno, trace := s.trace ++ [Event.close] })
  | none => (result, { s with h := h })

/-- The function `iconv_cgo_del`; the returned handle is the finalized struct
that is then freed. -/
def iconv_cgo_del {σ : Type} (E : Env σ) (s : Sys σ) : Int × Sys σ :=
  iconv_cgo_fin E s

/-- The C function `strstr`. -/
def strstr (haystack needle : List Char) : Option (List Char) :=
  match haystack with
  | [] => if needle = [] then some [] else none
  | c :: rest =>
    if needle.isPrefixOf (c :: rest) then some (c :: rest) else strstr rest needle

/-- The function `iconv_cgo_set_suffix`, as a function of `h->to_code`
returning the value stored in `h->suffix`. -/
def iconv_cgo_set_suffix (to_code : List Char) : Suffix :=
  match strstr to_code "//".toList with
  | none => Suffix.NONE
  | some suffix =>
    if suffix = ICONV_CGO_SUFFIX_TRANSLIT_STR then Suffix.TRANSLIT
    else if suffix = ICONV_CGO_SUFFIX_IGNORE_STR then Suffix.IGNORE
    else Suffix.NONE

/-- The result of `iconv_cgo_open`: the handle (`none` is `NULL`), `errno`
and the trace. -/
structure OpenRet (σ : Type) where
  h : Option (iconv_cgo_t σ)
  errno : Errno
  trace : List Event

/-- The function `iconv_cgo_open`. -/
def iconv_cgo_open {σ : Type} (E : Env σ) (errno : Errno) (trace : List Event)
    (to_code from_code : Option (List Char)) : OpenRet σ :=
  match to_code, from_code with
  | some to_code, some from_code =>
    match iconv_cgo_new E trace with
    | none => { h := none, errno := Errno.ENOMEM, trace := trace }
    | some h =>
      match E.iconv_open to_code from_code with
      | Except.error e => { h := none, errno := e, trace := trace ++ [Event.open] }
      | Except.ok cd =>
        let h := { h with cd := some cd }
        let h := { h with to_code := some to_code }
        let h := { h with from_code := some from_code }
        let h := { h with suffix := iconv_cgo_set_suffix to_code }
        { h := some h, errno := errno, trace := trace ++ [Event.open] }
  | _, _ => { h := none, errno := Errno.EINVAL, trace := trace }

/-- The result of `iconv_cgo_close`. -/
structure CloseRet (σ : Type) where
  result : Int
  errno : Errno
  trace : List Event

/-- The function `iconv_cgo_close`. -/
def iconv_cgo_close {σ : Type} (E : Env σ) (errno : Errno) (trace : List Event)
    (h : Option (iconv_cgo_t σ)) : CloseRet σ :=
  match h with
  | none => { result := -1, errno := Errno.EINVAL, trace := trace }
  | some h =>
    let r := iconv_cgo_del E { h := h, errno := errno, trace := trace }
    { result := r.1, errno := r.2.errno, trace := r.2.trace }

/-- The function `iconv_cgo_get_to_code`. -/
def iconv_cgo_get_to_code {σ : Type} (h : Option (iconv_cgo_t σ)) : List Char :=
  match h with
  | none => []
  | some h =>
    match h.to_code with
    | none => []
    | some _ => h.from_code.getD []

/-- The function `iconv_cgo_get_from_code`. -/
def iconv_cgo_get_from_code {σ : Type} (h : Option (iconv_cgo_t σ)) : List Char :=
  match h with
  | none => []
  | some h =>
    match h.from_code with
    | none => []
    | some from_code => from_code

/-! ## Growable output buffer -/

/-- The loop `while (buf_size < out_size) buf_size *= 2;` of `iconv_cgo_alloc`.
After `w` doublings a `w`-bit value is `0`, so the loop either leaves within
`w + 1` tests or never does. -/
def alloc_grow (w out_size : Nat) : Nat → Nat → Option Nat
  | 0, _ => none
  | fuel + 1, buf_size =>
    if buf_size < out_size then alloc_grow w out_size fuel ((buf_size * 2) % 2 ^ w)
    else some buf_size

/-- The function `iconv_cgo_alloc`. A failed `realloc` sets `errno` to `ENOMEM`. -/
def iconv_cgo_alloc {σ : Type} (E : Env σ) (s : Sys σ) (in_size : Nat) :
    Option (Int × Sys σ) :=
  let out_size := (in_size * 2) % 2 ^ E.w
  if out_size < in_size then some (-1, { s with errno := Errno.EINVAL })
  else if out_size > ICONV_CGO_MAX_BUF_SIZE E.w then some (-1, { s with errno := Errno.ENOMEM })
  else if s.h.buf_size ≥ out_size then some (0, s)
  else
    let buf_size := if s.h.buf_size ≠ 0 then (s.h.buf_size * 2) % 2 ^ E.w
      else ICONV_CGO_MIN_BUF_SIZE
    match alloc_grow E.w out_size (E.w + 1) buf_size with
    | none => none
    | some buf_size =>
      if E.realloc_ok s.trace buf_size then
        some (0, { s with h := { s.h with buf := some (s.h.buf.getD []), buf_size := buf_size },
                          trace := s.trace ++ [Event.realloc buf_size] })
      else
        some (-1, { s with errno := Errno.ENOMEM,
                           trace := s.trace ++ [Event.realloc buf_size] })

/-- The function `iconv_cgo_realloc`. A failed `realloc` sets `errno` to `ENOMEM`. -/
def iconv_cgo_realloc {σ : Type} (E : Env σ) (s : Sys σ) : Int × Sys σ :=
  if s.h.buf_size ≥ ICONV_CGO_MAX_BUF_SIZE E.w then (-1, { s with errno := Errno.ENOMEM })
  else
    let buf_size := (s.h.buf_size * 2) % 2 ^ E.w
    if E.realloc_ok s.trace buf_size then
      (0, { s with h := { s.h with buf := some (s.h.buf.getD []), buf_size := buf_size },
                   trace := s.trace ++ [Event.realloc buf_size] })
    else
      (-1, { s with errno := Errno.ENOMEM, trace := s.trace ++ [Event.realloc buf_size] })

/-! ## Conversion driver -/

/-- The local variables `in_left`, `in_size_left`, `out_left`, `out_size_left`
of `iconv_cgo_conv_core`; the pointers are offsets from `in` and from `h->buf`. -/
structure Cursors where
  in_left : Nat
  in_size_left : Nat
  out_left : Nat
  out_size_left : Nat

/-- The effect of `iconv(h->cd, &in_left, &in_size_left, &out_left, &out_size_left)`
on the handle, `errno`, the trace and the four variables. -/
def call_iconv {σ : Type} (E : Env σ) (s : Sys σ) (inp : List Byte) (c : Cursors) :
    Option (Option Errno × Sys σ × Cursors) :=
  match s.h.cd, s.h.buf with
  | some cd, some mem =>
    let r := E.iconv_step cd ((inp.drop c.in_left).take c.in_size_left) c.out_size_left
    some (r.err,
      { h := { s.h with cd := some r.cd, buf := some (mem_write mem c.out_left r.produced) },
        errno := r.err.getD s.errno,
        trace := s.trace ++ [Event.step r.produced] },
      { in_left := c.in_left + r.consumed,
        in_size_left := size_sub E.w c.in_size_left r.consumed,
        out_left := c.out_left + r.produced.length,
        out_size_left := size_sub E.w c.out_size_left r.produced.length })
  | _, _ => none

/-- The effect of `iconv(h->cd, NULL, NULL, out, out_size)`. -/
def call_flush {σ : Type} (E : Env σ) (s : Sys σ) (out_left out_size_left : Nat) :
    Option (Option Errno × Sys σ × Nat × Nat) :=
  match s.h.cd, s.h.buf with
  | some cd, some mem =>
    let r := E.iconv_flush cd out_size_left
    some (r.err,
      { h := { s.h with cd := some r.cd, buf := some (mem_write mem out_left r.produced) },
        errno := r.err.getD s.errno,
        trace := s.trace ++ [Event.flush r.produced] },
      out_left + r.produced.length,
      size_sub E.w out_size_left r.produced.length)
  | _, _ => none

/-- The function `iconv_cgo_conv_last`, returning its result, the state and the
updated `*out`, `*out_size`. -/
def iconv_cgo_conv_last {σ : Type} (E : Env σ) (s : Sys σ) (out_left out_size_left : Nat) :
    Option (Int × Sys σ × Nat × Nat) :=
  match call_flush E s out_left out_size_left with
  | none => none
  | some (none, s, out_left, out_size_left) => some (0, s, out_left, out_size_left)
  | some (some _, s, out_left, out_size_left) =>
    if s.errno = Errno.E2BIG then
      let offset := size_sub E.w s.h.buf_size out_size_left
      let s := { s with errno := Errno.E0 }
      match iconv_cgo_realloc E s with
      | (r, s) =>
        if r = -1 then some (-1, s, out_left, out_size_left)
        else
          let out_left := offset
          let out_size_left := size_sub E.w s.h.buf_size offset
          match call_flush E s out_left out_size_left with
          | none => none
          | some (none, s, out_left, out_size_left) => some (0, s, out_left, out_size_left)
          | some (some _, s, out_left, out_size_left) => some (-1, s, out_left, out_size_left)
    else some (-1, s, out_left, out_size_left)

/-- How one test of the loop condition of `iconv_cgo_conv_core` followed by one
pass through the loop body ends: `exit` when the condition is false or the
body reaches `break` (with the value of `result`), `next` when the body
reaches `continue` or its end. -/
inductive LoopStep (σ : Type) where
  | exit (result : Int) (s : Sys σ) (c : Cursors)
  | next (s : Sys σ) (c : Cursors)

/-- The condition and the body of the `while` loop of `iconv_cgo_conv_core`.
`result` is `-1` until `iconv_cgo_conv_last` assigns it. -/
def loop_body {σ : Type} (E : Env σ) (inp : List Byte) (s : Sys σ) (c : Cursors) :
    Option (LoopStep σ) :=
  if c.in_size_left = 0 then some (LoopStep.exit (-1) s c)
  else
    match call_iconv E s inp c with
    | none => none
    | some (none, s, c) =>
      match iconv_cgo_conv_last E s c.out_left c.out_size_left with
      | none => none
      | some (result, s, out_left, out_size_left) =>
        some (LoopStep.exit result s
          { c with out_left := out_left, out_size_left := out_size_left })
    | some (some _, s, c) =>
      if s.errno = Errno.E2BIG then
        let offset := size_sub E.w s.h.buf_size c.out_size_left
        let s := { s with errno := Errno.E0 }
        match iconv_cgo_realloc E s with
        | (r, s) =>
          if r = -1 then some (LoopStep.exit (-1) s c)
          else
            some (LoopStep.next s
              { c with out_left := offset,
                       out_size_left := size_sub E.w s.h.buf_size offset })
      else if s.h.suffix ≠ Suffix.IGNORE then some (LoopStep.exit (-1) s c)
      else if s.errno = Errno.EILSEQ then
        some (LoopStep.next { s with errno := Errno.E0 }
          { c with in_left := c.in_left + 1,
                   in_size_left := size_sub E.w c.in_size_left 1 })
      else if s.errno = Errno.EINVAL then
        let s := { s with errno := Errno.E0 }
        match iconv_cgo_conv_last E s c.out_left c.out_size_left with
        | none => none
        | some (result, s, out_left, out_size_left) =>
          some (LoopStep.exit result s
            { c with out_left := out_left, out_size_left := out_size_left })
      else some (LoopStep.exit (-1) s c)

/-- The `while` loop of `iconv_cgo_conv_core`; returns `result`, the state and
the local variables at loop exit. One unit of fuel is one test of the loop
condition. -/
def conv_core_loop {σ : Type} (E : Env σ) (inp : List Byte) :
    Nat → Sys σ → Cursors → Option (Int × Sys σ × Cursors)
  | 0, _, _ => none
  | fuel + 1, s, c =>
    match loop_body E inp s c with
    | none => none
    | some (LoopStep.exit result s c) => some (result, s, c)
    | some (LoopStep.next s c) => conv_core_loop E inp fuel s c

/-- The function `iconv_cgo_conv_core`: returns `result`, the state, and the
values stored in `*out` (the contents of `h->buf`) and `*out_size`. -/
def iconv_cgo_conv_core {σ : Type} (E : Env σ) (fuel : Nat) (s : Sys σ)
    (inp : List Byte) (in_size : Nat) : Option (Int × Sys σ × List Byte × Nat) :=
  match conv_core_loop E inp fuel s
      { in_left := 0, in_size_left := in_size, out_left := 0,
        out_size_left := s.h.buf_size } with
  | none => none
  | some (result, s, c) =>
    some (result, s, s.h.buf.getD [], size_sub E.w s.h.buf_size c.out_size_left)

/-- The result of `iconv_cgo_conv`: the return value, the handle, `errno`, the
trace, and the cells `*out` and `*out_size` of the caller (`none` when the
pointer passed is `NULL`). -/
structure ConvRet (σ : Type) where
  result : Int
  h : Option (iconv_cgo_t σ)
  errno : Errno
  trace : List Event
  out : Option (List Byte)
  out_size : Option Nat

/-- The effect of `iconv(h->cd, NULL, NULL, NULL, NULL)`. -/
def call_reset {σ : Type} (E : Env σ) (s : Sys σ) (cd : σ) : Option Errno × Sys σ :=
  match E.iconv_reset cd with
  | (cd, err) =>
    (err, { h := { s.h with cd := some cd }, errno := err.getD s.errno,
            trace := s.trace ++ [Event.reset] })

/-- The statement `if (h->buf != NULL) { if (iconv(h->cd, NULL, NULL, NULL,
NULL) == (size_t)-1) return -1; }` of `iconv_cgo_conv`: the error of the
reset, if it was called and failed, and the state. -/
def conv_reset {σ : Type} (E : Env σ) (s : Sys σ) (cd : σ) : Option Errno × Sys σ :=
  if s.h.buf.isSome then call_reset E s cd else (none, s)

/-- The function `iconv_cgo_conv`. `inp = none` is `in == NULL`; `out` and
`out_size` are the caller's cells with their contents before the call. -/
def iconv_cgo_conv {σ : Type} (E : Env σ) (fuel : Nat) (errno : Errno) (trace : List Event)
    (h : Option (iconv_cgo_t σ)) (inp : Option (List Byte)) (in_size : Nat)
    (out : Option (List Byte)) (out_size : Option Nat) : Option (ConvRet σ) :=
  match h with
  | none =>
    some { result := -1, h := h, errno := Errno.EINVAL, trace := trace,
           out := out, out_size := out_size }
  | some hd =>
    match hd.cd with
    | none =>
      some { result := -1, h := h, errno := Errno.EINVAL, trace := trace,
             out := out, out_size := out_size }
    | some cd =>
      if (inp.isNone ∧ in_size ≠ 0) ∨ (out.isNone ∨ out_size.isNone) then
        some { result := -1, h := h, errno := Errno.EINVAL, trace := trace,
               out := out, out_size := out_size }
      else
        let out : Option (List Byte) := some []
        let out_size : Option Nat := some 0
        if in_size = 0 then
          some { result := 0, h := h, errno := errno, trace := trace,
                 out := out, out_size := out_size }
        else
          let s : Sys σ := { h := hd, errno := errno, trace := trace }
          match conv_reset E s cd with
          | (some _, s) =>
            some { result := -1, h := some s.h, errno := s.errno, trace := s.trace,
                   out := out, out_size := out_size }
          | (none, s) =>
            match iconv_cgo_alloc E s in_size with
            | none => none
            | some (r, s) =>
              if r = -1 then
                some { result := -1, h := some s.h, errno := s.errno, trace := s.trace,
                       out := out, out_size := out_size }
              else
                match iconv_cgo_conv_core E fuel s (inp.getD []) in_size with
                | none => none
                | some (result, s, buf, size) =>
                  some { result := result, h := some s.h, errno := s.errno, trace := s.trace,
                         out := some buf, out_size := some size }

/-! ## A small converter for concrete runs

A converter from UTF-8 (sequences of one or two bytes) to a stateful
seven-bit code: an ASCII byte is copied in shift state `0`; a two-byte
sequence is written as one byte in shift state `1`; `0x0E` enters state `1`
and `0x0F` leaves it. Any other lead byte is invalid, and a lead byte at the
end of the input is incomplete. -/

/-- One call of the converter on an input window with `room` bytes of output. -/
def toy_scan (st : Nat) (consumed : Nat) (acc : List Byte) :
    List Byte → Nat → IconvOut Nat
  | [], _ => { cd := st, consumed := consumed, produced := acc, err := none }
  | b :: rest, room =>
    if b < 0x80 then
      let bs := if st = 1 then [0x0F, b] else [b]
      if bs.length ≤ room then toy_scan 0 (consumed + 1) (acc ++ bs) rest (room - bs.length)
      else { cd := st, consumed := consumed, produced := acc, err := some Errno.E2BIG }
    else if 0xC2 ≤ b ∧ b ≤ 0xDF then
      match rest with
      | [] => { cd := st, consumed := consumed, produced := acc, err := some Errno.EINVAL }
      | b2 :: rest2 =>
        if 0x80 ≤ b2 ∧ b2 < 0xC0 then
          let c := (b % 4) * 64 + b2 % 64 - 0x80
          let bs := if st = 1 then [c] else [0x0E, c]
          if bs.length ≤ room then
            toy_scan 1 (consumed + 2) (acc ++ bs) rest2 (room - bs.length)
          else { cd := st, consumed := consumed, produced := acc, err := some Errno.E2BIG }
        else { cd := st, consumed := consumed, produced := acc, err := some Errno.EILSEQ }
    else { cd := st, consumed := consumed, produced := acc, err := some Errno.EILSEQ }

/-- The flush call of the converter: leave shift state `1`. -/
def toy_flush (st : Nat) (room : Nat) : IconvOut Nat :=
  if st = 1 then
    if 1 ≤ room then { cd := 0, consumed := 0, produced := [0x0F], err := none }
    else { cd := st, consumed := 0, produced := [], err := some Errno.E2BIG }
  else { cd := st, consumed := 0, produced := [], err := none }

/-- A 64-bit environment with the converter above; every code pair opens,
every close and every allocation succeeds. -/
def toyEnv : Env Nat :=
  { w := 64,
    iconv_open := fun _ _ => Except.ok 0,
    iconv_close := fun _ => none,
    iconv_reset := fun _ => (0, none),
    iconv_step := fun st inp room => toy_scan st 0 [] inp room,
    iconv_flush := toy_flush,
    malloc_ok := fun _ => true,
    realloc_ok := fun _ _ => true }

/-- The handle `iconv_cgo_open` returns in `toyEnv` for a pair of names. -/
def toyOpen (to_code from_code : String) : Option (iconv_cgo_t Nat) :=
  (iconv_cgo_open toyEnv Errno.E0 [] (some to_code.toList) (some from_code.toList)).h

/-- The handle that `toyOpen` returns. -/
def toyHandle (to_code from_code : String) : iconv_cgo_t Nat :=
  { cd := some 0, to_code := some to_code.toList, from_code := some from_code.toList,
    suffix := iconv_cgo_set_suffix to_code.toList, buf := none, buf_size := 0 }

/-- The state in which `iconv_cgo_conv` enters the driver for the first
conversion on `toyHandle`: the buffer has just been allocated with the minimum
capacity. -/
def toyReady (to_code from_code : String) : Sys Nat :=
  { h := { toyHandle to_code from_code with buf := some [], buf_size := 256 },
    errno := Errno.E0, trace := [Event.realloc 256] }

/-- What `iconv_cgo_conv` returns on `toyHandle "UTF-8" "UTF-8"` for the input
`"A\xFFB"`: a failure with `EILSEQ` after the byte `A` was converted. -/
def toyFailedRet : ConvRet Nat :=
  { result := -1,
    h := some { toyHandle "UTF-8" "UTF-8" with buf := some [65], buf_size := 256 },
    errno := Errno.EILSEQ,
    trace := [Event.realloc 256, Event.step [65]],
    out := some [65],
    out_size := some 1 }

/-- A 64-bit environment with a converter whose shift state is the parity of
the number of bytes converted so far: a step adds the state to every byte, a
flush writes `0x0F` in state `1` and keeps the state, a reset returns to
state `0`. No call depends on the room in the output window. -/
def shiftEnv : Env Nat :=
  { w := 64,
    iconv_open := fun _ _ => Except.ok 0,
    iconv_close := fun _ => none,
    iconv_reset := fun _ => (0, none),
    iconv_step := fun st win _ =>
      { cd := (st + win.length) % 2, consumed := win.length,
        produced := win.map (fun b => b + st), err := none },
    iconv_flush := fun st _ =>
      { cd := st, consumed := 0, produced := if st = 1 then [0x0F] else [], err := none },
    malloc_ok := fun _ => true,
    realloc_ok := fun _ _ => true }

/-- The session that `iconv_cgo_open` returns in `shiftEnv`. -/
def shiftFresh : Sys Nat :=
  { h := toyHandle "X" "Y", errno := Errno.E0, trace := [Event.open] }

/-- What `iconv_cgo_conv` returns on `shiftFresh` for the input `"A"`. -/
def shiftRet : ConvRet Nat :=
  { result := 0,
    h := some { toyHandle "X" "Y" with cd := some 1, buf := some [65, 15], buf_size := 256 },
    errno := Errno.E0,
    trace := [Event.open, Event.realloc 256, Event.step [65], Event.flush [15]],
    out := some [65, 15],
    out_size := some 2 }

/-- The session `shiftFresh` after the conversion of `"A"`: the converter is
left in shift state `1`. -/
def shiftUsed : Sys Nat :=
  { h := { toyHandle "X" "Y" with cd := some 1, buf := some [65, 15], buf_size := 256 },
    errno := Errno.E0,
    trace := [Event.open, Event.realloc 256, Event.step [65], Event.flush [15]] }

/-- The state of the driver on `toyReady "X//IGNORE" "UTF-8"` after one pass
through the loop on an input that starts with `"A\xFF"`: `A` is converted and
the invalid byte is skipped. -/
def toySkipped : Sys Nat :=
  { h := { toyHandle "X//IGNORE" "UTF-8" with buf := some [65], buf_size := 256 },
    errno := Errno.E0,
    trace := [Event.realloc 256, Event.step [65]] }

/-- The local variables of the driver in the state `toySkipped` for an input
of five bytes. -/
def toySkippedCur : Cursors :=
  { in_left := 2, in_size_left := 3, out_left := 1, out_size_left := 255 }

/-! ## Vocabulary of the statements -/

/-- The bytes that a call stored in the output window. -/
def Event.bytes : Event → List Byte
  | Event.step produced => produced
  | Event.flush produced => produced
  | _ => []

/-- The bytes stored by the calls of a trace, in call order. -/
def trace_bytes : List Event → List Byte
  | [] => []
  | e :: rest => e.bytes ++ trace_bytes rest

/-- The event is a call of `iconv` with an input. -/
def Event.is_step : Event → Bool
  | Event.step _ => true
  | _ => false

/-- The event is a call of `iconv` that flushes. -/
def Event.is_flush : Event → Bool
  | Event.flush _ => true
  | _ => false

/-- The state of the loop of `iconv_cgo_conv_core` after `n` passes through
its body that all ended in `continue`, when there is one. -/
def loop_at {σ : Type} (E : Env σ) (inp : List Byte) :
    Nat → Sys σ → Cursors → Option (Sys σ × Cursors)
  | 0, s, c => some (s, c)
  | n + 1, s, c =>
    match loop_body E inp s c with
    | some (LoopStep.next s c) => loop_at E inp n s c
    | _ => none

/-- The output cursor and the room left add up to the capacity, as `size_t`
values. -/
def out_inv (w buf_size out_left out_size_left : Nat) : Prop :=
  (out_left + out_size_left) % 2 ^ w = buf_size % 2 ^ w

/-- The state in which a pass through the loop body ends. -/
def LoopStep.sys {σ : Type} : LoopStep σ → Sys σ
  | LoopStep.exit _ s _ => s
  | LoopStep.next s _ => s

/-- The local variables with which a pass through the loop body ends. -/
def LoopStep.cur {σ : Type} : LoopStep σ → Cursors
  | LoopStep.exit _ _ c => c
  | LoopStep.next _ c => c

/-- What a pass through the loop body that calls the primitive has done when
it ends in state `s1` with variables `c1`, having started in `s` with `c` and
buffer contents `mem`: it called `step` once and after it only flushes and
reallocations; the buffer is allocated; the policy is unchanged; the capacity
is the same or doubled; cursor and room still add up to the capacity; and,
when the bytes fit the size domain, the buffer below the cursor has grown by
exactly the bytes that the calls produced. -/
def body_post {σ : Type} (w : Nat) (s : Sys σ) (c : Cursors) (mem : List Byte)
    (s1 : Sys σ) (c1 : Cursors) : Prop :=
  ∃ p ev mem1, s1.trace = s.trace ++ Event.step p :: ev ∧
    (∀ e ∈ ev, e.is_step = false ∧ e ≠ Event.reset) ∧
    s1.h.buf = some mem1 ∧ s1.h.suffix = s.h.suffix ∧ s1.h.cd.isSome = true ∧
    (s1.h.buf_size = s.h.buf_size ∨
      (s.h.buf_size < ICONV_CGO_MAX_BUF_SIZE w ∧
        s1.h.buf_size = (s.h.buf_size * 2) % 2 ^ w)) ∧
    out_inv w s1.h.buf_size c1.out_left c1.out_size_left ∧
    (c.out_left + (trace_bytes (Event.step p :: ev)).length < 2 ^ w →
      c1.out_left = c.out_left + (trace_bytes (Event.step p :: ev)).length ∧
      mem_read mem1 c1.out_left = mem_read mem c.out_left ++ trace_bytes (Event.step p :: ev))

/-- A capacity is `0` or a power of two from `256 = 2 ^ 8` up to the maximum
`2 ^ (w - 1)`. -/
def cap_ok (w buf_size : Nat) : Prop :=
  buf_size = 0 ∨ ∃ a, 8 ≤ a ∧ a ≤ w - 1 ∧ buf_size = 2 ^ a

/-- A session on which no conversion has run: the converter is open, there is
no buffer, and the trace has no step and no flush. `iconv_cgo_open` returns
such a session. -/
def fresh {σ : Type} (s0 : Sys σ) : Prop :=
  s0.h.cd.isSome = true ∧ s0.h.buf = none ∧ s0.h.buf_size = 0 ∧
  ∀ e ∈ s0.trace, e.is_step = false ∧ e.is_flush = false

/-- The states of a session that a sequence of calls of `iconv_cgo_conv`,
with any arguments, reaches from `s0`. -/
inductive Reach {σ : Type} (E : Env σ) (s0 : Sys σ) : Sys σ → Prop
  | start : Reach E s0 s0
  | conv {s : Sys σ} {fuel : Nat} {inp : Option (List Byte)} {in_size : Nat}
      {out : Option (List Byte)} {out_size : Option Nat} {r : ConvRet σ}
      {h1 : iconv_cgo_t σ} :
      Reach E s0 s →
      iconv_cgo_conv E fuel s.errno s.trace (some s.h) inp in_size out out_size = some r →
      r.h = some h1 →
      Reach E s0 { h := h1, errno := r.errno, trace := r.trace }

/-- What every state of a session started in `s0` satisfies. -/
def session_inv {σ : Type} (w : Nat) (s0 s : Sys σ) : Prop :=
  s.h.suffix = s0.h.suffix ∧ s.h.cd.isSome = true ∧ (9 ≤ w → cap_ok w s.h.buf_size) ∧
  (s.h.buf = none → s.h.cd = s0.h.cd ∧ s.h.buf_size = 0 ∧
    ∀ e ∈ s.trace, e.is_step = false ∧ e.is_flush = false)

/-- The output of the primitive does not depend on the size of the output
window: a step and a flush give the same result for every window size, and so
never report `E2BIG`. -/
def window_free {σ : Type} (E : Env σ) : Prop :=
  (∀ cd win n, E.iconv_step cd win n = E.iconv_step cd win 0) ∧
  (∀ cd win n, (E.iconv_step cd win n).err ≠ some Errno.E2BIG) ∧
  (∀ cd n, E.iconv_flush cd n = E.iconv_flush cd 0) ∧
  (∀ cd n, (E.iconv_flush cd n).err ≠ some Errno.E2BIG)

/-- Two sessions agree on what a conversion can observe at output cursor
`ol`: the converter state, the policy and the buffer below the cursor; in
each, cursor and room add up to the capacity. -/
def sim_out {σ : Type} (w : Nat) (s t : Sys σ) (ol osl osl1 : Nat) : Prop :=
  s.h.cd = t.h.cd ∧ s.h.suffix = t.h.suffix ∧
  (∃ m1 m2, s.h.buf = some m1 ∧ t.h.buf = some m2 ∧ mem_read m1 ol = mem_read m2 ol) ∧
  out_inv w s.h.buf_size ol osl ∧ out_inv w t.h.buf_size ol osl1

/-- Two states of the driver loop that agree on the input cursor, the output
cursor and on what `sim_out` lists. -/
def sim {σ : Type} (w : Nat) (s t : Sys σ) (c d : Cursors) : Prop :=
  c.in_left = d.in_left ∧ c.in_size_left = d.in_size_left ∧ c.out_left = d.out_left ∧
  sim_out w s t c.out_left c.out_size_left d.out_size_left

/-- Two passes through the loop body end the same way, in states that agree. -/
def sim_step {σ : Type} (w : Nat) : LoopStep σ → LoopStep σ → Prop
  | LoopStep.exit r1 s1 c1, LoopStep.exit r2 t1 d1 => r1 = r2 ∧ sim w s1 t1 c1 d1
  | LoopStep.next s1 c1, LoopStep.next t1 d1 => sim w s1 t1 c1 d1
  | _, _ => False

/-- The result of a call and the bytes of the view it reports. -/
def ConvRet.outcome {σ : Type} (r : ConvRet σ) : Int × List Byte :=
  (r.result, mem_read (r.out.getD []) (r.out_size.getD 0))

/-- The bytes that `*out`, `*out_size` describe after a call. -/
def ConvRet.view {σ : Type} (r : ConvRet σ) : List Byte :=
  mem_read (r.out.getD []) (r.out_size.getD 0)

/-- The two-character marker `//` occurs in `s` at position `i`. -/
def marker_at (s : List Char) (i : Nat) : Prop :=
  "//".toList.isPrefixOf (s.drop i) = true

instance (s : List Char) (i : Nat) : Decidable (marker_at s i) := by
  unfold marker_at; infer_instance

/-- Position `i` is the first occurrence of `//` in `s`. -/
def is_first_marker (s : List Char) (i : Nat) : Prop :=
  marker_at s i ∧ ∀ j, j < i → ¬ marker_at s j

/-- Position `i` is the last occurrence of `//` in `s`. -/
def is_last_marker (s : List Char) (i : Nat) : Prop :=
  marker_at s i ∧ ∀ j, j < s.length → i < j → ¬ marker_at s j

instance (s : List Char) (i : Nat) : Decidable (is_last_marker s i) := by
  unfold is_last_marker; infer_instance

/-- The sizing loop of `iconv_cgo_alloc` on unbounded natural numbers: the
doubling never wraps. -/
def grow_exact (out_size : Nat) : Nat → Nat → Option Nat
  | 0, _ => none
  | fuel + 1, buf_size =>
    if buf_size < out_size then grow_exact out_size fuel (buf_size * 2) else some buf_size

/-- The value `m` is the smallest capacity of the form `256 * 2 ^ j` that
covers `out_size`. -/
def is_min_cap (m out_size : Nat) : Prop :=
  (∃ j, m = 256 * 2 ^ j) ∧ out_size ≤ m ∧ ∀ j, out_size ≤ 256 * 2 ^ j → m ≤ 256 * 2 ^ j

/-- The session that `iconv_cgo_open` returns in `toyEnv` for `UTF-8` to
`UTF-8`, with an empty trace. -/
def toyFresh : Sys Nat :=
  { h := toyHandle "UTF-8" "UTF-8", errno := Errno.E0, trace := [] }

/-- A state of the driver on `toyHandle "UTF-8" "UTF-8"` in which the
converter is in shift state `1` and the buffer of capacity `256` is full. -/
def toyFull : Sys Nat :=
  { h := { toyHandle "UTF-8" "UTF-8" with cd := some 1, buf := some (List.replicate 256 65),
                                          buf_size := 256 },
    errno := Errno.E0, trace := [Event.realloc 256] }

/-- The event is a call of `realloc`. -/
def Event.is_realloc : Event → Bool
  | Event.realloc _ => true
  | _ => false

/-- The local variables with which the driver enters the loop on
`toyReady` for an input of three bytes. -/
def toyStartCur : Cursors :=
  { in_left := 0, in_size_left := 3, out_left := 0, out_size_left := 256 }

/-- What `iconv_cgo_conv` returns on `toyFresh` for the input `"AB"`. -/
def toyOkRet : ConvRet Nat :=
  { result := 0,
    h := some { toyHandle "UTF-8" "UTF-8" with buf := some [65, 66], buf_size := 256 },
    errno := Errno.E0,
    trace := [Event.realloc 256, Event.step [65, 66], Event.flush []],
    out := some [65, 66],
    out_size := some 2 }

/-! ## The accessors and `close` -/

/-- C1: on the handle opened with destination `UTF-8` and source `CP932`,
`iconv_cgo_get_to_code` returns the source name `CP932`, not the stored
destination name. -/
theorem get_to_code_returns_from_code :
    iconv_cgo_get_to_code (toyOpen "UTF-8" "CP932") = "CP932".toList ∧
    iconv_cgo_get_to_code (toyOpen "UTF-8" "CP932") ≠ "UTF-8".toList ∧
    (toyOpen "UTF-8" "CP932").map (fun h => h.to_code) = some (some "UTF-8".toList) := by
  decide

/-- C4: closing a live handle whose `iconv_close` succeeds (it reports no
error) still returns `-1`. -/
theorem close_live_returns_failure :
    toyEnv.iconv_close 0 = none ∧
    (toyOpen "UTF-8" "CP932").map (fun h => h.cd) = some (some 0) ∧
    (iconv_cgo_close toyEnv Errno.E0 [] (toyOpen "UTF-8" "CP932")).result = -1 := by
  decide

/-! ## The suffix classifier -/

theorem strstr_some {n : List Char} :
    ∀ {s suf : List Char}, strstr s n = some suf →
      ∃ i, suf = s.drop i ∧ n.isPrefixOf (s.drop i) = true ∧
        ∀ j, j < i → ¬ n.isPrefixOf (s.drop j) = true := by
  intro s
  induction s with
  | nil =>
    intro suf h
    unfold strstr at h
    split at h
    · rename_i hn
      refine ⟨0, ?_, ?_, ?_⟩
      · simpa using (Option.some.inj h).symm
      · subst hn; rfl
      · intro j hj; omega
    · cases h
  | cons c rest ih =>
    intro suf h
    unfold strstr at h
    split at h
    · rename_i hp
      refine ⟨0, ?_, ?_, ?_⟩
      · simpa using (Option.some.inj h).symm
      · simpa using hp
      · intro j hj; omega
    · rename_i hp
      obtain ⟨i, h1, h2, h3⟩ := ih h
      refine ⟨i + 1, ?_, ?_, ?_⟩
      · simpa using h1
      · simpa using h2
      · intro j hj
        cases j with
        | zero => simpa using hp
        | succ k =>
          have := h3 k (by omega)
          simpa using this

theorem strstr_none {n : List Char} :
    ∀ {s : List Char}, strstr s n = none → ∀ j, ¬ n.isPrefixOf (s.drop j) = true := by
  intro s
  induction s with
  | nil =>
    intro h j
    unfold strstr at h
    split at h
    · cases h
    · rename_i hn
      cases n with
      | nil => exact absurd rfl hn
      | cons a t => simp [List.isPrefixOf]
  | cons c rest ih =>
    intro h j
    unfold strstr at h
    split at h
    · cases h
    · rename_i hp
      cases j with
      | zero => simpa using hp
      | succ k => simpa using ih h k

theorem first_marker_unique {s : List Char} {i j : Nat}
    (hi : is_first_marker s i) (hj : is_first_marker s j) : i = j := by
  rcases Nat.lt_trichotomy i j with h | h | h
  · exact absurd hi.1 (hj.2 i h)
  · exact h
  · exact absurd hj.1 (hi.2 j h)

/-- C10, as the code has it: the classifier takes the suffix starting at the
FIRST occurrence of `//` in `to_code`; it returns IGNORE iff that suffix is
exactly `//IGNORE`, TRANSLIT iff it is exactly `//TRANSLIT`, and NONE in
every other case, also when `//` is absent. -/
theorem set_suffix_first_marker (to_code : List Char) :
    (iconv_cgo_set_suffix to_code = Suffix.IGNORE ↔
      ∃ i, is_first_marker to_code i ∧ to_code.drop i = ICONV_CGO_SUFFIX_IGNORE_STR) ∧
    (iconv_cgo_set_suffix to_code = Suffix.TRANSLIT ↔
      ∃ i, is_first_marker to_code i ∧ to_code.drop i = ICONV_CGO_SUFFIX_TRANSLIT_STR) ∧
    (iconv_cgo_set_suffix to_code = Suffix.NONE ↔
      ¬ ∃ i, is_first_marker to_code i ∧
        (to_code.drop i = ICONV_CGO_SUFFIX_IGNORE_STR ∨
         to_code.drop i = ICONV_CGO_SUFFIX_TRANSLIT_STR)) := by
  have hne : ICONV_CGO_SUFFIX_TRANSLIT_STR ≠ ICONV_CGO_SUFFIX_IGNORE_STR := by decide
  unfold iconv_cgo_set_suffix
  cases hs : strstr to_code "//".toList with
  | none =>
    have hno := strstr_none hs
    have hnone : ∀ i, ¬ is_first_marker to_code i := fun i hi => hno i hi.1
    dsimp only
    refine ⟨⟨?_, ?_⟩, ⟨?_, ?_⟩, ⟨?_, ?_⟩⟩
    · intro h; cases h
    · rintro ⟨i, hi, _⟩; exact absurd hi (hnone i)
    · intro h; cases h
    · rintro ⟨i, hi, _⟩; exact absurd hi (hnone i)
    · rintro _ ⟨i, hi, _⟩; exact hnone i hi
    · intro _; rfl
  | some suf =>
    obtain ⟨i, h1, h2, h3⟩ := strstr_some hs
    have hfirst : is_first_marker to_code i := ⟨h2, h3⟩
    have huniq : ∀ k, is_first_marker to_code k → to_code.drop k = suf := by
      intro k hk
      rw [first_marker_unique hk hfirst, h1]
    dsimp only
    by_cases ht : suf = ICONV_CGO_SUFFIX_TRANSLIT_STR
    · have hni : suf ≠ ICONV_CGO_SUFFIX_IGNORE_STR := fun h => hne (ht.symm.trans h)
      rw [if_pos ht]
      refine ⟨⟨?_, ?_⟩, ⟨?_, ?_⟩, ⟨?_, ?_⟩⟩
      · intro h; cases h
      · rintro ⟨k, hk, hk2⟩
        exact absurd ((huniq k hk).symm.trans hk2) hni
      · intro _; exact ⟨i, hfirst, by rw [← h1, ht]⟩
      · intro _; rfl
      · intro h; cases h
      · intro h
        exact absurd ⟨i, hfirst, Or.inr (by rw [← h1, ht])⟩ h
    · by_cases hi : suf = ICONV_CGO_SUFFIX_IGNORE_STR
      · rw [if_neg ht, if_pos hi]
        refine ⟨⟨?_, ?_⟩, ⟨?_, ?_⟩, ⟨?_, ?_⟩⟩
        · intro _; exact ⟨i, hfirst, by rw [← h1, hi]⟩
        · intro _; rfl
        · intro h; cases h
        · rintro ⟨k, hk, hk2⟩
          exact absurd ((huniq k hk).symm.trans hk2) ht
        · intro h; cases h
        · intro h
          exact absurd ⟨i, hfirst, Or.inl (by rw [← h1, hi])⟩ h
      · rw [if_neg ht, if_neg hi]
        refine ⟨⟨?_, ?_⟩, ⟨?_, ?_⟩, ⟨?_, ?_⟩⟩
        · intro h; cases h
        · rintro ⟨k, hk, hk2⟩
          exact absurd ((huniq k hk).symm.trans hk2) hi
        · intro h; cases h
        · rintro ⟨k, hk, hk2⟩
          exact absurd ((huniq k hk).symm.trans hk2) ht
        · rintro _ ⟨k, hk, hk2 | hk2⟩
          · exact absurd ((huniq k hk).symm.trans hk2) hi
          · exact absurd ((huniq k hk).symm.trans hk2) ht
        · intro _; rfl

/-- C10, as specified, fails: in `UTF-8//TRANSLIT//IGNORE` the last
occurrence of `//` is at position 15 and the suffix from there is exactly
`//IGNORE`, yet the classifier returns NONE. -/
theorem set_suffix_last_marker_counterexample :
    is_last_marker "UTF-8//TRANSLIT//IGNORE".toList 15 ∧
    "UTF-8//TRANSLIT//IGNORE".toList.drop 15 = ICONV_CGO_SUFFIX_IGNORE_STR ∧
    iconv_cgo_set_suffix "UTF-8//TRANSLIT//IGNORE".toList = Suffix.NONE := by
  decide

/-! ## `iconv_cgo_conv`: the checks before the driver -/

/-- C8: on a valid session, `iconv_cgo_conv` with `in_size = 0` returns `0`
whatever the fuel, reports the empty view (`*out = ""`, `*out_size = 0`),
adds no event to the trace (no reset, step or flush) and leaves the handle,
so its buffer and capacity, and `errno` as they were. -/
theorem conv_empty_input {σ : Type} (E : Env σ) (fuel : Nat) (errno : Errno)
    (trace : List Event) (hd : iconv_cgo_t σ) (cd : σ) (inp : Option (List Byte))
    (out : List Byte) (out_size : Nat) (hcd : hd.cd = some cd) :
    iconv_cgo_conv E fuel errno trace (some hd) inp 0 (some out) (some out_size) =
      some { result := 0, h := some hd, errno := errno, trace := trace,
             out := some [], out_size := some 0 } := by
  simp [iconv_cgo_conv, hcd]

theorem conv_empty_input_witness :
    iconv_cgo_conv toyEnv 0 Errno.EOTHER [Event.open] (some (toyHandle "UTF-8" "CP932"))
        none 0 (some [1, 2, 3]) (some 3) =
      some { result := 0, h := some (toyHandle "UTF-8" "CP932"), errno := Errno.EOTHER,
             trace := [Event.open], out := some [], out_size := some 0 } :=
  conv_empty_input toyEnv 0 Errno.EOTHER [Event.open] (toyHandle "UTF-8" "CP932") 0 none
    [1, 2, 3] 3 rfl

theorem double_wraps {M n : Nat} (hlt : n < M) (hov : M ≤ n * 2) : n * 2 % M < n := by
  rw [Nat.mod_eq_sub_mod hov, Nat.mod_eq_of_lt (by omega)]
  omega

theorem alloc_overflow {σ : Type} (E : Env σ) (s : Sys σ) (in_size : Nat)
    (hlt : in_size < 2 ^ E.w) (hov : 2 ^ E.w ≤ in_size * 2) :
    iconv_cgo_alloc E s in_size = some (-1, { s with errno := Errno.EINVAL }) := by
  unfold iconv_cgo_alloc
  simp only [if_pos (double_wraps hlt hov)]

/-- C7, as the code has it: on a valid session a request whose `in_size * 2`
wraps makes no step and no flush call and leaves the buffer and its capacity
unchanged. On a session without a buffer it makes no external call at all and
fails with `EINVAL`; on a session that has a buffer it first calls the
reset, once, and then fails with `EINVAL` when the reset succeeded and with
the error of the reset otherwise. -/
theorem conv_overflow {σ : Type} (E : Env σ) (fuel : Nat) (errno : Errno)
    (trace : List Event) (hd : iconv_cgo_t σ) (cd : σ) (inp : List Byte) (in_size : Nat)
    (out : List Byte) (out_size : Nat) (hcd : hd.cd = some cd)
    (hlt : in_size < 2 ^ E.w) (hov : 2 ^ E.w ≤ in_size * 2) :
    ∃ r h', iconv_cgo_conv E fuel errno trace (some hd) (some inp) in_size
        (some out) (some out_size) = some r ∧
      r.result = -1 ∧ r.out = some [] ∧ r.out_size = some 0 ∧
      r.h = some h' ∧ h'.buf = hd.buf ∧ h'.buf_size = hd.buf_size ∧
      (hd.buf = none → r.trace = trace ∧ r.errno = Errno.EINVAL) ∧
      (hd.buf ≠ none → r.trace = trace ++ [Event.reset] ∧
        ((E.iconv_reset cd).2 = none → r.errno = Errno.EINVAL) ∧
        (∀ e, (E.iconv_reset cd).2 = some e → r.errno = e)) := by
  have hne : in_size ≠ 0 := by
    have : 0 < 2 ^ E.w := Nat.pos_of_ne_zero (by simp)
    omega
  cases hb : hd.buf with
  | none =>
    refine ⟨{ result := -1, h := some hd, errno := Errno.EINVAL, trace := trace,
              out := some [], out_size := some 0 }, hd, ?_, ?_⟩
    · simp [iconv_cgo_conv, hcd, hne, hb, conv_reset, alloc_overflow E _ in_size hlt hov]
    · simp [hb]
  | some mem =>
    cases hr : E.iconv_reset cd with
    | mk cd' err =>
      cases err with
      | none =>
        refine ⟨{ result := -1, h := some { hd with cd := some cd' }, errno := Errno.EINVAL,
                  trace := trace ++ [Event.reset], out := some [], out_size := some 0 },
                { hd with cd := some cd' }, ?_, ?_⟩
        · simp [iconv_cgo_conv, hcd, hne, hb, conv_reset, call_reset, hr,
            alloc_overflow E _ in_size hlt hov]
        · simp [hb]
      | some e =>
        refine ⟨{ result := -1, h := some { hd with cd := some cd' }, errno := e,
                  trace := trace ++ [Event.reset], out := some [], out_size := some 0 },
                { hd with cd := some cd' }, ?_, ?_⟩
        · simp [iconv_cgo_conv, hcd, hne, hb, conv_reset, call_reset, hr]
        · simp [hb]

theorem conv_overflow_witness :
    ∃ r h', iconv_cgo_conv toyEnv 0 Errno.E0 [Event.open] (some (toyHandle "UTF-8" "CP932"))
        (some [65]) (2 ^ 63) (some []) (some 0) = some r ∧
      r.result = -1 ∧ r.out = some [] ∧ r.out_size = some 0 ∧
      r.h = some h' ∧ h'.buf = (toyHandle "UTF-8" "CP932").buf ∧
      h'.buf_size = (toyHandle "UTF-8" "CP932").buf_size ∧
      ((toyHandle "UTF-8" "CP932").buf = none →
        r.trace = [Event.open] ∧ r.errno = Errno.EINVAL) ∧
      ((toyHandle "UTF-8" "CP932").buf ≠ none → r.trace = [Event.open] ++ [Event.reset] ∧
        ((toyEnv.iconv_reset 0).2 = none → r.errno = Errno.EINVAL) ∧
        (∀ e, (toyEnv.iconv_reset 0).2 = some e → r.errno = e)) :=
  conv_overflow toyEnv 0 Errno.E0 [Event.open] (toyHandle "UTF-8" "CP932") 0 [65] (2 ^ 63)
    [] 0 rfl (by decide) (by decide)

/-- C7, as specified, fails: after one conversion of `"A"` the session
has a buffer, and a second request with `in_size = 2 ^ 63` (whose double
wraps in 64 bits) calls the reset before it fails with `EINVAL`. -/
theorem conv_overflow_counterexample :
    (iconv_cgo_conv toyEnv 1 Errno.E0 [] (toyOpen "UTF-8" "UTF-8") (some [65]) 1
        (some []) (some 0)).bind (fun r1 =>
      (iconv_cgo_conv toyEnv 1 r1.errno r1.trace r1.h (some [65]) (2 ^ 63)
        (some []) (some 0)).map (fun r2 =>
          (r1.result, r1.trace, r2.result, r2.errno, r2.trace))) =
      some (0, [Event.realloc 256, Event.step [65], Event.flush []], -1, Errno.EINVAL,
        [Event.realloc 256, Event.step [65], Event.flush [], Event.reset]) := by
  decide

/-! ## Memory and `size_t` arithmetic -/

theorem mem_read_length (mem : List Byte) (n : Nat) : (mem_read mem n).length = n := by
  unfold mem_read
  simp only [List.length_take, List.length_append, List.length_replicate]
  omega

theorem mem_read_write (mem : List Byte) (off : Nat) (bs : List Byte) :
    mem_read (mem_write mem off bs) (off + bs.length) = mem_read mem off ++ bs := by
  have hlen : (mem_read mem off ++ bs).length = off + bs.length := by
    simp [mem_read_length]
  unfold mem_write
  generalize mem_read mem off ++ bs = pre at hlen
  unfold mem_read
  rw [List.append_assoc, List.take_append_eq_append_take]
  simp [hlen]

theorem mem_read_take (mem : List Byte) {n k : Nat} (h : n ≤ k) :
    mem_read mem n = (mem_read mem k).take n := by
  unfold mem_read
  rw [List.take_take, Nat.min_eq_left h]
  by_cases hn : n ≤ mem.length
  · rw [List.take_append_of_le_length hn, List.take_append_of_le_length hn]
  · have h1 : mem.length ≤ n := by omega
    rw [List.take_append_eq_append_take, List.take_append_eq_append_take]
    simp [List.take_of_length_le h1, List.take_replicate]
    omega

theorem mem_read_write_below (mem : List Byte) (off : Nat) (bs : List Byte) {n : Nat}
    (h : n ≤ off) : mem_read (mem_write mem off bs) n = mem_read mem n := by
  rw [mem_read_take (mem_write mem off bs) (show n ≤ off + bs.length by omega),
    mem_read_write, List.take_append_of_le_length (by rw [mem_read_length]; exact h),
    ← mem_read_take mem h]

theorem size_sub_lt (w a b : Nat) : size_sub w a b < 2 ^ w :=
  Nat.mod_lt _ (Nat.pos_of_ne_zero (by simp))

/-- Subtracting what was added to the cursor keeps cursor + room congruent. -/
theorem size_sub_add (w a b : Nat) : (size_sub w a b + b) % 2 ^ w = a % 2 ^ w := by
  unfold size_sub
  have hM : 0 < 2 ^ w := Nat.pos_of_ne_zero (by simp)
  have hb : b % 2 ^ w < 2 ^ w := Nat.mod_lt _ hM
  have h1 : (a + 2 ^ w - b % 2 ^ w) % 2 ^ w + b ≡ (a + 2 ^ w - b % 2 ^ w) + b % 2 ^ w
      [MOD 2 ^ w] :=
    Nat.ModEq.add (Nat.mod_modEq _ _) (Nat.mod_modEq _ _).symm
  have h2 : a + 2 ^ w - b % 2 ^ w + b % 2 ^ w = a + 2 ^ w := by omega
  rw [h2] at h1
  exact h1.trans (by simp [Nat.ModEq])

theorem size_sub_of_sum {w ol osl bs : Nat} (h : (ol + osl) % 2 ^ w = bs % 2 ^ w) :
    size_sub w bs osl = ol % 2 ^ w := by
  have h1 : (size_sub w bs osl + osl) % 2 ^ w = (ol + osl) % 2 ^ w := by
    rw [size_sub_add, h]
  have h2 : size_sub w bs osl % 2 ^ w = ol % 2 ^ w :=
    Nat.ModEq.add_right_cancel' osl h1
  rwa [Nat.mod_eq_of_lt (size_sub_lt w bs osl)] at h2

/-! ## The primitive calls and the flush step -/

theorem trace_bytes_append (a b : List Event) :
    trace_bytes (a ++ b) = trace_bytes a ++ trace_bytes b := by
  induction a with
  | nil => rfl
  | cons e t ih => simp [trace_bytes, ih]

theorem out_inv_write {w bs ol osl : Nat} (n : Nat) (h : out_inv w bs ol osl) :
    out_inv w bs (ol + n) (size_sub w osl n) := by
  unfold out_inv at *
  have h1 : ol + n + size_sub w osl n = ol + (size_sub w osl n + n) := by omega
  rw [h1, Nat.add_mod, size_sub_add, ← Nat.add_mod, h]

theorem out_inv_reposition (w bs off : Nat) : out_inv w bs off (size_sub w bs off) := by
  unfold out_inv
  rw [Nat.add_comm, size_sub_add]

theorem call_flush_eq {σ : Type} (E : Env σ) (s : Sys σ) (ol osl : Nat) {cd : σ}
    {mem : List Byte} (hcd : s.h.cd = some cd) (hbuf : s.h.buf = some mem) :
    call_flush E s ol osl =
      some ((E.iconv_flush cd osl).err,
        { h := { s.h with cd := some (E.iconv_flush cd osl).cd,
                          buf := some (mem_write mem ol (E.iconv_flush cd osl).produced) },
          errno := (E.iconv_flush cd osl).err.getD s.errno,
          trace := s.trace ++ [Event.flush (E.iconv_flush cd osl).produced] },
        ol + (E.iconv_flush cd osl).produced.length,
        size_sub E.w osl (E.iconv_flush cd osl).produced.length) := by
  simp [call_flush, hcd, hbuf]

theorem call_iconv_eq {σ : Type} (E : Env σ) (s : Sys σ) (inp : List Byte) (c : Cursors)
    {cd : σ} {mem : List Byte} (hcd : s.h.cd = some cd) (hbuf : s.h.buf = some mem) :
    call_iconv E s inp c =
      some ((E.iconv_step cd ((inp.drop c.in_left).take c.in_size_left) c.out_size_left).err,
        { h := { s.h with
            cd := some
              (E.iconv_step cd ((inp.drop c.in_left).take c.in_size_left) c.out_size_left).cd,
            buf := some (mem_write mem c.out_left
              (E.iconv_step cd ((inp.drop c.in_left).take c.in_size_left)
                c.out_size_left).produced) },
          errno := (E.iconv_step cd ((inp.drop c.in_left).take c.in_size_left)
            c.out_size_left).err.getD s.errno,
          trace := s.trace ++ [Event.step
            (E.iconv_step cd ((inp.drop c.in_left).take c.in_size_left)
              c.out_size_left).produced] },
        { in_left := c.in_left +
            (E.iconv_step cd ((inp.drop c.in_left).take c.in_size_left)
              c.out_size_left).consumed,
          in_size_left := size_sub E.w c.in_size_left
            (E.iconv_step cd ((inp.drop c.in_left).take c.in_size_left)
              c.out_size_left).consumed,
          out_left := c.out_left +
            (E.iconv_step cd ((inp.drop c.in_left).take c.in_size_left)
              c.out_size_left).produced.length,
          out_size_left := size_sub E.w c.out_size_left
            (E.iconv_step cd ((inp.drop c.in_left).take c.in_size_left)
              c.out_size_left).produced.length }) := by
  simp [call_iconv, hcd, hbuf]

/-- What `iconv_cgo_realloc` does to the state. -/
theorem realloc_spec {σ : Type} (E : Env σ) (s : Sys σ) :
    ((iconv_cgo_realloc E s).1 = -1 ∧ (iconv_cgo_realloc E s).2.h = s.h ∧
      (∃ ev, (iconv_cgo_realloc E s).2.trace = s.trace ++ ev ∧
        ∀ e ∈ ev, ∃ n, e = Event.realloc n)) ∨
    ((iconv_cgo_realloc E s).1 = 0 ∧
      (iconv_cgo_realloc E s).2.h =
        { s.h with buf := some (s.h.buf.getD []),
                   buf_size := (s.h.buf_size * 2) % 2 ^ E.w } ∧
      (iconv_cgo_realloc E s).2.errno = s.errno ∧
      s.h.buf_size < ICONV_CGO_MAX_BUF_SIZE E.w ∧
      (iconv_cgo_realloc E s).2.trace =
        s.trace ++ [Event.realloc ((s.h.buf_size * 2) % 2 ^ E.w)]) := by
  unfold iconv_cgo_realloc
  by_cases h1 : s.h.buf_size ≥ ICONV_CGO_MAX_BUF_SIZE E.w
  · left
    rw [if_pos h1]
    exact ⟨rfl, rfl, [], by simp, by simp⟩
  · rw [if_neg h1]
    dsimp only
    by_cases h2 : E.realloc_ok s.trace ((s.h.buf_size * 2) % 2 ^ E.w) = true
    · right
      rw [if_pos h2]
      exact ⟨rfl, rfl, rfl, by omega, rfl⟩
    · left
      rw [if_neg h2]
      exact ⟨rfl, rfl, _, rfl, by simp⟩

theorem trace_bytes_realloc {ev : List Event} (hev : ∀ e ∈ ev, ∃ n, e = Event.realloc n) :
    trace_bytes ev = [] := by
  induction ev with
  | nil => rfl
  | cons a t ih =>
    obtain ⟨n, rfl⟩ := hev _ (List.mem_cons_self _ _)
    simp [trace_bytes, Event.bytes, ih (fun e he => hev e (List.mem_cons_of_mem _ he))]

/-- What `iconv_cgo_conv_last` does when it returns: it only adds flush and
realloc events, starting with a flush; it keeps the buffer allocated and the
cursor and room consistent with the capacity; and when the bytes fit the size
domain, the buffer below the new cursor is the buffer below the old one
followed by the bytes of its flush calls. -/
theorem conv_last_spec {σ : Type} (E : Env σ) (s : Sys σ) (ol osl : Nat) {mem : List Byte}
    {res : Int} {s' : Sys σ} {ol' osl' : Nat}
    (hbuf : s.h.buf = some mem) (hinv : out_inv E.w s.h.buf_size ol osl)
    (h : iconv_cgo_conv_last E s ol osl = some (res, s', ol', osl')) :
    ∃ fl mem', s'.trace = s.trace ++ fl ∧
      (∀ e ∈ fl, e.is_step = false ∧ e ≠ Event.reset) ∧
      (∃ q rest, fl = Event.flush q :: rest) ∧
      s'.h.buf = some mem' ∧ s'.h.suffix = s.h.suffix ∧ s'.h.cd.isSome = true ∧
      (s'.h.buf_size = s.h.buf_size ∨
        (s.h.buf_size < ICONV_CGO_MAX_BUF_SIZE E.w ∧
          s'.h.buf_size = (s.h.buf_size * 2) % 2 ^ E.w)) ∧
      out_inv E.w s'.h.buf_size ol' osl' ∧
      (ol + (trace_bytes fl).length < 2 ^ E.w →
        ol' = ol + (trace_bytes fl).length ∧
        mem_read mem' ol' = mem_read mem ol ++ trace_bytes fl) := by
  cases hcd : s.h.cd with
  | none => simp [iconv_cgo_conv_last, call_flush, hcd] at h
  | some cd =>
    rw [iconv_cgo_conv_last, call_flush_eq E s ol osl hcd hbuf] at h
    generalize E.iconv_flush cd osl = f at h
    obtain ⟨cd1, k1, q1, err1⟩ := f
    cases err1 with
    | none =>
      simp only [Option.some.injEq, Prod.mk.injEq] at h
      obtain ⟨rfl, rfl, rfl, rfl⟩ := h
      refine ⟨[Event.flush q1], mem_write mem ol q1, rfl, ?_, ⟨q1, [], rfl⟩, rfl, rfl, rfl,
        Or.inl rfl, out_inv_write _ hinv, ?_⟩
      · intro e he
        simp at he
        subst he
        exact ⟨rfl, by simp⟩
      · intro _
        simp [trace_bytes, Event.bytes, mem_read_write]
    | some e =>
      simp only [Option.getD_some] at h
      have hinv1 : out_inv E.w s.h.buf_size (ol + q1.length) (size_sub E.w osl q1.length) :=
        out_inv_write _ hinv
      by_cases he : e = Errno.E2BIG
      · rw [if_pos he] at h
        have hsp := realloc_spec E
          { h := { s.h with cd := some cd1, buf := some (mem_write mem ol q1) },
            errno := Errno.E0, trace := s.trace ++ [Event.flush q1] }
        generalize iconv_cgo_realloc E _ = R at h hsp
        obtain ⟨r, s3⟩ := R
        dsimp only at h hsp
        rcases hsp with ⟨hr, hh, ev, htr, hev⟩ | ⟨hr, hh, -, hlt, htr⟩
        · subst hr
          simp only [if_true, Option.some.injEq, Prod.mk.injEq] at h
          obtain ⟨rfl, rfl, rfl, rfl⟩ := h
          refine ⟨Event.flush q1 :: ev, mem_write mem ol q1, by simp [htr], ?_,
            ⟨q1, ev, rfl⟩, by rw [hh], by rw [hh], by rw [hh]; rfl, Or.inl (by rw [hh]),
            by rw [hh]; exact hinv1, ?_⟩
          · intro e he
            rcases List.mem_cons.1 he with rfl | he
            · exact ⟨rfl, by simp⟩
            · obtain ⟨n, rfl⟩ := hev e he
              exact ⟨rfl, by simp⟩
          · intro _
            have hb : trace_bytes (Event.flush q1 :: ev) = q1 := by
              simp [trace_bytes, Event.bytes, trace_bytes_realloc hev]
            rw [hb]
            exact ⟨rfl, mem_read_write _ _ _⟩
        · subst hr
          have hcd3 : s3.h.cd = some cd1 := by rw [hh]
          have hbuf3 : s3.h.buf = some (mem_write mem ol q1) := by rw [hh]; rfl
          have hbs3 : s3.h.buf_size = (s.h.buf_size * 2) % 2 ^ E.w := by rw [hh]
          have hsuf3 : s3.h.suffix = s.h.suffix := by rw [hh]
          rw [if_neg (by decide), call_flush_eq E s3 _ _ hcd3 hbuf3] at h
          generalize E.iconv_flush cd1 _ = f2 at h
          obtain ⟨cd2, k2, q2, err2⟩ := f2
          cases err2 <;>
          · dsimp only at h
            simp only [Option.some.injEq, Prod.mk.injEq] at h
            obtain ⟨-, rfl, rfl, rfl⟩ := h
            refine ⟨[Event.flush q1, Event.realloc ((s.h.buf_size * 2) % 2 ^ E.w),
              Event.flush q2], mem_write (mem_write mem ol q1)
                (size_sub E.w s.h.buf_size (size_sub E.w osl q1.length)) q2,
              by simp [htr], ?_, ⟨q1, _, rfl⟩, rfl, hsuf3, rfl, Or.inr ⟨hlt, hbs3⟩,
              out_inv_write _ (out_inv_reposition _ _ _), ?_⟩
            · intro e he
              simp at he
              rcases he with rfl | rfl | rfl <;> exact ⟨rfl, by simp⟩
            · intro hfit
              have hb : trace_bytes [Event.flush q1,
                  Event.realloc ((s.h.buf_size * 2) % 2 ^ E.w), Event.flush q2] = q1 ++ q2 := by
                simp [trace_bytes, Event.bytes]
              rw [hb] at hfit ⊢
              rw [List.length_append] at hfit ⊢
              have hoff : size_sub E.w s.h.buf_size (size_sub E.w osl q1.length) =
                  ol + q1.length := by
                rw [size_sub_of_sum hinv1, Nat.mod_eq_of_lt (by omega)]
              rw [hoff]
              refine ⟨by omega, ?_⟩
              rw [mem_read_write, mem_read_write, List.append_assoc]
      · rw [if_neg he] at h
        simp only [Option.some.injEq, Prod.mk.injEq] at h
        obtain ⟨rfl, rfl, rfl, rfl⟩ := h
        refine ⟨[Event.flush q1], mem_write mem ol q1, rfl, ?_, ⟨q1, [], rfl⟩, rfl, rfl, rfl,
          Or.inl rfl, hinv1, ?_⟩
        · intro e he
          simp at he
          subst he
          exact ⟨rfl, by simp⟩
        · intro _
          simp [trace_bytes, Event.bytes, mem_read_write]

/-! ## One pass through the loop body -/

theorem body_post_of_last {σ : Type} (E : Env σ) (s : Sys σ) (c c1 : Cursors)
    (mem p : List Byte) {s1 : Sys σ} {res : Int} {s2 : Sys σ} {ol2 osl2 : Nat}
    (h : iconv_cgo_conv_last E s1 (c.out_left + p.length)
      (size_sub E.w c.out_size_left p.length) = some (res, s2, ol2, osl2))
    (htr : s1.trace = s.trace ++ [Event.step p])
    (hbuf : s1.h.buf = some (mem_write mem c.out_left p))
    (hsuf : s1.h.suffix = s.h.suffix) (hbs : s1.h.buf_size = s.h.buf_size)
    (hinv : out_inv E.w s.h.buf_size c.out_left c.out_size_left) :
    body_post E.w s c mem s2 { c1 with out_left := ol2, out_size_left := osl2 } := by
  have hinv1 : out_inv E.w s1.h.buf_size (c.out_left + p.length)
      (size_sub E.w c.out_size_left p.length) := by
    rw [hbs]; exact out_inv_write _ hinv
  obtain ⟨fl, mem2, h1, h2, -, h4, h5, h6, h7, h8, h9⟩ := conv_last_spec E s1 _ _ hbuf hinv1 h
  refine ⟨p, fl, mem2, by simp [h1, htr], h2, h4, by rw [h5, hsuf], h6, ?_, h8, ?_⟩
  · rw [← hbs]; exact h7
  · intro hfit
    have hb : trace_bytes (Event.step p :: fl) = p ++ trace_bytes fl := by
      simp [trace_bytes, Event.bytes]
    rw [hb, List.length_append] at hfit
    obtain ⟨h10, h11⟩ := h9 (by omega)
    rw [hb, List.length_append]
    dsimp only
    refine ⟨by omega, ?_⟩
    rw [h11, mem_read_write, List.append_assoc]

/-- Every pass through the loop body that starts with input left calls the
primitive and ends as `body_post` describes. -/
theorem body_spec {σ : Type} (E : Env σ) (inp : List Byte) (s : Sys σ) (c : Cursors)
    {mem : List Byte} {ls : LoopStep σ}
    (hbuf : s.h.buf = some mem) (hinv : out_inv E.w s.h.buf_size c.out_left c.out_size_left)
    (hne : c.in_size_left ≠ 0) (h : loop_body E inp s c = some ls) :
    body_post E.w s c mem ls.sys ls.cur := by
  cases hcd : s.h.cd with
  | none => simp [loop_body, hne, call_iconv, hcd] at h
  | some cd =>
    rw [loop_body, if_neg hne, call_iconv_eq E s inp c hcd hbuf] at h
    generalize E.iconv_step cd _ _ = r at h
    obtain ⟨cd1, k1, p1, err1⟩ := r
    have hinv1 : out_inv E.w s.h.buf_size (c.out_left + p1.length)
        (size_sub E.w c.out_size_left p1.length) := out_inv_write _ hinv
    have hstep : trace_bytes [Event.step p1] = p1 := by simp [trace_bytes, Event.bytes]
    cases err1 with
    | none =>
      dsimp only at h
      split at h
      · cases h
      · rename_i res s2 ol2 osl2 hl
        simp only [Option.some.injEq] at h
        subst h
        exact body_post_of_last E s c
          { in_left := c.in_left + k1, in_size_left := size_sub E.w c.in_size_left k1,
            out_left := c.out_left + p1.length,
            out_size_left := size_sub E.w c.out_size_left p1.length }
          mem p1 hl rfl rfl rfl rfl hinv
    | some e =>
      simp only [Option.getD_some] at h
      by_cases he : e = Errno.E2BIG
      · rw [if_pos he] at h
        have hsp := realloc_spec E
          { h := { s.h with cd := some cd1, buf := some (mem_write mem c.out_left p1) },
            errno := Errno.E0, trace := s.trace ++ [Event.step p1] }
        generalize iconv_cgo_realloc E _ = R at h hsp
        obtain ⟨r, s3⟩ := R
        dsimp only at h hsp
        rcases hsp with ⟨hr, hh, ev, htr, hev⟩ | ⟨hr, hh, -, hlt, htr⟩
        · subst hr
          simp only [if_true, Option.some.injEq] at h
          subst h
          refine ⟨p1, ev, mem_write mem c.out_left p1, by simp [LoopStep.sys, htr], ?_,
            by simp [LoopStep.sys, hh], by simp [LoopStep.sys, hh], by simp [LoopStep.sys, hh],
            Or.inl (by simp [LoopStep.sys, hh]), by simpa [LoopStep.sys, LoopStep.cur, hh] using hinv1,
            ?_⟩
          · intro e he
            obtain ⟨n, rfl⟩ := hev e he
            exact ⟨rfl, by simp⟩
          · intro _
            have hb : trace_bytes (Event.step p1 :: ev) = p1 := by
              simp [trace_bytes, Event.bytes, trace_bytes_realloc hev]
            rw [hb]
            exact ⟨rfl, mem_read_write _ _ _⟩
        · subst hr
          rw [if_neg (by decide)] at h
          simp only [Option.some.injEq] at h
          subst h
          refine ⟨p1, [Event.realloc ((s.h.buf_size * 2) % 2 ^ E.w)],
            mem_write mem c.out_left p1, by simp [LoopStep.sys, htr], ?_,
            by simp [LoopStep.sys, hh], by simp [LoopStep.sys, hh], by simp [LoopStep.sys, hh],
            Or.inr ⟨hlt, by simp [LoopStep.sys, hh]⟩, out_inv_reposition _ _ _, ?_⟩
          · intro e he
            simp at he
            subst he
            exact ⟨rfl, by simp⟩
          · intro hfit
            have hb : trace_bytes [Event.step p1,
                Event.realloc ((s.h.buf_size * 2) % 2 ^ E.w)] = p1 := by
              simp [trace_bytes, Event.bytes]
            rw [hb] at hfit ⊢
            have hoff : size_sub E.w s.h.buf_size (size_sub E.w c.out_size_left p1.length) =
                c.out_left + p1.length := by
              rw [size_sub_of_sum hinv1, Nat.mod_eq_of_lt hfit]
            simp only [LoopStep.cur, hh, hoff]
            exact ⟨trivial, mem_read_write _ _ _⟩
      · rw [if_neg he] at h
        have hplain : body_post E.w s c mem
            { h := { s.h with cd := some cd1, buf := some (mem_write mem c.out_left p1) },
              errno := e, trace := s.trace ++ [Event.step p1] }
            { in_left := c.in_left + k1, in_size_left := size_sub E.w c.in_size_left k1,
              out_left := c.out_left + p1.length,
              out_size_left := size_sub E.w c.out_size_left p1.length } :=
          ⟨p1, [], mem_write mem c.out_left p1, rfl, by simp, rfl, rfl, rfl, Or.inl rfl, hinv1,
            fun _ => ⟨by rw [hstep], by rw [hstep]; exact mem_read_write _ _ _⟩⟩
        by_cases hs : s.h.suffix ≠ Suffix.IGNORE
        · rw [if_pos hs] at h
          simp only [Option.some.injEq] at h
          subst h
          exact hplain
        · rw [if_neg hs] at h
          by_cases he2 : e = Errno.EILSEQ
          · rw [if_pos he2] at h
            simp only [Option.some.injEq] at h
            subst h
            obtain ⟨p, ev, m1, a1, a2, a3, a4, a5, a6, a7, a8⟩ := hplain
            exact ⟨p, ev, m1, a1, a2, a3, a4, a5, a6, a7, a8⟩
          · rw [if_neg he2] at h
            by_cases he3 : e = Errno.EINVAL
            · rw [if_pos he3] at h
              split at h
              · cases h
              · rename_i res s2 ol2 osl2 hl
                simp only [Option.some.injEq] at h
                subst h
                exact body_post_of_last E s c
                  { in_left := c.in_left + k1, in_size_left := size_sub E.w c.in_size_left k1,
                    out_left := c.out_left + p1.length,
                    out_size_left := size_sub E.w c.out_size_left p1.length }
                  mem p1 hl rfl rfl rfl rfl hinv
            · rw [if_neg he3] at h
              simp only [Option.some.injEq] at h
              subst h
              exact hplain

/-! ## The driver loop -/

theorem call_iconv_spec {σ : Type} (E : Env σ) (s : Sys σ) (inp : List Byte) (c : Cursors)
    {err : Option Errno} {s1 : Sys σ} {c1 : Cursors}
    (h : call_iconv E s inp c = some (err, s1, c1)) :
    ∃ cd mem p, s.h.cd = some cd ∧ s.h.buf = some mem ∧
      s1.errno = err.getD s.errno ∧ s1.trace = s.trace ++ [Event.step p] ∧
      s1.h.buf = some (mem_write mem c.out_left p) ∧ s1.h.suffix = s.h.suffix ∧
      s1.h.buf_size = s.h.buf_size ∧
      c1.out_left = c.out_left + p.length ∧
      c1.out_size_left = size_sub E.w c.out_size_left p.length := by
  cases hcd : s.h.cd with
  | none => simp [call_iconv, hcd] at h
  | some cd =>
    cases hbuf : s.h.buf with
    | none => simp [call_iconv, hcd, hbuf] at h
    | some mem =>
      rw [call_iconv_eq E s inp c hcd hbuf] at h
      simp only [Option.some.injEq, Prod.mk.injEq] at h
      obtain ⟨rfl, rfl, rfl⟩ := h
      exact ⟨cd, mem, _, rfl, rfl, rfl, rfl, rfl, rfl, rfl, rfl, rfl⟩

theorem loop_at_run {σ : Type} (E : Env σ) (inp : List Byte) :
    ∀ (n : Nat) (s0 : Sys σ) (c0 : Cursors) {s : Sys σ} {c : Cursors},
      loop_at E inp n s0 c0 = some (s, c) →
      ∀ k, conv_core_loop E inp (n + k) s0 c0 = conv_core_loop E inp k s c := by
  intro n
  induction n with
  | zero =>
    intro s0 c0 s c h k
    simp only [loop_at, Option.some.injEq, Prod.mk.injEq] at h
    obtain ⟨rfl, rfl⟩ := h
    simp
  | succ n ih =>
    intro s0 c0 s c h k
    rw [loop_at] at h
    rw [show n + 1 + k = (n + k) + 1 by omega, conv_core_loop]
    split at h
    · rename_i s1 c1 hb
      rw [hb]
      exact ih s1 c1 h k
    · cases h

theorem loop_at_inv {σ : Type} (E : Env σ) (inp : List Byte) :
    ∀ (n : Nat) (s0 : Sys σ) (c0 : Cursors) {mem0 : List Byte} {s : Sys σ} {c : Cursors},
      s0.h.buf = some mem0 → out_inv E.w s0.h.buf_size c0.out_left c0.out_size_left →
      loop_at E inp n s0 c0 = some (s, c) →
      ∃ mem evs, s.h.buf = some mem ∧
        out_inv E.w s.h.buf_size c.out_left c.out_size_left ∧
        s.h.suffix = s0.h.suffix ∧ s.trace = s0.trace ++ evs ∧
        (c0.out_left + (trace_bytes evs).length < 2 ^ E.w →
          c.out_left = c0.out_left + (trace_bytes evs).length ∧
          mem_read mem c.out_left = mem_read mem0 c0.out_left ++ trace_bytes evs) := by
  intro n
  induction n with
  | zero =>
    intro s0 c0 mem0 s c hbuf hinv h
    simp only [loop_at, Option.some.injEq, Prod.mk.injEq] at h
    obtain ⟨rfl, rfl⟩ := h
    exact ⟨mem0, [], hbuf, hinv, rfl, by simp, fun _ => by simp [trace_bytes]⟩
  | succ n ih =>
    intro s0 c0 mem0 s c hbuf hinv h
    rw [loop_at] at h
    split at h
    · rename_i s1 c1 hb
      have hne : c0.in_size_left ≠ 0 := by
        intro h0
        simp [loop_body, h0] at hb
      obtain ⟨p, ev, mem1, h1, -, h3, h4, -, -, h7, h8⟩ :=
        body_spec E inp s0 c0 hbuf hinv hne hb
      dsimp only [LoopStep.sys, LoopStep.cur] at h1 h3 h4 h7 h8
      obtain ⟨mem, evs, a1, a2, a3, a4, a5⟩ := ih s1 c1 h3 h7 h
      refine ⟨mem, (Event.step p :: ev) ++ evs, a1, a2, a3.trans h4,
        by rw [a4, h1, List.append_assoc], fun hfit => ?_⟩
      rw [trace_bytes_append, List.length_append] at hfit
      obtain ⟨b1, b2⟩ := h8 (by omega)
      obtain ⟨b3, b4⟩ := a5 (by rw [b1]; omega)
      rw [trace_bytes_append, List.length_append]
      exact ⟨by rw [b3, b1]; omega, by rw [b4, b2, List.append_assoc]⟩
    · cases h

theorem out_inv_start (w buf_size : Nat) : out_inv w buf_size 0 buf_size := by
  simp [out_inv]

/-- C5: on a session whose policy is not IGNORE, when a step call of the
driver reports `EILSEQ` or `EINVAL` (at any pass `n` through the loop), the
loop ends with `result = -1` in exactly the state and with exactly the
variables that this call left: `errno` is the reported error, the input
cursor is where the primitive left it (no byte is skipped), and the call is
the last event of the trace (no further step, no flush). `iconv_cgo_conv_core`
returns `-1` in that state. -/
theorem conv_core_stops_on_bad_sequence {σ : Type} (E : Env σ) (inp : List Byte)
    (in_size fuel n : Nat) (s0 s : Sys σ) (c : Cursors) (mem0 : List Byte) (e : Errno)
    (hbuf0 : s0.h.buf = some mem0)
    (hpol : s0.h.suffix ≠ Suffix.IGNORE)
    (hreach : loop_at E inp n s0
      { in_left := 0, in_size_left := in_size, out_left := 0,
        out_size_left := s0.h.buf_size } = some (s, c))
    (hin : c.in_size_left ≠ 0)
    (hcall : ∃ s1 c1, call_iconv E s inp c = some (some e, s1, c1))
    (he : e = Errno.EILSEQ ∨ e = Errno.EINVAL)
    (hfuel : n < fuel) :
    ∃ s1 c1 p buf size,
      call_iconv E s inp c = some (some e, s1, c1) ∧
      conv_core_loop E inp fuel s0
        { in_left := 0, in_size_left := in_size, out_left := 0,
          out_size_left := s0.h.buf_size } = some (-1, s1, c1) ∧
      iconv_cgo_conv_core E fuel s0 inp in_size = some (-1, s1, buf, size) ∧
      s1.errno = e ∧ s1.trace = s.trace ++ [Event.step p] := by
  obtain ⟨s1, c1, hcall⟩ := hcall
  obtain ⟨mem, evs, -, -, hsuf, -⟩ := loop_at_inv E inp n s0 _ hbuf0 (out_inv_start _ _) hreach
  obtain ⟨cd, mem', p, -, -, herrno, htr, -, hsuf1, -, -, -⟩ := call_iconv_spec E s inp c hcall
  have hne2 : e ≠ Errno.E2BIG := by rcases he with rfl | rfl <;> decide
  have hbody : loop_body E inp s c = some (LoopStep.exit (-1) s1 c1) := by
    rw [loop_body, if_neg hin, hcall]
    have h1 : s1.errno = e := herrno
    have h2 : s1.h.suffix ≠ Suffix.IGNORE := by rw [hsuf1, hsuf]; exact hpol
    simp [h1, hne2, h2]
  have hloop : conv_core_loop E inp fuel s0
      { in_left := 0, in_size_left := in_size, out_left := 0,
        out_size_left := s0.h.buf_size } = some (-1, s1, c1) := by
    obtain ⟨k, rfl⟩ : ∃ k, fuel = n + (k + 1) := ⟨fuel - n - 1, by omega⟩
    rw [loop_at_run E inp n s0 _ hreach, conv_core_loop, hbody]
  refine ⟨s1, c1, p, s1.h.buf.getD [], size_sub E.w s1.h.buf_size c1.out_size_left,
    hcall, hloop, ?_, herrno, htr⟩
  rw [iconv_cgo_conv_core, hloop]

theorem conv_core_stops_on_bad_sequence_witness :
    (toyReady "UTF-8" "UTF-8").h.suffix ≠ Suffix.IGNORE ∧
    ∃ s1 c1 p buf size,
      call_iconv toyEnv (toyReady "UTF-8" "UTF-8") [65, 255, 66]
        { in_left := 0, in_size_left := 3, out_left := 0, out_size_left := 256 } =
          some (some Errno.EILSEQ, s1, c1) ∧
      conv_core_loop toyEnv [65, 255, 66] 1 (toyReady "UTF-8" "UTF-8")
        { in_left := 0, in_size_left := 3, out_left := 0,
          out_size_left := (toyReady "UTF-8" "UTF-8").h.buf_size } = some (-1, s1, c1) ∧
      iconv_cgo_conv_core toyEnv 1 (toyReady "UTF-8" "UTF-8") [65, 255, 66] 3 =
        some (-1, s1, buf, size) ∧
      s1.errno = Errno.EILSEQ ∧
      s1.trace = (toyReady "UTF-8" "UTF-8").trace ++ [Event.step p] :=
  ⟨by decide,
    conv_core_stops_on_bad_sequence toyEnv [65, 255, 66] 3 1 0 (toyReady "UTF-8" "UTF-8")
      (toyReady "UTF-8" "UTF-8")
      { in_left := 0, in_size_left := 3, out_left := 0, out_size_left := 256 } []
      Errno.EILSEQ rfl (by decide) rfl (by decide) ⟨_, _, rfl⟩ (Or.inl rfl) (by decide)⟩

/-- C6: on a session with IGNORE policy, when a step call of the driver
reports `EINVAL` (at any pass `n` through the loop) and the flush step that
follows returns `0`, the loop ends with `result = 0` and
`iconv_cgo_conv_core` returns `0`: after that step call the input cursor is
not moved again and the only further events are those of the flush step (a
flush first, no step). When the bytes fit the size domain, the reported
output is exactly the bytes of the calls of this conversion in call order:
those of the steps up to and including the one that reported `EINVAL`,
followed by those of the flush calls. -/
theorem conv_core_ignore_incomplete {σ : Type} (E : Env σ) (inp : List Byte)
    (in_size fuel n : Nat) (s0 s : Sys σ) (c : Cursors) (mem0 : List Byte)
    (hbuf0 : s0.h.buf = some mem0)
    (hpol : s0.h.suffix = Suffix.IGNORE)
    (hreach : loop_at E inp n s0
      { in_left := 0, in_size_left := in_size, out_left := 0,
        out_size_left := s0.h.buf_size } = some (s, c))
    (hin : c.in_size_left ≠ 0)
    (hstep : ∃ s1 c1 s2 ol2 osl2,
      call_iconv E s inp c = some (some Errno.EINVAL, s1, c1) ∧
      iconv_cgo_conv_last E { s1 with errno := Errno.E0 } c1.out_left c1.out_size_left =
        some (0, s2, ol2, osl2))
    (hfuel : n < fuel) :
    ∃ s1 c1 s2 c2 evs p fl buf size,
      call_iconv E s inp c = some (some Errno.EINVAL, s1, c1) ∧
      conv_core_loop E inp fuel s0
        { in_left := 0, in_size_left := in_size, out_left := 0,
          out_size_left := s0.h.buf_size } = some (0, s2, c2) ∧
      iconv_cgo_conv_core E fuel s0 inp in_size = some (0, s2, buf, size) ∧
      c2.in_left = c1.in_left ∧ c2.in_size_left = c1.in_size_left ∧
      s.trace = s0.trace ++ evs ∧
      s1.trace = s.trace ++ [Event.step p] ∧ s2.trace = s1.trace ++ fl ∧
      (∃ q rest, fl = Event.flush q :: rest) ∧ (∀ e ∈ fl, e.is_step = false) ∧
      ((trace_bytes evs).length + p.length + (trace_bytes fl).length < 2 ^ E.w →
        mem_read buf size = trace_bytes evs ++ p ++ trace_bytes fl) := by
  obtain ⟨s1, c1, s2, ol2, osl2, hcall, hlast⟩ := hstep
  obtain ⟨mem, evs, hmem0, hinv, hsuf, hevs, hbytes⟩ :=
    loop_at_inv E inp n s0 _ hbuf0 (out_inv_start _ _) hreach
  dsimp only at hbytes
  obtain ⟨cd, mem1, p, -, hmem, herrno, htr, hbuf1, hsuf1, hbs1, hol1, hosl1⟩ :=
    call_iconv_spec E s inp c hcall
  have hmm : mem1 = mem := by
    rw [hmem0] at hmem
    exact (Option.some.inj hmem).symm
  subst hmm
  have hbody : loop_body E inp s c = some (LoopStep.exit 0 s2
      { c1 with out_left := ol2, out_size_left := osl2 }) := by
    rw [loop_body, if_neg hin, hcall]
    have h1 : s1.errno = Errno.EINVAL := herrno
    have h2 : s1.h.suffix = Suffix.IGNORE := by rw [hsuf1, hsuf]; exact hpol
    simp [h1, h2, hlast]
  have hloop : conv_core_loop E inp fuel s0
      { in_left := 0, in_size_left := in_size, out_left := 0,
        out_size_left := s0.h.buf_size } =
      some (0, s2, { c1 with out_left := ol2, out_size_left := osl2 }) := by
    obtain ⟨k, rfl⟩ : ∃ k, fuel = n + (k + 1) := ⟨fuel - n - 1, by omega⟩
    rw [loop_at_run E inp n s0 _ hreach, conv_core_loop, hbody]
  have hinv1 : out_inv E.w s1.h.buf_size c1.out_left c1.out_size_left := by
    rw [hbs1, hol1, hosl1]; exact out_inv_write _ hinv
  obtain ⟨fl, mem2, b1, b2, b3, b4, -, -, -, b8, b9⟩ :=
    conv_last_spec E { s1 with errno := Errno.E0 } c1.out_left c1.out_size_left hbuf1 hinv1 hlast
  refine ⟨s1, c1, s2, _, evs, p, fl, s2.h.buf.getD [],
    size_sub E.w s2.h.buf_size osl2, hcall, hloop, ?_, rfl, rfl, hevs, htr, b1, b3,
    fun e he => (b2 e he).1, ?_⟩
  · rw [iconv_cgo_conv_core, hloop]
  · intro hfit
    obtain ⟨d1, d2⟩ := hbytes (by omega)
    rw [Nat.zero_add] at d1
    have hm0 : mem_read mem0 0 = [] := by simp [mem_read]
    rw [hm0, List.nil_append] at d2
    obtain ⟨c1', c2'⟩ := b9 (by rw [hol1, d1]; omega)
    rw [b4, Option.getD_some, size_sub_of_sum b8,
      Nat.mod_eq_of_lt (by rw [c1', hol1, d1]; omega), c2', hol1, mem_read_write, d2]

theorem conv_core_ignore_incomplete_witness :
    (toyReady "X//IGNORE" "UTF-8").h.suffix = Suffix.IGNORE ∧
    loop_at toyEnv [65, 255, 0xC3, 0xA9, 0xC3] 1 (toyReady "X//IGNORE" "UTF-8")
      { in_left := 0, in_size_left := 5, out_left := 0,
        out_size_left := (toyReady "X//IGNORE" "UTF-8").h.buf_size } =
      some (toySkipped, toySkippedCur) ∧
    ∃ s1 c1 s2 c2 evs p fl buf size,
      call_iconv toyEnv toySkipped [65, 255, 0xC3, 0xA9, 0xC3] toySkippedCur =
          some (some Errno.EINVAL, s1, c1) ∧
      conv_core_loop toyEnv [65, 255, 0xC3, 0xA9, 0xC3] 2 (toyReady "X//IGNORE" "UTF-8")
        { in_left := 0, in_size_left := 5, out_left := 0,
          out_size_left := (toyReady "X//IGNORE" "UTF-8").h.buf_size } = some (0, s2, c2) ∧
      iconv_cgo_conv_core toyEnv 2 (toyReady "X//IGNORE" "UTF-8")
        [65, 255, 0xC3, 0xA9, 0xC3] 5 = some (0, s2, buf, size) ∧
      c2.in_left = c1.in_left ∧ c2.in_size_left = c1.in_size_left ∧
      toySkipped.trace = (toyReady "X//IGNORE" "UTF-8").trace ++ evs ∧
      s1.trace = toySkipped.trace ++ [Event.step p] ∧
      s2.trace = s1.trace ++ fl ∧
      (∃ q rest, fl = Event.flush q :: rest) ∧ (∀ e ∈ fl, e.is_step = false) ∧
      ((trace_bytes evs).length + p.length + (trace_bytes fl).length < 2 ^ toyEnv.w →
        mem_read buf size = trace_bytes evs ++ p ++ trace_bytes fl) :=
  ⟨by decide, rfl,
    conv_core_ignore_incomplete toyEnv [65, 255, 0xC3, 0xA9, 0xC3] 5 2 1
      (toyReady "X//IGNORE" "UTF-8") toySkipped toySkippedCur []
      rfl (by decide) rfl (by decide) ⟨_, _, _, _, _, rfl, rfl⟩ (by decide)⟩

/-! ## Capacity -/

theorem alloc_grow_pow (w out : Nat) (hout : out ≤ 2 ^ (w - 1)) :
    ∀ (fuel a : Nat), a ≤ w - 1 → w - 1 - a < fuel →
      ∃ a', a ≤ a' ∧ a' ≤ w - 1 ∧ alloc_grow w out fuel (2 ^ a) = some (2 ^ a') ∧
        out ≤ 2 ^ a' := by
  intro fuel
  induction fuel with
  | zero => intro a _ h; omega
  | succ fuel ih =>
    intro a ha hf
    rw [alloc_grow]
    by_cases hlt : 2 ^ a < out
    · rw [if_pos hlt]
      have ha1 : a < w - 1 := by
        by_contra hcon
        have : a = w - 1 := by omega
        rw [this] at hlt
        omega
      have hpow : 2 ^ a * 2 % 2 ^ w = 2 ^ (a + 1) := by
        rw [← Nat.pow_succ]
        apply Nat.mod_eq_of_lt
        exact Nat.pow_lt_pow_right (by decide) (by omega)
      rw [hpow]
      obtain ⟨a', h1, h2, h3, h4⟩ := ih (a + 1) (by omega) (by omega)
      exact ⟨a', by omega, h2, h3, h4⟩
    · rw [if_neg hlt]
      exact ⟨a, le_refl _, ha, rfl, by omega⟩

theorem cap_ok_double {w b : Nat} (h : cap_ok w b) (hlt : b < ICONV_CGO_MAX_BUF_SIZE w) :
    cap_ok w (b * 2 % 2 ^ w) := by
  rcases h with rfl | ⟨a, h8, ha, rfl⟩
  · left; simp
  · right
    unfold ICONV_CGO_MAX_BUF_SIZE at hlt
    have ha1 : a < w - 1 := (Nat.pow_lt_pow_iff_right (by decide)).1 hlt
    refine ⟨a + 1, by omega, by omega, ?_⟩
    rw [← Nat.pow_succ]
    apply Nat.mod_eq_of_lt
    exact Nat.pow_lt_pow_right (by decide) (by omega)

/-- With at least 9 bits the sizing loop of `iconv_cgo_alloc` returns, and the
capacity stays `0` or a power of two between `256` and the maximum. -/
theorem alloc_cap {σ : Type} (E : Env σ) (s : Sys σ) (in_size : Nat) (hw : 9 ≤ E.w)
    (hcap : cap_ok E.w s.h.buf_size) :
    ∃ ra sA, iconv_cgo_alloc E s in_size = some (ra, sA) ∧ cap_ok E.w sA.h.buf_size ∧
      (ra = 0 → in_size * 2 % 2 ^ E.w ≤ sA.h.buf_size) ∧
      ((∀ n, E.realloc_ok s.trace n = true) → ¬ in_size * 2 % 2 ^ E.w < in_size →
        ¬ in_size * 2 % 2 ^ E.w > ICONV_CGO_MAX_BUF_SIZE E.w → ra = 0) := by
  unfold iconv_cgo_alloc
  dsimp only
  by_cases h1 : in_size * 2 % 2 ^ E.w < in_size
  · rw [if_pos h1]
    exact ⟨_, _, rfl, hcap, fun h => absurd h (by decide), fun _ h => absurd h1 h⟩
  · rw [if_neg h1]
    by_cases h2 : in_size * 2 % 2 ^ E.w > ICONV_CGO_MAX_BUF_SIZE E.w
    · rw [if_pos h2]
      exact ⟨_, _, rfl, hcap, fun h => absurd h (by decide), fun _ _ h => absurd h2 h⟩
    · rw [if_neg h2]
      by_cases h3 : s.h.buf_size ≥ in_size * 2 % 2 ^ E.w
      · rw [if_pos h3]
        exact ⟨_, _, rfl, hcap, fun _ => h3, fun _ _ _ => rfl⟩
      · rw [if_neg h3]
        have hout : in_size * 2 % 2 ^ E.w ≤ 2 ^ (E.w - 1) := by
          unfold ICONV_CGO_MAX_BUF_SIZE at h2; omega
        have hstart : ∃ a, 8 ≤ a ∧ a ≤ E.w - 1 ∧
            (if s.h.buf_size ≠ 0 then s.h.buf_size * 2 % 2 ^ E.w
              else ICONV_CGO_MIN_BUF_SIZE) = 2 ^ a := by
          rcases hcap with h0 | ⟨a, h8, ha, hb⟩
          · rw [if_neg (by simp [h0])]
            exact ⟨8, le_refl _, by omega, rfl⟩
          · have hlt : s.h.buf_size < ICONV_CGO_MAX_BUF_SIZE E.w := by
              unfold ICONV_CGO_MAX_BUF_SIZE; omega
            have hne : s.h.buf_size ≠ 0 := by
              rw [hb]; simp
            rw [if_pos hne]
            rcases cap_ok_double (Or.inr ⟨a, h8, ha, hb⟩) hlt with h0 | ⟨a', h8', ha', hb'⟩
            · exfalso
              rw [hb, ← Nat.pow_succ] at h0
              unfold ICONV_CGO_MAX_BUF_SIZE at hlt
              rw [hb] at hlt
              have ha1 : a < E.w - 1 := (Nat.pow_lt_pow_iff_right (by decide)).1 hlt
              rw [Nat.mod_eq_of_lt (Nat.pow_lt_pow_right (by decide) (by omega))] at h0
              simp at h0
            · exact ⟨a', h8', ha', hb'⟩
        obtain ⟨a, h8, ha, hst⟩ := hstart
        rw [hst]
        obtain ⟨a', h1', h2', h3', h4'⟩ :=
          alloc_grow_pow E.w _ hout (E.w + 1) a ha (by omega)
        rw [h3']
        dsimp only
        by_cases hr : E.realloc_ok s.trace (2 ^ a') = true
        · rw [if_pos hr]
          exact ⟨_, _, rfl, Or.inr ⟨a', by omega, h2', rfl⟩, fun _ => h4', fun _ _ _ => rfl⟩
        · rw [if_neg hr]
          exact ⟨_, _, rfl, hcap, fun h => absurd h (by decide),
            fun hok _ _ => absurd (hok _) hr⟩

/-! ## Failure and the reported view -/

/-- C2: with IGNORE policy the input `"A\xFF"`, whose invalid byte is the last
one, makes `iconv_cgo_conv` return `-1` with `errno = 0` and without a flush,
although the only error the converter reports is `EILSEQ` with one byte left
and a flush in that state succeeds. The same invalid byte in the middle,
`"A\xFFB"`, is skipped and the conversion returns `"AB"`. -/
theorem ignore_trailing_invalid_byte_fails :
    (toyOpen "X//IGNORE" "UTF-8").map (fun h => h.suffix) = some Suffix.IGNORE ∧
    (iconv_cgo_conv toyEnv 10 Errno.E0 [] (toyOpen "X//IGNORE" "UTF-8") (some [65, 255]) 2
        (some []) (some 0)).map (fun r => (r.result, r.errno, r.trace)) =
      some (-1, Errno.E0, [Event.realloc 256, Event.step [65]]) ∧
    ((toyEnv.iconv_step 0 [65, 255] 256).err, (toyEnv.iconv_step 0 [65, 255] 256).consumed) =
      (some Errno.EILSEQ, 1) ∧
    (toyEnv.iconv_flush 0 255).err = none ∧
    (iconv_cgo_conv toyEnv 10 Errno.E0 [] (toyOpen "X//IGNORE" "UTF-8") (some [65]) 1
        (some []) (some 0)).map (fun r => (r.result, r.view)) = some (0, [65]) ∧
    (iconv_cgo_conv toyEnv 10 Errno.E0 [] (toyOpen "X//IGNORE" "UTF-8") (some [65, 255, 66]) 3
        (some []) (some 0)).map (fun r => (r.result, r.view)) = some (0, [65, 66]) := by
  decide

/-- C3, as specified, fails: with policy NONE the input `"A\xFFB"` makes
`iconv_cgo_conv` return `-1` with `EILSEQ`, and the view it reports has length
1 and holds the byte `A` converted before the failure. -/
theorem conv_failure_view_counterexample :
    (iconv_cgo_conv toyEnv 10 Errno.E0 [] (toyOpen "UTF-8" "UTF-8") (some [65, 255, 66]) 3
        (some []) (some 0)).map (fun r => (r.result, r.errno, r.out_size, r.view)) =
      some (-1, Errno.EILSEQ, some 1, [65]) := by
  decide

theorem alloc_spec {σ : Type} (E : Env σ) (s : Sys σ) (in_size : Nat) {ra : Int} {sA : Sys σ}
    (h : iconv_cgo_alloc E s in_size = some (ra, sA)) :
    ∃ ev, sA.trace = s.trace ++ ev ∧ (∀ e ∈ ev, ∃ n, e = Event.realloc n) ∧
      sA.h.cd = s.h.cd ∧ sA.h.suffix = s.h.suffix ∧
      (ra = -1 → sA.h = s.h) ∧
      (ra ≠ -1 → sA.errno = s.errno ∧
        (sA.h = s.h ∨ sA.h.buf = some (s.h.buf.getD []))) := by
  unfold iconv_cgo_alloc at h
  dsimp only at h
  split at h
  · simp only [Option.some.injEq, Prod.mk.injEq] at h
    obtain ⟨rfl, rfl⟩ := h
    exact ⟨[], by simp, by simp, rfl, rfl, fun _ => rfl, fun hne => absurd rfl hne⟩
  · split at h
    · simp only [Option.some.injEq, Prod.mk.injEq] at h
      obtain ⟨rfl, rfl⟩ := h
      exact ⟨[], by simp, by simp, rfl, rfl, fun _ => rfl, fun hne => absurd rfl hne⟩
    · split at h
      · simp only [Option.some.injEq, Prod.mk.injEq] at h
        obtain ⟨rfl, rfl⟩ := h
        exact ⟨[], by simp, by simp, rfl, rfl, fun _ => rfl, fun _ => ⟨rfl, Or.inl rfl⟩⟩
      · split at h
        · cases h
        · rename_i bs hg
          split at h
          · simp only [Option.some.injEq, Prod.mk.injEq] at h
            obtain ⟨rfl, rfl⟩ := h
            exact ⟨[Event.realloc bs], rfl, by simp, rfl, rfl, fun h0 => absurd h0 (by decide),
              fun _ => ⟨rfl, Or.inr rfl⟩⟩
          · simp only [Option.some.injEq, Prod.mk.injEq] at h
            obtain ⟨rfl, rfl⟩ := h
            exact ⟨[Event.realloc bs], rfl, by simp, rfl, rfl, fun _ => rfl,
              fun hne => absurd rfl hne⟩

/-- The events that a run of the driver loop adds: never a reset, and a step
first when there is input. The buffer stays allocated. -/
theorem loop_trace {σ : Type} (E : Env σ) (inp : List Byte) :
    ∀ (fuel : Nat) (s : Sys σ) (c : Cursors) {mem : List Byte} {res : Int} {s1 : Sys σ}
      {c1 : Cursors},
      s.h.buf = some mem → out_inv E.w s.h.buf_size c.out_left c.out_size_left →
      conv_core_loop E inp fuel s c = some (res, s1, c1) →
      ∃ ev, s1.trace = s.trace ++ ev ∧ (∀ e ∈ ev, e ≠ Event.reset) ∧
        (c.in_size_left ≠ 0 → ∃ p rest, ev = Event.step p :: rest) ∧
        s1.h.buf.isSome = true ∧ s1.h.suffix = s.h.suffix ∧
        (s.h.cd.isSome = true → s1.h.cd.isSome = true) ∧
        (cap_ok E.w s.h.buf_size → cap_ok E.w s1.h.buf_size) := by
  intro fuel
  induction fuel with
  | zero => intro s c mem res s1 c1 _ _ h; simp [conv_core_loop] at h
  | succ fuel ih =>
    intro s c mem res s1 c1 hbuf hinv h
    rw [conv_core_loop] at h
    by_cases hne : c.in_size_left = 0
    · simp only [loop_body, hne, if_true, Option.some.injEq, Prod.mk.injEq] at h
      obtain ⟨-, rfl, rfl⟩ := h
      exact ⟨[], by simp, by simp, fun h0 => absurd hne h0, by simp [hbuf], rfl,
        fun h0 => h0, fun h0 => h0⟩
    · cases hb : loop_body E inp s c with
      | none => simp [hb] at h
      | some ls =>
        have hpost := body_spec E inp s c hbuf hinv hne hb
        rw [hb] at h
        cases ls with
        | exit r s2 c2 =>
          simp only [Option.some.injEq, Prod.mk.injEq] at h
          obtain ⟨-, rfl, rfl⟩ := h
          obtain ⟨p, ev, m1, a1, a2, a3, a4, a5, a6, -, -⟩ := hpost
          dsimp only [LoopStep.sys] at a1 a3 a4 a5 a6
          refine ⟨Event.step p :: ev, a1, ?_, fun _ => ⟨p, ev, rfl⟩, by simp [a3], a4,
            fun _ => a5, fun hc => ?_⟩
          rotate_left
          · rcases a6 with a6 | ⟨a6, a6'⟩
            · rw [a6]; exact hc
            · rw [a6']; exact cap_ok_double hc a6
          intro e he
          rcases List.mem_cons.1 he with rfl | he
          · simp
          · exact (a2 e he).2
        | next s2 c2 =>
          obtain ⟨p, ev, m1, a1, a2, a3, a4, a5, a6, a7, -⟩ := hpost
          dsimp only [LoopStep.sys, LoopStep.cur] at a1 a3 a4 a5 a6 a7
          dsimp only at h
          obtain ⟨ev2, b1, b2, -, b4, b5, b6, b7⟩ := ih s2 c2 a3 a7 h
          refine ⟨Event.step p :: (ev ++ ev2), by simp [b1, a1], ?_,
            fun _ => ⟨p, _, rfl⟩, b4, b5.trans a4, fun _ => b6 a5, fun hc => b7 ?_⟩
          rotate_left
          · rcases a6 with a6 | ⟨a6, a6'⟩
            · rw [a6]; exact hc
            · rw [a6']; exact cap_ok_double hc a6
          intro e he
          rcases List.mem_cons.1 he with rfl | he
          · simp
          · rcases List.mem_append.1 he with he | he
            · exact (a2 e he).2
            · exact b2 e he

theorem conv_reset_spec {σ : Type} (E : Env σ) (s : Sys σ) (cd : σ) :
    (conv_reset E s cd).2.h.buf = s.h.buf ∧
    (conv_reset E s cd).2.h.suffix = s.h.suffix ∧
    (conv_reset E s cd).2.h.buf_size = s.h.buf_size ∧
    (conv_reset E s cd).2.trace =
      s.trace ++ (if s.h.buf.isSome then [Event.reset] else []) ∧
    (s.h.buf = none → conv_reset E s cd = (none, s)) ∧
    (s.h.buf.isSome = true → (conv_reset E s cd).1 = (E.iconv_reset cd).2 ∧
      (conv_reset E s cd).2.h.cd = some (E.iconv_reset cd).1) := by
  unfold conv_reset
  cases hb : s.h.buf with
  | none => simp [hb]
  | some mem => simp [call_reset, hb]

/-- C3, as the code has it: a call of `iconv_cgo_conv` with valid arguments
that returns `-1` reports the empty view (`*out = ""`, `*out_size = 0`) when
it fails before the driver calls the primitive (failed reset, failed sizing
or allocation): then no step is among the events of the call. When it fails
inside the driver, it reports the buffer with the length `h->buf_size -
out_size_left` that the loop has reached, that is, the bytes written before
the failure. -/
theorem conv_failure_view {σ : Type} (E : Env σ) (fuel : Nat) (errno : Errno)
    (trace : List Event) (hd : iconv_cgo_t σ) (cd : σ) (inp : Option (List Byte))
    (in_size : Nat) (out : List Byte) (out_size : Nat) (r : ConvRet σ)
    (hcd : hd.cd = some cd) (hin : inp = none → in_size = 0)
    (h : iconv_cgo_conv E fuel errno trace (some hd) inp in_size (some out) (some out_size) =
      some r)
    (hfail : r.result = -1) :
    ∃ evs, r.trace = trace ++ evs ∧
      ((r.out = some [] ∧ r.out_size = some 0 ∧ ∀ e ∈ evs, e.is_step = false) ∨
       (∃ s0 s1 c1, (∃ e ∈ evs, e.is_step = true) ∧
          conv_core_loop E (inp.getD []) fuel s0
            { in_left := 0, in_size_left := in_size, out_left := 0,
              out_size_left := s0.h.buf_size } = some (-1, s1, c1) ∧
          r.h = some s1.h ∧ r.errno = s1.errno ∧ r.out = s1.h.buf ∧
          r.out_size = some (size_sub E.w s1.h.buf_size c1.out_size_left))) := by
  unfold iconv_cgo_conv at h
  simp only [hcd] at h
  have hz : in_size ≠ 0 := by
    intro hz
    subst hz
    simp at h
    subst h
    simp at hfail
  have hvalid : ¬ ((inp.isNone = true ∧ in_size ≠ 0) ∨
      ((some out).isNone = true ∨ (some out_size).isNone = true)) := by
    cases inp with
    | none => exact absurd (hin rfl) hz
    | some i => simp
  rw [if_neg hvalid, if_neg hz] at h
  obtain ⟨hR1, -, -, hR4, -⟩ := conv_reset_spec E { h := hd, errno := errno, trace := trace } cd
  generalize conv_reset E { h := hd, errno := errno, trace := trace } cd = R at h hR1 hR4
  obtain ⟨err, sR⟩ := R
  dsimp only at hR1 hR4
  have hpre : ∀ e ∈ (if hd.buf.isSome then [Event.reset] else []), e.is_step = false := by
    intro e he
    split at he
    · simp at he; subst he; rfl
    · simp at he
  cases err with
  | some e =>
    dsimp only at h
    simp only [Option.some.injEq] at h
    subst h
    exact ⟨_, hR4, Or.inl ⟨rfl, rfl, hpre⟩⟩
  | none =>
    dsimp only at h
    cases hA : iconv_cgo_alloc E sR in_size with
    | none => simp [hA] at h
    | some x =>
      obtain ⟨ra, sA⟩ := x
      obtain ⟨ev, hA1, hA2, -, -, hA5, hA6⟩ := alloc_spec E sR in_size hA
      rw [hA] at h
      dsimp only at h
      have hpre2 : ∀ e ∈ (if hd.buf.isSome then [Event.reset] else []) ++ ev,
          e.is_step = false := by
        intro e he
        rcases List.mem_append.1 he with he | he
        · exact hpre e he
        · obtain ⟨n, rfl⟩ := hA2 e he
          rfl
      by_cases hra : ra = -1
      · rw [if_pos hra] at h
        simp only [Option.some.injEq] at h
        subst h
        exact ⟨_, by rw [hA1, hR4, List.append_assoc], Or.inl ⟨rfl, rfl, hpre2⟩⟩
      · rw [if_neg hra] at h
        rw [iconv_cgo_conv_core] at h
        cases hL : conv_core_loop E (inp.getD []) fuel sA
            { in_left := 0, in_size_left := in_size, out_left := 0,
              out_size_left := sA.h.buf_size } with
        | none => simp [hL] at h
        | some y =>
          obtain ⟨res, s1, c1⟩ := y
          rw [hL] at h
          dsimp only at h
          simp only [Option.some.injEq] at h
          subst h
          dsimp only at hfail
          subst hfail
          have hbufA : ∃ mem, sA.h.buf = some mem := by
            cases hb : sA.h.buf with
            | some mem => exact ⟨mem, rfl⟩
            | none =>
              cases fuel with
              | zero => simp [conv_core_loop] at hL
              | succ k => simp [conv_core_loop, loop_body, hz, call_iconv, hb] at hL
          obtain ⟨memA, hbufA⟩ := hbufA
          obtain ⟨ev2, hL1, -, hL3, hL4, -⟩ :=
            loop_trace E (inp.getD []) fuel sA _ hbufA (out_inv_start _ _) hL
          obtain ⟨p, rest, rfl⟩ := hL3 hz
          refine ⟨(if hd.buf.isSome then [Event.reset] else []) ++ ev ++ Event.step p :: rest,
            by simp [hL1, hA1, hR4], Or.inr ⟨sA, s1, c1, ⟨Event.step p, by simp, rfl⟩, hL, rfl,
              rfl, ?_, rfl⟩⟩
          obtain ⟨m1, hm1⟩ := Option.isSome_iff_exists.1 hL4
          simp [hm1]

theorem conv_failure_view_witness :
    iconv_cgo_conv toyEnv 10 Errno.E0 [] (some (toyHandle "UTF-8" "UTF-8"))
      (some [65, 255, 66]) 3 (some []) (some 0) = some toyFailedRet ∧
    toyFailedRet.result = -1 ∧
    ∃ evs, toyFailedRet.trace = [] ++ evs ∧
      ((toyFailedRet.out = some [] ∧ toyFailedRet.out_size = some 0 ∧
          ∀ e ∈ evs, e.is_step = false) ∨
       (∃ s0 s1 c1, (∃ e ∈ evs, e.is_step = true) ∧
          conv_core_loop toyEnv ((some [65, 255, 66] : Option (List Byte)).getD []) 10 s0
            { in_left := 0, in_size_left := 3, out_left := 0,
              out_size_left := s0.h.buf_size } = some (-1, s1, c1) ∧
          toyFailedRet.h = some s1.h ∧ toyFailedRet.errno = s1.errno ∧
          toyFailedRet.out = s1.h.buf ∧
          toyFailedRet.out_size = some (size_sub toyEnv.w s1.h.buf_size c1.out_size_left))) :=
  ⟨rfl, rfl,
    conv_failure_view toyEnv 10 Errno.E0 [] (toyHandle "UTF-8" "UTF-8") 0
      (some [65, 255, 66]) 3 [] 0 toyFailedRet rfl (fun h => by cases h) rfl rfl⟩

/-! ## Sessions: a sequence of conversions -/

/-- The ways in which a call of `iconv_cgo_conv` on a valid handle returns:
before the reset; after a failed reset; after a failed `iconv_cgo_alloc`; or
with what the driver loop returned. -/
theorem conv_cases {σ : Type} (E : Env σ) (fuel : Nat) (errno : Errno) (trace : List Event)
    (hd : iconv_cgo_t σ) (cd : σ) (inp : Option (List Byte)) (in_size : Nat)
    (out : Option (List Byte)) (out_size : Option Nat) (r : ConvRet σ)
    (hcd : hd.cd = some cd)
    (h : iconv_cgo_conv E fuel errno trace (some hd) inp in_size out out_size = some r) :
    (r.h = some hd ∧ r.trace = trace) ∨
    (∃ err sR, conv_reset E { h := hd, errno := errno, trace := trace } cd = (err, sR) ∧
      in_size ≠ 0 ∧
      ((err ≠ none ∧ r.h = some sR.h ∧ r.trace = sR.trace) ∨
       (err = none ∧ ∃ ra sA, iconv_cgo_alloc E sR in_size = some (ra, sA) ∧
          ((ra = -1 ∧ r.h = some sA.h ∧ r.trace = sA.trace) ∨
           (ra ≠ -1 ∧ ∃ res s1 c1,
              conv_core_loop E (inp.getD []) fuel sA
                { in_left := 0, in_size_left := in_size, out_left := 0,
                  out_size_left := sA.h.buf_size } = some (res, s1, c1) ∧
              r.h = some s1.h ∧ r.trace = s1.trace))))) := by
  unfold iconv_cgo_conv at h
  simp only [hcd] at h
  split at h
  · simp only [Option.some.injEq] at h
    subst h
    exact Or.inl ⟨rfl, rfl⟩
  · split at h
    · simp only [Option.some.injEq] at h
      subst h
      exact Or.inl ⟨rfl, rfl⟩
    · rename_i hz
      right
      generalize conv_reset E { h := hd, errno := errno, trace := trace } cd = R at h
      obtain ⟨err, sR⟩ := R
      refine ⟨err, sR, rfl, hz, ?_⟩
      cases err with
      | some e =>
        dsimp only at h
        simp only [Option.some.injEq] at h
        subst h
        exact Or.inl ⟨by simp, rfl, rfl⟩
      | none =>
        dsimp only at h
        right
        refine ⟨rfl, ?_⟩
        cases hA : iconv_cgo_alloc E sR in_size with
        | none => simp [hA] at h
        | some x =>
          obtain ⟨ra, sA⟩ := x
          rw [hA] at h
          dsimp only at h
          refine ⟨ra, sA, rfl, ?_⟩
          by_cases hra : ra = -1
          · rw [if_pos hra] at h
            simp only [Option.some.injEq] at h
            subst h
            exact Or.inl ⟨hra, rfl, rfl⟩
          · rw [if_neg hra, iconv_cgo_conv_core] at h
            right
            refine ⟨hra, ?_⟩
            cases hL : conv_core_loop E (inp.getD []) fuel sA
                { in_left := 0, in_size_left := in_size, out_left := 0,
                  out_size_left := sA.h.buf_size } with
            | none => simp [hL] at h
            | some y =>
              obtain ⟨res, s1, c1⟩ := y
              rw [hL] at h
              dsimp only at h
              simp only [Option.some.injEq] at h
              subst h
              exact ⟨res, s1, c1, rfl, rfl, rfl⟩

theorem loop_needs_buf {σ : Type} (E : Env σ) (inp : List Byte) (fuel : Nat) (s : Sys σ)
    (c : Cursors) {x : Int × Sys σ × Cursors} (hne : c.in_size_left ≠ 0)
    (h : conv_core_loop E inp fuel s c = some x) : ∃ mem, s.h.buf = some mem := by
  cases hb : s.h.buf with
  | some mem => exact ⟨mem, rfl⟩
  | none =>
    cases fuel with
    | zero => simp [conv_core_loop] at h
    | succ k => simp [conv_core_loop, loop_body, hne, call_iconv, hb] at h

theorem no_conv_of_realloc {ev : List Event} (h : ∀ e ∈ ev, ∃ n, e = Event.realloc n) :
    ∀ e ∈ ev, e.is_step = false ∧ e.is_flush = false := by
  intro e he
  obtain ⟨n, rfl⟩ := h e he
  exact ⟨rfl, rfl⟩

/-- Every call of `iconv_cgo_conv` keeps the session invariant. -/
theorem conv_keeps_inv {σ : Type} (E : Env σ) (s0 s : Sys σ) (fuel : Nat)
    (inp : Option (List Byte)) (in_size : Nat) (out : Option (List Byte))
    (out_size : Option Nat) (r : ConvRet σ) (h1 : iconv_cgo_t σ)
    (hinv : session_inv E.w s0 s)
    (h : iconv_cgo_conv E fuel s.errno s.trace (some s.h) inp in_size out out_size = some r)
    (hh : r.h = some h1) :
    session_inv E.w s0 { h := h1, errno := r.errno, trace := r.trace } := by
  obtain ⟨i1, i2, i3, i4⟩ := hinv
  obtain ⟨cd, hcd⟩ := Option.isSome_iff_exists.1 i2
  rcases conv_cases E fuel s.errno s.trace s.h cd inp in_size out out_size r hcd h with
    ⟨e1, e2⟩ | ⟨err, sR, hR, hz, hcase⟩
  · rw [hh, Option.some.injEq] at e1
    subst e1
    exact ⟨i1, i2, i3, fun hb => by rw [e2]; exact i4 hb⟩
  · obtain ⟨r1, r2, r3, r4, r5, r6⟩ := conv_reset_spec E
      { h := s.h, errno := s.errno, trace := s.trace } cd
    rw [hR] at r1 r2 r3 r4 r5 r6
    dsimp only at r1 r2 r3 r4 r5 r6
    have hRcd : sR.h.cd.isSome = true := by
      cases hb : s.h.buf with
      | none =>
        have := r5 hb
        simp only [Prod.mk.injEq] at this
        rw [this.2]; exact i2
      | some m =>
        rw [(r6 (by simp [hb])).2]; rfl
    have hRnone : s.h.buf = none → sR.h.cd = s0.h.cd ∧ sR.h.buf_size = 0 ∧
        ∀ e ∈ sR.trace, e.is_step = false ∧ e.is_flush = false := by
      intro hb
      have := r5 hb
      simp only [Prod.mk.injEq] at this
      rw [this.2]
      exact i4 hb
    rcases hcase with ⟨-, e1, e2⟩ | ⟨-, ra, sA, hA, hcase⟩
    · rw [hh, Option.some.injEq] at e1
      subst e1
      refine ⟨r2.trans i1, hRcd, fun hw => by rw [r3]; exact i3 hw, fun hb => ?_⟩
      rw [e2]
      exact hRnone (r1 ▸ hb)
    · obtain ⟨ev, a1, a2, a3, a4, a5, a6⟩ := alloc_spec E sR in_size hA
      have hAcap : 9 ≤ E.w → cap_ok E.w sA.h.buf_size := by
        intro hw
        obtain ⟨ra', sA', b1, b2, -⟩ := alloc_cap E sR in_size hw (by rw [r3]; exact i3 hw)
        rw [hA] at b1
        simp only [Option.some.injEq, Prod.mk.injEq] at b1
        rw [b1.2]; exact b2
      rcases hcase with ⟨hra, e1, e2⟩ | ⟨hra, res, s1, c1, hL, e1, e2⟩
      · rw [hh, Option.some.injEq] at e1
        subst e1
        refine ⟨a4.trans (r2.trans i1), by rw [a3]; exact hRcd, hAcap, fun hb => ?_⟩
        rw [a5 hra] at hb ⊢
        obtain ⟨c1, c2, c3⟩ := hRnone (r1 ▸ hb)
        refine ⟨c1, c2, ?_⟩
        rw [e2, a1]
        intro e he
        rcases List.mem_append.1 he with he | he
        · exact c3 e he
        · exact no_conv_of_realloc a2 e he
      · rw [hh, Option.some.injEq] at e1
        subst e1
        obtain ⟨mem, hbA⟩ := loop_needs_buf E _ fuel sA _ hz hL
        obtain ⟨ev2, l1, -, -, l4, l5, l6, l7⟩ :=
          loop_trace E (inp.getD []) fuel sA _ hbA (out_inv_start _ _) hL
        refine ⟨l5.trans (a4.trans (r2.trans i1)), l6 (by rw [a3]; exact hRcd),
          fun hw => l7 (hAcap hw), fun hb => ?_⟩
        rw [hb] at l4
        simp at l4

theorem reach_inv {σ : Type} (E : Env σ) (s0 s : Sys σ) (hfresh : fresh s0)
    (hreach : Reach E s0 s) : session_inv E.w s0 s := by
  induction hreach with
  | start =>
    obtain ⟨f1, f2, f3, f4⟩ := hfresh
    exact ⟨rfl, f1, fun _ => Or.inl f3, fun _ => ⟨rfl, f3, f4⟩⟩
  | conv _ hc hh ih => exact conv_keeps_inv E s0 _ _ _ _ _ _ _ _ ih hc hh

/-! ## Two sessions with a window-independent primitive -/

theorem conv_last_free {σ : Type} (E : Env σ) (hfree : window_free E) (s : Sys σ)
    (ol osl : Nat) {cd : σ} {mem : List Byte} (hcd : s.h.cd = some cd)
    (hbuf : s.h.buf = some mem) :
    iconv_cgo_conv_last E s ol osl =
      some ((if (E.iconv_flush cd 0).err = none then 0 else -1),
        { h := { s.h with cd := some (E.iconv_flush cd 0).cd,
                          buf := some (mem_write mem ol (E.iconv_flush cd 0).produced) },
          errno := (E.iconv_flush cd 0).err.getD s.errno,
          trace := s.trace ++ [Event.flush (E.iconv_flush cd 0).produced] },
        ol + (E.iconv_flush cd 0).produced.length,
        size_sub E.w osl (E.iconv_flush cd 0).produced.length) := by
  rw [iconv_cgo_conv_last, call_flush_eq E s ol osl hcd hbuf, hfree.2.2.1 cd osl]
  have hnb := hfree.2.2.2 cd 0
  generalize E.iconv_flush cd 0 = f at hnb ⊢
  obtain ⟨cd1, k1, q1, err1⟩ := f
  cases err1 with
  | none => simp
  | some e =>
    have he : e ≠ Errno.E2BIG := by simpa using hnb
    simp [he]

theorem sim_out_write {σ : Type} {w : Nat} {s t s1 t1 : Sys σ} {ol osl osl1 : Nat}
    (hso : sim_out w s t ol osl osl1) (p : List Byte)
    (hcd : s1.h.cd = t1.h.cd) (hsuf1 : s1.h.suffix = s.h.suffix)
    (hsuf2 : t1.h.suffix = t.h.suffix)
    (hb1 : ∀ m, s.h.buf = some m → s1.h.buf = some (mem_write m ol p))
    (hb2 : ∀ m, t.h.buf = some m → t1.h.buf = some (mem_write m ol p))
    (hbs1 : s1.h.buf_size = s.h.buf_size) (hbs2 : t1.h.buf_size = t.h.buf_size) :
    sim_out w s1 t1 (ol + p.length) (size_sub w osl p.length) (size_sub w osl1 p.length) := by
  obtain ⟨-, hsuf, ⟨m1, m2, h1, h2, hmem⟩, hi1, hi2⟩ := hso
  refine ⟨hcd, by rw [hsuf1, hsuf2, hsuf], ⟨_, _, hb1 m1 h1, hb2 m2 h2, ?_⟩, ?_, ?_⟩
  · rw [mem_read_write, mem_read_write, hmem]
  · rw [hbs1]; exact out_inv_write _ hi1
  · rw [hbs2]; exact out_inv_write _ hi2

theorem sim_last {σ : Type} (E : Env σ) (hfree : window_free E) {s t : Sys σ}
    {ol osl osl1 : Nat} {res : Int} {s1 : Sys σ} {ol1 osl2 : Nat}
    (hso : sim_out E.w s t ol osl osl1)
    (h : iconv_cgo_conv_last E s ol osl = some (res, s1, ol1, osl2)) :
    ∃ t1 osl3, iconv_cgo_conv_last E t ol osl1 = some (res, t1, ol1, osl3) ∧
      sim_out E.w s1 t1 ol1 osl2 osl3 := by
  obtain ⟨m1, m2, hb1, hb2, -⟩ := hso.2.2.1
  cases hcd : s.h.cd with
  | none => simp [iconv_cgo_conv_last, call_flush, hcd] at h
  | some cd =>
    have hcd2 : t.h.cd = some cd := by rw [← hso.1]; exact hcd
    rw [conv_last_free E hfree s ol osl hcd hb1] at h
    simp only [Option.some.injEq, Prod.mk.injEq] at h
    obtain ⟨rfl, rfl, rfl, rfl⟩ := h
    refine ⟨_, _, conv_last_free E hfree t ol osl1 hcd2 hb2, ?_⟩
    refine sim_out_write hso _ rfl rfl rfl ?_ ?_ rfl rfl
    · intro m hm
      rw [hb1] at hm
      simp only [Option.some.injEq] at hm
      subst hm; rfl
    · intro m hm
      rw [hb2] at hm
      simp only [Option.some.injEq] at hm
      subst hm; rfl

theorem sim_body {σ : Type} (E : Env σ) (hfree : window_free E) (inp : List Byte)
    {s t : Sys σ} {c d : Cursors} {ls : LoopStep σ}
    (hsim : sim E.w s t c d) (hs : loop_body E inp s c = some ls) :
    ∃ lt, loop_body E inp t d = some lt ∧ sim_step E.w ls lt := by
  obtain ⟨hil, hisl, hol, hso⟩ := hsim
  obtain ⟨m1, m2, hb1, hb2, -⟩ := hso.2.2.1
  by_cases h0 : c.in_size_left = 0
  · have h0' : d.in_size_left = 0 := by rw [← hisl]; exact h0
    simp only [loop_body, h0, if_true, Option.some.injEq] at hs
    subst hs
    exact ⟨LoopStep.exit (-1) t d, by simp [loop_body, h0'],
      (show _ ∧ _ from ⟨rfl, hil, hisl, hol, hso⟩)⟩
  · cases hcd : s.h.cd with
    | none => simp [loop_body, h0, call_iconv, hcd] at hs
    | some cd =>
      have hcd2 : t.h.cd = some cd := by rw [← hso.1]; exact hcd
      have h0' : d.in_size_left ≠ 0 := by rw [← hisl]; exact h0
      have hsuf : t.h.suffix = s.h.suffix := hso.2.1.symm
      rw [loop_body, if_neg h0, call_iconv_eq E s inp c hcd hb1,
        hfree.1 cd _ c.out_size_left] at hs
      rw [loop_body, if_neg h0', call_iconv_eq E t inp d hcd2 hb2,
        hfree.1 cd _ d.out_size_left, ← hil, ← hisl, ← hol]
      have hnb := hfree.2.1 cd ((inp.drop c.in_left).take c.in_size_left) 0
      generalize E.iconv_step cd _ 0 = r at hs hnb ⊢
      obtain ⟨cd1, k1, p1, err1⟩ := r
      have hw1 : ∀ m, s.h.buf = some m →
          (some (mem_write m1 c.out_left p1) : Option (List Byte)) =
            some (mem_write m c.out_left p1) := by
        intro m hm
        rw [hb1] at hm
        simp only [Option.some.injEq] at hm
        subst hm; rfl
      have hw2 : ∀ m, t.h.buf = some m →
          (some (mem_write m2 c.out_left p1) : Option (List Byte)) =
            some (mem_write m c.out_left p1) := by
        intro m hm
        rw [hb2] at hm
        simp only [Option.some.injEq] at hm
        subst hm; rfl
      have hso1 : ∀ e1 e2 : Errno, sim_out E.w
          { h := { s.h with cd := some cd1, buf := some (mem_write m1 c.out_left p1) },
            errno := e1, trace := s.trace ++ [Event.step p1] }
          { h := { t.h with cd := some cd1, buf := some (mem_write m2 c.out_left p1) },
            errno := e2, trace := t.trace ++ [Event.step p1] }
          (c.out_left + p1.length) (size_sub E.w c.out_size_left p1.length)
          (size_sub E.w d.out_size_left p1.length) :=
        fun _ _ => sim_out_write hso p1 rfl rfl rfl hw1 hw2 rfl rfl
      cases err1 with
      | none =>
        dsimp only at hs ⊢
        split at hs
        · cases hs
        · rename_i res s2 ol2 osl2 hl
          simp only [Option.some.injEq] at hs
          subst hs
          obtain ⟨t2, osl3, hl2, hso2⟩ := sim_last E hfree (hso1 _ _) hl
          rw [hl2]
          exact ⟨_, rfl, (show _ ∧ _ from ⟨rfl, rfl, rfl, rfl, hso2⟩)⟩
      | some e =>
        have he : e ≠ Errno.E2BIG := by simpa using hnb
        simp only [Option.getD_some, if_neg he] at hs ⊢
        have hplain : sim E.w
            { h := { s.h with cd := some cd1, buf := some (mem_write m1 c.out_left p1) },
              errno := e, trace := s.trace ++ [Event.step p1] }
            { h := { t.h with cd := some cd1, buf := some (mem_write m2 c.out_left p1) },
              errno := e, trace := t.trace ++ [Event.step p1] }
            { in_left := c.in_left + k1, in_size_left := size_sub E.w c.in_size_left k1,
              out_left := c.out_left + p1.length,
              out_size_left := size_sub E.w c.out_size_left p1.length }
            { in_left := c.in_left + k1, in_size_left := size_sub E.w c.in_size_left k1,
              out_left := c.out_left + p1.length,
              out_size_left := size_sub E.w d.out_size_left p1.length } :=
          ⟨rfl, rfl, rfl, hso1 _ _⟩
        by_cases hp : s.h.suffix ≠ Suffix.IGNORE
        · rw [if_pos hp] at hs
          rw [if_pos (show t.h.suffix ≠ Suffix.IGNORE by rw [hsuf]; exact hp)]
          simp only [Option.some.injEq] at hs
          subst hs
          exact ⟨_, rfl, (show _ ∧ _ from ⟨rfl, hplain⟩)⟩
        · rw [if_neg hp] at hs
          rw [if_neg (show ¬ t.h.suffix ≠ Suffix.IGNORE by rw [hsuf]; exact hp)]
          by_cases he2 : e = Errno.EILSEQ
          · rw [if_pos he2] at hs
            rw [if_pos he2]
            simp only [Option.some.injEq] at hs
            subst hs
            exact ⟨_, rfl, (show sim E.w _ _ _ _ from ⟨rfl, rfl, rfl, hso1 _ _⟩)⟩
          · rw [if_neg he2] at hs
            rw [if_neg he2]
            by_cases he3 : e = Errno.EINVAL
            · rw [if_pos he3] at hs
              rw [if_pos he3]
              split at hs
              · cases hs
              · rename_i res s2 ol2 osl2 hl
                simp only [Option.some.injEq] at hs
                subst hs
                obtain ⟨t2, osl3, hl2, hso2⟩ := sim_last E hfree (hso1 _ _) hl
                rw [hl2]
                exact ⟨_, rfl, (show _ ∧ _ from ⟨rfl, rfl, rfl, rfl, hso2⟩)⟩
            · rw [if_neg he3] at hs
              rw [if_neg he3]
              simp only [Option.some.injEq] at hs
              subst hs
              exact ⟨_, rfl, (show _ ∧ _ from ⟨rfl, hplain⟩)⟩

theorem sim_symm {σ : Type} {w : Nat} {s t : Sys σ} {c d : Cursors} (h : sim w s t c d) :
    sim w t s d c := by
  obtain ⟨h1, h2, h3, h4, h5, ⟨m1, m2, h6, h7, h8⟩, h9, h10⟩ := h
  refine ⟨h1.symm, h2.symm, h3.symm, h4.symm, h5.symm, ⟨m2, m1, h7, h6, ?_⟩, ?_, ?_⟩
  · rw [← h3]; exact h8.symm
  · rw [← h3]; exact h10
  · rw [← h3]; exact h9

theorem sim_loop {σ : Type} (E : Env σ) (hfree : window_free E) (inp : List Byte) :
    ∀ (fuel : Nat) {s t : Sys σ} {c d : Cursors} {res : Int} {s1 : Sys σ} {c1 : Cursors},
      sim E.w s t c d → conv_core_loop E inp fuel s c = some (res, s1, c1) →
      ∃ t1 d1, conv_core_loop E inp fuel t d = some (res, t1, d1) ∧ sim E.w s1 t1 c1 d1 := by
  intro fuel
  induction fuel with
  | zero => intro s t c d res s1 c1 _ h; simp [conv_core_loop] at h
  | succ fuel ih =>
    intro s t c d res s1 c1 hsim h
    rw [conv_core_loop] at h ⊢
    cases hb : loop_body E inp s c with
    | none => simp [hb] at h
    | some ls =>
      obtain ⟨lt, hb2, hstep⟩ := sim_body E hfree inp hsim hb
      rw [hb] at h
      rw [hb2]
      cases ls with
      | exit r s2 c2 =>
        cases lt with
        | exit r' t2 d2 =>
          simp only [Option.some.injEq, Prod.mk.injEq] at h
          obtain ⟨rfl, rfl, rfl⟩ := h
          obtain ⟨rfl, hs2⟩ := hstep
          exact ⟨t2, d2, rfl, hs2⟩
        | next t2 d2 => exact absurd hstep (by simp [sim_step])
      | next s2 c2 =>
        cases lt with
        | exit r' t2 d2 => exact absurd hstep (by simp [sim_step])
        | next t2 d2 => exact ih hstep h

theorem conv_core_sim {σ : Type} (E : Env σ) (hfree : window_free E) (inp : List Byte)
    (in_size fuel : Nat) (sA tA : Sys σ) (hcd : sA.h.cd = tA.h.cd)
    (hsuf : sA.h.suffix = tA.h.suffix) (hb1 : ∃ m, sA.h.buf = some m)
    (hb2 : ∃ m, tA.h.buf = some m) :
    (iconv_cgo_conv_core E fuel sA inp in_size).map
        (fun x => (x.1, mem_read x.2.2.1 x.2.2.2)) =
      (iconv_cgo_conv_core E fuel tA inp in_size).map
        (fun x => (x.1, mem_read x.2.2.1 x.2.2.2)) := by
  obtain ⟨m1, hb1⟩ := hb1
  obtain ⟨m2, hb2⟩ := hb2
  have hsim : sim E.w sA tA
      { in_left := 0, in_size_left := in_size, out_left := 0,
        out_size_left := sA.h.buf_size }
      { in_left := 0, in_size_left := in_size, out_left := 0,
        out_size_left := tA.h.buf_size } :=
    ⟨rfl, rfl, rfl, hcd, hsuf, ⟨m1, m2, hb1, hb2, by simp [mem_read]⟩,
      out_inv_start _ _, out_inv_start _ _⟩
  have hview : ∀ {res : Int} {s1 t1 : Sys σ} {c1 d1 : Cursors}, sim E.w s1 t1 c1 d1 →
      (res, mem_read (s1.h.buf.getD []) (size_sub E.w s1.h.buf_size c1.out_size_left)) =
      (res, mem_read (t1.h.buf.getD []) (size_sub E.w t1.h.buf_size d1.out_size_left)) := by
    intro res s1 t1 c1 d1 h
    obtain ⟨-, -, h3, -, -, ⟨n1, n2, h6, h7, h8⟩, h9, h10⟩ := h
    rw [h6, h7, size_sub_of_sum h9, size_sub_of_sum h10, h3]
    simp only [Option.getD_some]
    rw [mem_read_take n1 (Nat.mod_le d1.out_left (2 ^ E.w)),
      mem_read_take n2 (Nat.mod_le d1.out_left (2 ^ E.w)), ← h3, h8]
  unfold iconv_cgo_conv_core
  cases hL : conv_core_loop E inp fuel sA
      { in_left := 0, in_size_left := in_size, out_left := 0,
        out_size_left := sA.h.buf_size } with
  | some x =>
    obtain ⟨res, s1, c1⟩ := x
    obtain ⟨t1, d1, hL2, hs1⟩ := sim_loop E hfree inp fuel hsim hL
    rw [hL2]
    simp only [Option.map_some']
    rw [hview hs1]
  | none =>
    cases hL2 : conv_core_loop E inp fuel tA
        { in_left := 0, in_size_left := in_size, out_left := 0,
          out_size_left := tA.h.buf_size } with
    | none => rfl
    | some y =>
      obtain ⟨res, t1, d1⟩ := y
      obtain ⟨s1, c1, hL3, -⟩ := sim_loop E hfree inp fuel (sim_symm hsim) hL2
      rw [hL] at hL3
      cases hL3

theorem conv_main_eq {σ : Type} (E : Env σ) (fuel : Nat) (errno : Errno) (trace : List Event)
    (hd : iconv_cgo_t σ) (cd : σ) (inp : Option (List Byte)) (in_size : Nat)
    (out : Option (List Byte)) (out_size : Option Nat) {sR sA : Sys σ} {ra : Int}
    (hcd : hd.cd = some cd)
    (hvalid : ¬ ((inp.isNone = true ∧ in_size ≠ 0) ∨
      (out.isNone = true ∨ out_size.isNone = true)))
    (hz : in_size ≠ 0)
    (hR : conv_reset E { h := hd, errno := errno, trace := trace } cd = (none, sR))
    (hA : iconv_cgo_alloc E sR in_size = some (ra, sA)) :
    (iconv_cgo_conv E fuel errno trace (some hd) inp in_size out out_size).map
        ConvRet.outcome =
      if ra = -1 then some (-1, [])
      else (iconv_cgo_conv_core E fuel sA (inp.getD []) in_size).map
        (fun x => (x.1, mem_read x.2.2.1 x.2.2.2)) := by
  unfold iconv_cgo_conv
  simp only [hcd]
  rw [if_neg hvalid, if_neg hz]
  rw [hR]
  dsimp only
  rw [hA]
  dsimp only
  by_cases hra : ra = -1
  · rw [if_pos hra, if_pos hra]
    simp [ConvRet.outcome, mem_read]
  · rw [if_neg hra, if_neg hra]
    cases iconv_cgo_conv_core E fuel sA (inp.getD []) in_size with
    | none => rfl
    | some x =>
      obtain ⟨res, s1, buf, size⟩ := x
      simp [ConvRet.outcome]

/-- A handle that `iconv_cgo_open` returns is a fresh session. -/
theorem open_fresh {σ : Type} (E : Env σ) (errno : Errno) (trace : List Event)
    (to_code from_code : Option (List Char)) (hd : iconv_cgo_t σ)
    (htr : ∀ e ∈ trace, e.is_step = false ∧ e.is_flush = false)
    (h : (iconv_cgo_open E errno trace to_code from_code).h = some hd) :
    fresh { h := hd, errno := (iconv_cgo_open E errno trace to_code from_code).errno,
            trace := (iconv_cgo_open E errno trace to_code from_code).trace } := by
  cases to_code with
  | none => simp [iconv_cgo_open] at h
  | some tc =>
    cases from_code with
    | none => simp [iconv_cgo_open] at h
    | some fc =>
      unfold iconv_cgo_open at h ⊢
      unfold iconv_cgo_new at h ⊢
      by_cases hm : E.malloc_ok trace = true
      · simp only [hm, if_true] at h ⊢
        cases ho : E.iconv_open tc fc with
        | error e => simp [ho] at h
        | ok cd =>
          simp only [ho, Option.some.injEq] at h ⊢
          subst h
          refine ⟨rfl, rfl, rfl, ?_⟩
          intro e he
          rcases List.mem_append.1 he with he | he
          · exact htr e he
          · simp at he
            subst he
            exact ⟨rfl, rfl⟩
      · simp [hm] at h

theorem conv_step_after_reset {σ : Type} (E : Env σ) (s0 s : Sys σ)
    (hinv : session_inv E.w s0 s) (fuel : Nat) (inp : Option (List Byte)) (in_size : Nat)
    (out : Option (List Byte)) (out_size : Option Nat) (r : ConvRet σ)
    (h : iconv_cgo_conv E fuel s.errno s.trace (some s.h) inp in_size out out_size = some r) :
    ∃ evs, r.trace = s.trace ++ evs ∧
      ((∃ e ∈ evs, e.is_step = true) →
        (∀ e ∈ s.trace, e.is_step = false ∧ e.is_flush = false) ∨
        (∃ cd rest, s.h.cd = some cd ∧ (E.iconv_reset cd).2 = none ∧
          evs = Event.reset :: rest)) := by
  obtain ⟨-, i2, -, i4⟩ := hinv
  obtain ⟨cd, hcd⟩ := Option.isSome_iff_exists.1 i2
  rcases conv_cases E fuel s.errno s.trace s.h cd inp in_size out out_size r hcd h with
    ⟨-, e2⟩ | ⟨err, sR, hR, hz, hcase⟩
  · refine ⟨[], by simp [e2], ?_⟩
    rintro ⟨e, he, -⟩
    simp at he
  · obtain ⟨r1, -, -, r4, -, r6⟩ := conv_reset_spec E
      { h := s.h, errno := s.errno, trace := s.trace } cd
    rw [hR] at r1 r4 r6
    dsimp only at r1 r4 r6
    have hpre : ∀ e ∈ (if s.h.buf.isSome then [Event.reset] else []), e.is_step = false := by
      intro e he
      split at he
      · simp at he; subst he; rfl
      · simp at he
    rcases hcase with ⟨-, -, e2⟩ | ⟨herr, ra, sA, hA, hcase⟩
    · refine ⟨(if s.h.buf.isSome then [Event.reset] else []), by rw [e2, r4], ?_⟩
      rintro ⟨e, he, hst⟩
      rw [hpre e he] at hst
      cases hst
    · obtain ⟨ev, a1, a2, -⟩ := alloc_spec E sR in_size hA
      rcases hcase with ⟨-, -, e2⟩ | ⟨-, res, s1, c1, hL, -, e2⟩
      · refine ⟨(if s.h.buf.isSome then [Event.reset] else []) ++ ev,
          by rw [e2, a1, r4, List.append_assoc], ?_⟩
        rintro ⟨e, he, hst⟩
        rcases List.mem_append.1 he with he | he
        · rw [hpre e he] at hst
          cases hst
        · rw [(no_conv_of_realloc a2 e he).1] at hst
          cases hst
      · obtain ⟨mem, hbA⟩ := loop_needs_buf E _ fuel sA _ hz hL
        obtain ⟨ev2, l1, -⟩ := loop_trace E (inp.getD []) fuel sA _ hbA (out_inv_start _ _) hL
        refine ⟨(if s.h.buf.isSome then [Event.reset] else []) ++ (ev ++ ev2),
          by rw [e2, l1, a1, r4]; simp, fun _ => ?_⟩
        cases hb : s.h.buf with
        | none => exact Or.inl (i4 hb).2.2
        | some m =>
          right
          refine ⟨cd, ev ++ ev2, hcd, ?_, by simp⟩
          rw [← (r6 (by simp [hb])).1, herr]

theorem conv_same_as_fresh {σ : Type} (E : Env σ) (s0 s : Sys σ) (hfresh : fresh s0)
    (hinv : session_inv E.w s0 s) (hfree : window_free E) (hw : 9 ≤ E.w)
    (halloc : ∀ tr n, E.realloc_ok tr n = true)
    (hreset : ∀ cd, (E.iconv_reset cd).2 = none ∧ some (E.iconv_reset cd).1 = s0.h.cd)
    (fuel : Nat) (inp : Option (List Byte)) (in_size : Nat) (out : Option (List Byte))
    (out_size : Option Nat) :
    (iconv_cgo_conv E fuel s.errno s.trace (some s.h) inp in_size out out_size).map
        ConvRet.outcome =
      (iconv_cgo_conv E fuel s0.errno s0.trace (some s0.h) inp in_size out out_size).map
        ConvRet.outcome := by
  obtain ⟨i1, i2, i3, i4⟩ := hinv
  obtain ⟨f1, f2, f3, -⟩ := hfresh
  obtain ⟨cd, hcd⟩ := Option.isSome_iff_exists.1 i2
  obtain ⟨cd0, hcd0⟩ := Option.isSome_iff_exists.1 f1
  by_cases hvalid : (inp.isNone = true ∧ in_size ≠ 0) ∨
      (out.isNone = true ∨ out_size.isNone = true)
  · unfold iconv_cgo_conv
    simp only [hcd, hcd0]
    rw [if_pos hvalid, if_pos hvalid]
    rfl
  · by_cases hz : in_size = 0
    · unfold iconv_cgo_conv
      simp only [hcd, hcd0]
      rw [if_neg hvalid, if_neg hvalid, if_pos hz, if_pos hz]
      rfl
    · -- the state after the reset statement, in both sessions
      obtain ⟨r1, r2, r3, -, r5, r6⟩ := conv_reset_spec E
        { h := s.h, errno := s.errno, trace := s.trace } cd
      obtain ⟨-, -, -, -, q5, -⟩ := conv_reset_spec E
        { h := s0.h, errno := s0.errno, trace := s0.trace } cd0
      have hR0 := q5 f2
      generalize hRs : conv_reset E { h := s.h, errno := s.errno, trace := s.trace } cd = R
        at r1 r2 r3 r5 r6
      obtain ⟨err, sR⟩ := R
      dsimp only at r1 r2 r3 r5 r6
      have herr : err = none ∧ sR.h.cd = some cd0 := by
        cases hb : s.h.buf with
        | none =>
          have := r5 hb
          simp only [Prod.mk.injEq] at this
          refine ⟨this.1, ?_⟩
          rw [this.2]
          exact (i4 hb).1.trans hcd0
        | some m =>
          obtain ⟨c1, c2⟩ := r6 (by simp [hb])
          refine ⟨c1.trans (hreset cd).1, ?_⟩
          rw [c2, (hreset cd).2, hcd0]
      obtain ⟨rfl, hRcd⟩ := herr
      -- sizing, in both sessions
      obtain ⟨ra, sA, hA, -, hAle, hAok⟩ := alloc_cap E sR in_size hw (by rw [r3]; exact i3 hw)
      obtain ⟨rb, tA, hB, -, hBle, hBok⟩ := alloc_cap E
        { h := s0.h, errno := s0.errno, trace := s0.trace } in_size hw (Or.inl f3)
      rw [conv_main_eq E fuel s.errno s.trace s.h cd inp in_size out out_size hcd hvalid hz
          hRs hA,
        conv_main_eq E fuel s0.errno s0.trace s0.h cd0 inp in_size out out_size hcd0 hvalid hz
          hR0 hB]
      obtain ⟨ev, -, -, a3, a4, a5, a6⟩ := alloc_spec E sR in_size hA
      obtain ⟨ev', -, -, b3, b4, b5, b6⟩ := alloc_spec E _ in_size hB
      by_cases h1 : in_size * 2 % 2 ^ E.w < in_size
      · have e1 : ra = -1 := by
          unfold iconv_cgo_alloc at hA
          simp only [if_pos h1, Option.some.injEq, Prod.mk.injEq] at hA
          exact hA.1.symm
        have e2 : rb = -1 := by
          unfold iconv_cgo_alloc at hB
          simp only [if_pos h1, Option.some.injEq, Prod.mk.injEq] at hB
          exact hB.1.symm
        rw [if_pos e1, if_pos e2]
      · by_cases h2 : in_size * 2 % 2 ^ E.w > ICONV_CGO_MAX_BUF_SIZE E.w
        · have e1 : ra = -1 := by
            unfold iconv_cgo_alloc at hA
            simp only [if_neg h1, if_pos h2, Option.some.injEq, Prod.mk.injEq] at hA
            exact hA.1.symm
          have e2 : rb = -1 := by
            unfold iconv_cgo_alloc at hB
            simp only [if_neg h1, if_pos h2, Option.some.injEq, Prod.mk.injEq] at hB
            exact hB.1.symm
          rw [if_pos e1, if_pos e2]
        · have e1 : ra = 0 := hAok (halloc _) h1 h2
          have e2 : rb = 0 := hBok (halloc _) h1 h2
          have hpos : 0 < in_size * 2 % 2 ^ E.w := by omega
          rw [if_neg (by rw [e1]; decide), if_neg (by rw [e2]; decide)]
          have hbA : ∃ m, sA.h.buf = some m := by
            rcases (a6 (by rw [e1]; decide)).2 with hsame | hsome
            · cases hb : s.h.buf with
              | none =>
                have hle := hAle e1
                rw [hsame, r3, (i4 hb).2.1] at hle
                omega
              | some m => exact ⟨m, by rw [hsame, r1, hb]⟩
            · exact ⟨_, hsome⟩
          have hbB : ∃ m, tA.h.buf = some m := by
            rcases (b6 (by rw [e2]; decide)).2 with hsame | hsome
            · have hle := hBle e2
              rw [hsame] at hle
              dsimp only at hle
              rw [f3] at hle
              omega
            · exact ⟨_, hsome⟩
          exact conv_core_sim E hfree _ in_size fuel sA tA
            (by rw [a3, b3, hRcd]; exact hcd0.symm)
            (by rw [a4, b4, r2]; exact i1) hbA hbB

/-- C9: in every sequence of calls of `iconv_cgo_conv` on a session started
fresh, a call that invokes a step does so either when no step and no flush has
ever been invoked on the session, or after it has itself invoked the reset,
successfully, as the first event of the call, so after every step and flush
of the earlier calls. Hence, when the results of the primitive do not depend
on the size of the output window, the reset returns the converter to the
state in which it was opened, and allocation succeeds, every call on the
session gives the same result and the same output bytes as the same call on
the fresh session. -/
theorem conv_starts_in_initial_state {σ : Type} (E : Env σ) (s0 s : Sys σ)
    (hfresh : fresh s0) (hreach : Reach E s0 s) :
    (∀ (fuel : Nat) (inp : Option (List Byte)) (in_size : Nat) (out : Option (List Byte))
        (out_size : Option Nat) (r : ConvRet σ),
      iconv_cgo_conv E fuel s.errno s.trace (some s.h) inp in_size out out_size = some r →
      ∃ evs, r.trace = s.trace ++ evs ∧
        ((∃ e ∈ evs, e.is_step = true) →
          (∀ e ∈ s.trace, e.is_step = false ∧ e.is_flush = false) ∨
          (∃ cd rest, s.h.cd = some cd ∧ (E.iconv_reset cd).2 = none ∧
            evs = Event.reset :: rest))) ∧
    (window_free E → 9 ≤ E.w → (∀ tr n, E.realloc_ok tr n = true) →
      (∀ cd, (E.iconv_reset cd).2 = none ∧ some (E.iconv_reset cd).1 = s0.h.cd) →
      ∀ (fuel : Nat) (inp : Option (List Byte)) (in_size : Nat) (out : Option (List Byte))
        (out_size : Option Nat),
        (iconv_cgo_conv E fuel s.errno s.trace (some s.h) inp in_size out out_size).map
            ConvRet.outcome =
          (iconv_cgo_conv E fuel s0.errno s0.trace (some s0.h) inp in_size out out_size).map
            ConvRet.outcome) := by
  have hinv := reach_inv E s0 s hfresh hreach
  exact ⟨fun fuel inp in_size out out_size r h =>
      conv_step_after_reset E s0 s hinv fuel inp in_size out out_size r h,
    fun hfree hw halloc hreset fuel inp in_size out out_size =>
      conv_same_as_fresh E s0 s hfresh hinv hfree hw halloc hreset fuel inp in_size out
        out_size⟩

theorem conv_starts_in_initial_state_witness :
    fresh shiftFresh ∧ Reach shiftEnv shiftFresh shiftUsed ∧ window_free shiftEnv ∧
    ((∀ (fuel : Nat) (inp : Option (List Byte)) (in_size : Nat) (out : Option (List Byte))
        (out_size : Option Nat) (r : ConvRet Nat),
      iconv_cgo_conv shiftEnv fuel shiftUsed.errno shiftUsed.trace (some shiftUsed.h) inp
        in_size out out_size = some r →
      ∃ evs, r.trace = shiftUsed.trace ++ evs ∧
        ((∃ e ∈ evs, e.is_step = true) →
          (∀ e ∈ shiftUsed.trace, e.is_step = false ∧ e.is_flush = false) ∨
          (∃ cd rest, shiftUsed.h.cd = some cd ∧ (shiftEnv.iconv_reset cd).2 = none ∧
            evs = Event.reset :: rest))) ∧
    (window_free shiftEnv → 9 ≤ shiftEnv.w → (∀ tr n, shiftEnv.realloc_ok tr n = true) →
      (∀ cd, (shiftEnv.iconv_reset cd).2 = none ∧
        some (shiftEnv.iconv_reset cd).1 = shiftFresh.h.cd) →
      ∀ (fuel : Nat) (inp : Option (List Byte)) (in_size : Nat) (out : Option (List Byte))
        (out_size : Option Nat),
        (iconv_cgo_conv shiftEnv fuel shiftUsed.errno shiftUsed.trace (some shiftUsed.h) inp
            in_size out out_size).map ConvRet.outcome =
          (iconv_cgo_conv shiftEnv fuel shiftFresh.errno shiftFresh.trace (some shiftFresh.h)
            inp in_size out out_size).map ConvRet.outcome)) ∧
    (iconv_cgo_conv shiftEnv 1 shiftUsed.errno shiftUsed.trace (some shiftUsed.h)
        (some [66]) 1 (some []) (some 0)).map ConvRet.outcome = some (0, [66, 15]) := by
  have hf : fresh shiftFresh := ⟨rfl, rfl, rfl, by decide⟩
  have hr : Reach shiftEnv shiftFresh shiftUsed :=
    Reach.conv Reach.start
      (show iconv_cgo_conv shiftEnv 1 shiftFresh.errno shiftFresh.trace (some shiftFresh.h)
        (some [65]) 1 (some []) (some 0) = some shiftRet from rfl)
      (show shiftRet.h = some shiftUsed.h from rfl)
  have hfree : window_free shiftEnv :=
    ⟨fun _ _ _ => rfl, fun _ _ _ => by simp [shiftEnv], fun _ _ => rfl,
      fun _ _ => by simp [shiftEnv]⟩
  refine ⟨hf, hr, hfree, conv_starts_in_initial_state shiftEnv shiftFresh shiftUsed hf hr, ?_⟩
  rw [(conv_starts_in_initial_state shiftEnv shiftFresh shiftUsed hf hr).2 hfree (by decide)
    (fun _ _ => rfl) (fun _ => ⟨rfl, rfl⟩) 1 (some [66]) 1 (some []) (some 0)]
  rfl

/-! ## The classifier and exact suffixes -/

theorem set_suffix_drop {to_code : List Char} :
    (iconv_cgo_set_suffix to_code = Suffix.IGNORE →
      ∃ i, to_code.drop i = ICONV_CGO_SUFFIX_IGNORE_STR) ∧
    (iconv_cgo_set_suffix to_code = Suffix.TRANSLIT →
      ∃ i, to_code.drop i = ICONV_CGO_SUFFIX_TRANSLIT_STR) ∧
    ((∀ i, ¬ marker_at to_code i) → iconv_cgo_set_suffix to_code = Suffix.NONE) := by
  unfold iconv_cgo_set_suffix
  cases hs : strstr to_code "//".toList with
  | none =>
    refine ⟨?_, ?_, ?_⟩
    · intro h; cases h
    · intro h; cases h
    · intro _; rfl
  | some suf =>
    obtain ⟨i, h1, h2, -⟩ := strstr_some hs
    refine ⟨?_, ?_, fun hno => absurd h2 (hno i)⟩ <;> dsimp only
    · intro h
      by_cases ht : suf = ICONV_CGO_SUFFIX_TRANSLIT_STR
      · rw [if_pos ht] at h; cases h
      · rw [if_neg ht] at h
        by_cases hi : suf = ICONV_CGO_SUFFIX_IGNORE_STR
        · exact ⟨i, by rw [← h1, hi]⟩
        · rw [if_neg hi] at h; cases h
    · intro h
      by_cases ht : suf = ICONV_CGO_SUFFIX_TRANSLIT_STR
      · exact ⟨i, by rw [← h1, ht]⟩
      · rw [if_neg ht] at h
        by_cases hi : suf = ICONV_CGO_SUFFIX_IGNORE_STR
        · rw [if_pos hi] at h; cases h
        · rw [if_neg hi] at h; cases h

/-- C11: the classifier returns IGNORE only if `to_code` ends with the exact
literal `//IGNORE` and TRANSLIT only if it ends with the exact literal
`//TRANSLIT`. A name with no `//`, a name that ends with neither literal, and
in particular every name that ends in the case variant `//ignore`, is
classified NONE. -/
theorem set_suffix_exact_literal (to_code : List Char) :
    (iconv_cgo_set_suffix to_code = Suffix.IGNORE →
      ICONV_CGO_SUFFIX_IGNORE_STR <:+ to_code) ∧
    (iconv_cgo_set_suffix to_code = Suffix.TRANSLIT →
      ICONV_CGO_SUFFIX_TRANSLIT_STR <:+ to_code) ∧
    ((∀ i, ¬ marker_at to_code i) → iconv_cgo_set_suffix to_code = Suffix.NONE) ∧
    (¬ ICONV_CGO_SUFFIX_IGNORE_STR <:+ to_code → ¬ ICONV_CGO_SUFFIX_TRANSLIT_STR <:+ to_code →
      iconv_cgo_set_suffix to_code = Suffix.NONE) ∧
    iconv_cgo_set_suffix (to_code ++ "//ignore".toList) = Suffix.NONE := by
  have key : ∀ l : List Char,
      (iconv_cgo_set_suffix l = Suffix.IGNORE → ICONV_CGO_SUFFIX_IGNORE_STR <:+ l) ∧
      (iconv_cgo_set_suffix l = Suffix.TRANSLIT → ICONV_CGO_SUFFIX_TRANSLIT_STR <:+ l) := by
    intro l
    obtain ⟨h1, h2, -⟩ := @set_suffix_drop l
    refine ⟨fun h => ?_, fun h => ?_⟩
    · obtain ⟨i, hi⟩ := h1 h
      rw [← hi]; exact List.drop_suffix i l
    · obtain ⟨i, hi⟩ := h2 h
      rw [← hi]; exact List.drop_suffix i l
  have none_of : ∀ l : List Char, ¬ ICONV_CGO_SUFFIX_IGNORE_STR <:+ l →
      ¬ ICONV_CGO_SUFFIX_TRANSLIT_STR <:+ l → iconv_cgo_set_suffix l = Suffix.NONE := by
    intro l h1 h2
    cases hc : iconv_cgo_set_suffix l with
    | NONE => rfl
    | TRANSLIT => exact absurd ((key l).2 hc) h2
    | IGNORE => exact absurd ((key l).1 hc) h1
  refine ⟨(key to_code).1, (key to_code).2, set_suffix_drop.2.2, none_of to_code, ?_⟩
  apply none_of
  · intro h
    have h2 : "//ignore".toList <:+ to_code ++ "//ignore".toList := List.suffix_append _ _
    have h3 := List.suffix_of_suffix_length_le h h2 (by decide)
    have h4 := h3.eq_of_length (by decide)
    exact absurd h4 (by decide)
  · intro h
    have h2 : "//ignore".toList <:+ to_code ++ "//ignore".toList := List.suffix_append _ _
    have h3 := List.suffix_of_suffix_length_le h2 h (by decide)
    exact absurd h3 (by decide)

/-! ## `iconv_cgo_open` and missing names -/

/-- C15, as the code has it: `iconv_cgo_open` with a `NULL` destination or a
`NULL` source name returns `NULL` with `errno = EINVAL` and adds no event to
the trace, so it does not call `iconv_open`. Two names that are not `NULL`,
empty or not, are passed to `iconv_open` when the handle could be allocated. -/
theorem open_null_name {σ : Type} (E : Env σ) (errno : Errno) (trace : List Event)
    (name : Option (List Char)) :
    iconv_cgo_open E errno trace none name =
      { h := none, errno := Errno.EINVAL, trace := trace } ∧
    iconv_cgo_open E errno trace name none =
      { h := none, errno := Errno.EINVAL, trace := trace } ∧
    ∀ to_code from_code : List Char, E.malloc_ok trace = true →
      (iconv_cgo_open E errno trace (some to_code) (some from_code)).trace =
        trace ++ [Event.open] := by
  refine ⟨?_, ?_, ?_⟩
  · cases name <;> rfl
  · cases name <;> rfl
  · intro tc fc hm
    unfold iconv_cgo_open iconv_cgo_new
    simp only [hm, if_true]
    cases E.iconv_open tc fc <;> rfl

/-- C15, as specified, fails: `iconv_cgo_open` with the empty destination name
`""` calls `iconv_open` and, in an environment where that call succeeds,
returns a handle. -/
theorem open_empty_name_counterexample :
    ((iconv_cgo_open toyEnv Errno.E0 [] (some []) (some "UTF-8".toList)).trace,
     (iconv_cgo_open toyEnv Errno.E0 [] (some []) (some "UTF-8".toList)).errno,
     (iconv_cgo_open toyEnv Errno.E0 [] (some []) (some "UTF-8".toList)).h.isSome) =
      ([Event.open], Errno.E0, true) := by
  decide

/-! ## `iconv_cgo_alloc`: sizing -/

theorem double_exact {M n : Nat} (h : n * 2 < M) : n * 2 % M = n * 2 :=
  Nat.mod_eq_of_lt h

theorem alloc_sized {σ : Type} (E : Env σ) (s : Sys σ) (in_size : Nat)
    (h1 : ¬ in_size * 2 % 2 ^ E.w < in_size)
    (h2 : ¬ in_size * 2 % 2 ^ E.w > ICONV_CGO_MAX_BUF_SIZE E.w) :
    iconv_cgo_alloc E s in_size =
      if s.h.buf_size ≥ in_size * 2 % 2 ^ E.w then some (0, s)
      else
        match alloc_grow E.w (in_size * 2 % 2 ^ E.w) (E.w + 1)
            (if s.h.buf_size ≠ 0 then (s.h.buf_size * 2) % 2 ^ E.w
              else ICONV_CGO_MIN_BUF_SIZE) with
        | none => none
        | some buf_size =>
          if E.realloc_ok s.trace buf_size then
            some (0, { s with h := { s.h with buf := some (s.h.buf.getD []),
                                              buf_size := buf_size },
                              trace := s.trace ++ [Event.realloc buf_size] })
          else
            some (-1, { s with errno := Errno.ENOMEM,
                               trace := s.trace ++ [Event.realloc buf_size] }) := by
  unfold iconv_cgo_alloc
  dsimp only
  rw [if_neg h1, if_neg h2]

/-- What `iconv_cgo_alloc` returns once the two size checks have passed: `0`,
or `-1` after a `realloc` that failed, with the handle unchanged. -/
theorem alloc_sized_result {σ : Type} (E : Env σ) (s : Sys σ) (in_size : Nat)
    (h1 : ¬ in_size * 2 % 2 ^ E.w < in_size)
    (h2 : ¬ in_size * 2 % 2 ^ E.w > ICONV_CGO_MAX_BUF_SIZE E.w)
    {ra : Int} {sA : Sys σ} (h : iconv_cgo_alloc E s in_size = some (ra, sA)) :
    ra = 0 ∨ (ra = -1 ∧ sA.h = s.h ∧
      ∃ n, sA.trace = s.trace ++ [Event.realloc n] ∧ E.realloc_ok s.trace n = false) := by
  rw [alloc_sized E s in_size h1 h2] at h
  split at h
  · simp only [Option.some.injEq, Prod.mk.injEq] at h
    exact Or.inl h.1.symm
  · split at h
    · cases h
    · rename_i b hb
      split at h
      · simp only [Option.some.injEq, Prod.mk.injEq] at h
        exact Or.inl h.1.symm
      · rename_i hr
        simp only [Option.some.injEq, Prod.mk.injEq] at h
        obtain ⟨rfl, rfl⟩ := h
        exact Or.inr ⟨rfl, rfl, b, rfl, by simpa using hr⟩

/-- C12: for `in_size` in the size domain, `iconv_cgo_alloc` returns `-1` with
`errno = EINVAL` and the state otherwise unchanged exactly when `in_size * 2`
reaches `2 ^ w`; it returns `-1` with `errno = ENOMEM` and the state otherwise
unchanged (no allocation attempted) exactly when `in_size * 2` does not wrap
and exceeds the maximum `2 ^ (w - 1)`; in both cases the capacity is
unchanged. In every other case a call that returns gives `0`, or `-1` only
after a `realloc` that failed. -/
theorem alloc_sizing_errors {σ : Type} (E : Env σ) (s : Sys σ) (in_size : Nat)
    (hlt : in_size < 2 ^ E.w) :
    (2 ^ E.w ≤ in_size * 2 ↔
      iconv_cgo_alloc E s in_size = some (-1, { s with errno := Errno.EINVAL })) ∧
    ((in_size * 2 < 2 ^ E.w ∧ ICONV_CGO_MAX_BUF_SIZE E.w < in_size * 2) ↔
      iconv_cgo_alloc E s in_size = some (-1, { s with errno := Errno.ENOMEM })) ∧
    (in_size * 2 < 2 ^ E.w → in_size * 2 ≤ ICONV_CGO_MAX_BUF_SIZE E.w →
      ∀ ra sA, iconv_cgo_alloc E s in_size = some (ra, sA) →
        ra = 0 ∨ (ra = -1 ∧ sA.h = s.h ∧
          ∃ n, sA.trace = s.trace ++ [Event.realloc n] ∧
            E.realloc_ok s.trace n = false)) := by
  have hnot : ∀ {e : Errno} , in_size * 2 < 2 ^ E.w →
      in_size * 2 ≤ ICONV_CGO_MAX_BUF_SIZE E.w →
      iconv_cgo_alloc E s in_size ≠ some (-1, { s with errno := e }) := by
    intro e h1 h2 h
    have e1 := double_exact h1
    rcases alloc_sized_result E s in_size (by rw [e1]; omega) (by rw [e1]; omega) h with
      h0 | ⟨-, -, n, htr, -⟩
    · exact absurd h0 (by decide)
    · have := congrArg List.length htr
      simp at this
  refine ⟨⟨fun hov => alloc_overflow E s in_size hlt hov, fun h => ?_⟩,
    ⟨fun ⟨h1, h2⟩ => ?_, fun h => ?_⟩, fun h1 h2 ra sA h => ?_⟩
  · by_contra hno
    have h1 : in_size * 2 < 2 ^ E.w := by omega
    have e1 := double_exact h1
    by_cases h2 : in_size * 2 ≤ ICONV_CGO_MAX_BUF_SIZE E.w
    · exact hnot h1 h2 h
    · unfold iconv_cgo_alloc at h
      dsimp only at h
      rw [e1, if_neg (by omega), if_pos (by omega)] at h
      simp only [Option.some.injEq, Prod.mk.injEq, true_and] at h
      have := congrArg Sys.errno h
      simp at this
  · unfold iconv_cgo_alloc
    dsimp only
    rw [double_exact h1, if_neg (by omega), if_pos h2]
  · by_cases h1 : in_size * 2 < 2 ^ E.w
    · refine ⟨h1, ?_⟩
      by_contra h2
      exact hnot h1 (by omega) h
    · rw [alloc_overflow E s in_size hlt (by omega)] at h
      simp only [Option.some.injEq, Prod.mk.injEq, true_and] at h
      have := congrArg Sys.errno h
      simp at this
  · have e1 := double_exact h1
    exact alloc_sized_result E s in_size (by rw [e1]; omega) (by rw [e1]; omega) h

theorem alloc_sizing_errors_witness :
    (2 ^ 63 : Nat) < 2 ^ toyEnv.w ∧
    ((2 ^ toyEnv.w ≤ 2 ^ 63 * 2 ↔
      iconv_cgo_alloc toyEnv (toyReady "UTF-8" "UTF-8") (2 ^ 63) =
        some (-1, { toyReady "UTF-8" "UTF-8" with errno := Errno.EINVAL })) ∧
    ((2 ^ 63 * 2 < 2 ^ toyEnv.w ∧ ICONV_CGO_MAX_BUF_SIZE toyEnv.w < 2 ^ 63 * 2) ↔
      iconv_cgo_alloc toyEnv (toyReady "UTF-8" "UTF-8") (2 ^ 63) =
        some (-1, { toyReady "UTF-8" "UTF-8" with errno := Errno.ENOMEM })) ∧
    (2 ^ 63 * 2 < 2 ^ toyEnv.w → 2 ^ 63 * 2 ≤ ICONV_CGO_MAX_BUF_SIZE toyEnv.w →
      ∀ ra sA, iconv_cgo_alloc toyEnv (toyReady "UTF-8" "UTF-8") (2 ^ 63) = some (ra, sA) →
        ra = 0 ∨ (ra = -1 ∧ sA.h = (toyReady "UTF-8" "UTF-8").h ∧
          ∃ n, sA.trace = (toyReady "UTF-8" "UTF-8").trace ++ [Event.realloc n] ∧
            toyEnv.realloc_ok (toyReady "UTF-8" "UTF-8").trace n = false))) :=
  ⟨by decide, alloc_sizing_errors toyEnv (toyReady "UTF-8" "UTF-8") (2 ^ 63) (by decide)⟩

/-! ## `iconv_cgo_alloc`: the capacity it chooses -/

theorem pow_256 (j : Nat) : 256 * 2 ^ j = 2 ^ (8 + j) := by
  rw [Nat.pow_add]

theorem is_min_cap_pow {a out : Nat} (h8 : 8 ≤ a) (hout : out ≤ 2 ^ a)
    (hmin : a = 8 ∨ 2 ^ (a - 1) < out) : is_min_cap (2 ^ a) out := by
  refine ⟨⟨a - 8, by rw [pow_256]; congr 1; omega⟩, hout, fun j hj => ?_⟩
  rw [pow_256] at hj ⊢
  apply Nat.pow_le_pow_right (by decide)
  rcases hmin with h | h
  · omega
  · have h1 : 2 ^ (a - 1) < 2 ^ (8 + j) := lt_of_lt_of_le h hj
    have h2 : a - 1 < 8 + j := (Nat.pow_lt_pow_iff_right (by decide)).1 h1
    omega

theorem is_min_cap_unique {m m1 out : Nat} (h : is_min_cap m out) (h1 : is_min_cap m1 out) :
    m = m1 := by
  obtain ⟨⟨j, hj⟩, a1, a2⟩ := h
  obtain ⟨⟨j1, hj1⟩, b1, b2⟩ := h1
  have c1 : m ≤ m1 := by rw [hj1]; exact a2 j1 (by rw [← hj1]; exact b1)
  have c2 : m1 ≤ m := by rw [hj]; exact b2 j (by rw [← hj]; exact a1)
  omega

theorem min_cap_exists (out : Nat) : ∃ m, is_min_cap m out := by
  have hex : ∃ j, out ≤ 256 * 2 ^ j := by
    refine ⟨out, ?_⟩
    have h1 : out < 2 ^ out := Nat.lt_two_pow out
    have h2 : 2 ^ out ≤ 256 * 2 ^ out := Nat.le_mul_of_pos_left _ (by decide)
    omega
  classical
  refine ⟨256 * 2 ^ Nat.find hex, ⟨_, rfl⟩, Nat.find_spec hex, fun j hj => ?_⟩
  have hle : Nat.find hex ≤ j := Nat.find_min' hex hj
  exact Nat.mul_le_mul_left _ (Nat.pow_le_pow_right (by decide) hle)

theorem alloc_grow_min (w out : Nat) (hout : out ≤ 2 ^ (w - 1)) :
    ∀ (fuel a : Nat), 8 ≤ a → a ≤ w - 1 → w - 1 - a < fuel → (a = 8 ∨ 2 ^ (a - 1) < out) →
      ∃ a', a ≤ a' ∧ a' ≤ w - 1 ∧ alloc_grow w out fuel (2 ^ a) = some (2 ^ a') ∧
        grow_exact out fuel (2 ^ a) = some (2 ^ a') ∧ out ≤ 2 ^ a' ∧
        (a' = 8 ∨ 2 ^ (a' - 1) < out) := by
  intro fuel
  induction fuel with
  | zero => intro a _ _ h; omega
  | succ fuel ih =>
    intro a h8 ha hf hmin
    rw [alloc_grow, grow_exact]
    by_cases hlt : 2 ^ a < out
    · rw [if_pos hlt, if_pos hlt]
      have ha1 : a < w - 1 := by
        by_contra hcon
        have : a = w - 1 := by omega
        rw [this] at hlt
        omega
      have hpow : 2 ^ a * 2 % 2 ^ w = 2 ^ (a + 1) := by
        rw [← Nat.pow_succ]
        apply Nat.mod_eq_of_lt
        exact Nat.pow_lt_pow_right (by decide) (by omega)
      rw [hpow, ← Nat.pow_succ]
      obtain ⟨a', h1, h2, h3, h4, h5, h6⟩ :=
        ih (a + 1) (by omega) (by omega) (by omega) (Or.inr (by simpa using hlt))
      exact ⟨a', by omega, h2, h3, h4, h5, h6⟩
    · rw [if_neg hlt, if_neg hlt]
      exact ⟨a, le_refl _, ha, rfl, rfl, by omega, hmin⟩

/-- The start value and the result of the sizing loop when the capacity does
not cover the target: the loop returns, the doubling never wraps, and the
result is the smallest capacity of the form `256 * 2 ^ j` that covers the
target. -/
theorem alloc_grow_result (w c out : Nat)
    (hc : c = 0 ∨ ∃ k, c = 256 * 2 ^ k ∧ c ≤ 2 ^ (w - 1))
    (hout : out ≤ 2 ^ (w - 1)) (hlt : c < out) :
    ∃ m, alloc_grow w out (w + 1)
        (if c ≠ 0 then (c * 2) % 2 ^ w else ICONV_CGO_MIN_BUF_SIZE) = some m ∧
      grow_exact out (w + 1) (if c ≠ 0 then c * 2 else ICONV_CGO_MIN_BUF_SIZE) = some m ∧
      (if c ≠ 0 then (c * 2) % 2 ^ w else ICONV_CGO_MIN_BUF_SIZE) =
        (if c ≠ 0 then c * 2 else ICONV_CGO_MIN_BUF_SIZE) ∧
      is_min_cap m out ∧ c < m ∧ (m ≤ 2 ^ (w - 1) ∨ (c = 0 ∧ m = 256)) := by
  rcases hc with rfl | ⟨k, hk, hle⟩
  · rw [if_neg (by simp), if_neg (by simp)]
    unfold ICONV_CGO_MIN_BUF_SIZE
    by_cases hw : 8 ≤ w - 1
    · obtain ⟨a', h1, h2, h3, h4, h5, h6⟩ :=
        alloc_grow_min w out hout (w + 1) 8 (le_refl _) hw (by omega) (Or.inl rfl)
      refine ⟨2 ^ a', h3, h4, rfl, is_min_cap_pow h1 h5 h6, Nat.pos_of_ne_zero (by simp),
        Or.inl (Nat.pow_le_pow_right (by decide) h2)⟩
    · have hsmall : 2 ^ (w - 1) < 256 := by
        have : 2 ^ (w - 1) < 2 ^ 8 := Nat.pow_lt_pow_right (by decide) (by omega)
        simpa using this
      have hno : ¬ 256 < out := by omega
      refine ⟨256, by rw [alloc_grow, if_neg hno], by rw [grow_exact, if_neg hno], rfl,
        is_min_cap_pow (a := 8) (le_refl _) (by omega) (Or.inl rfl), by decide,
        Or.inr ⟨rfl, rfl⟩⟩
  · have hc2 : c = 2 ^ (8 + k) := by rw [hk, pow_256]
    have hne : c ≠ 0 := by rw [hc2]; simp
    have hk1 : 8 + k < w - 1 := by
      have : 2 ^ (8 + k) < 2 ^ (w - 1) := by rw [← hc2]; omega
      exact (Nat.pow_lt_pow_iff_right (by decide)).1 this
    have hdouble : c * 2 = 2 ^ (9 + k) := by
      rw [hc2, ← Nat.pow_succ]; congr 1; omega
    have hmod : c * 2 % 2 ^ w = c * 2 := by
      apply Nat.mod_eq_of_lt
      rw [hdouble]
      exact Nat.pow_lt_pow_right (by decide) (by omega)
    rw [if_pos hne, if_pos hne, hmod, hdouble]
    obtain ⟨a', h1, h2, h3, h4, h5, h6⟩ :=
      alloc_grow_min w out hout (w + 1) (9 + k) (by omega) (by omega) (by omega)
        (Or.inr (by
          have : 9 + k - 1 = 8 + k := by omega
          rw [this, ← hc2]; exact hlt))
    exact ⟨2 ^ a', h3, h4, rfl, is_min_cap_pow (by omega) h5 h6, by omega,
      Or.inl (Nat.pow_le_pow_right (by decide) h2)⟩

/-- C13: `iconv_cgo_alloc` is called by `iconv_cgo_conv` only, after the test
`in_size == 0`, so `in_size` is not zero (`conv_cases`). When the capacity is
zero or `256 * 2 ^ k` and at most `2 ^ (w - 1)`, and `in_size * 2` is at most
`2 ^ (w - 1)`, `iconv_cgo_alloc` returns; it returns `0`, or `-1` with the
handle unchanged (the `realloc` failed). When the capacity covers `in_size * 2` the call
changes nothing. When it returns `0` the capacity is the maximum of the
capacity before and the smallest `256 * 2 ^ j` that is at least
`in_size * 2`. When the capacity does not cover `in_size * 2`, the sizing loop
starts from a doubling that does not wrap and returns the same value as the
loop over unbounded naturals, which is that smallest value. -/
theorem alloc_capacity {σ : Type} (E : Env σ) (s : Sys σ) (in_size : Nat)
    (hc : s.h.buf_size = 0 ∨
      ∃ k, s.h.buf_size = 256 * 2 ^ k ∧ s.h.buf_size ≤ 2 ^ (E.w - 1))
    (hout : in_size * 2 ≤ 2 ^ (E.w - 1)) (hz : in_size ≠ 0) :
    ∃ ra sA, iconv_cgo_alloc E s in_size = some (ra, sA) ∧
      (ra = 0 ∨ (ra = -1 ∧ sA.h = s.h)) ∧
      (in_size * 2 ≤ s.h.buf_size → ra = 0 ∧ sA = s) ∧
      (∃ m, is_min_cap m (in_size * 2)) ∧
      (ra = 0 → ∀ m, is_min_cap m (in_size * 2) → sA.h.buf_size = max s.h.buf_size m) ∧
      (s.h.buf_size < in_size * 2 →
        ∃ m, alloc_grow E.w (in_size * 2 % 2 ^ E.w) (E.w + 1)
            (if s.h.buf_size ≠ 0 then (s.h.buf_size * 2) % 2 ^ E.w
              else ICONV_CGO_MIN_BUF_SIZE) = some m ∧
          grow_exact (in_size * 2) (E.w + 1)
            (if s.h.buf_size ≠ 0 then s.h.buf_size * 2 else ICONV_CGO_MIN_BUF_SIZE) = some m ∧
          is_min_cap m (in_size * 2)) := by
  have hw1 : 1 ≤ E.w := by
    by_contra hcon
    have h0 : E.w = 0 := by omega
    rw [h0] at hout
    simp at hout
    omega
  have hw : in_size * 2 < 2 ^ E.w := by
    have : 2 ^ (E.w - 1) < 2 ^ E.w := Nat.pow_lt_pow_right (by decide) (by omega)
    omega
  have hmod : in_size * 2 % 2 ^ E.w = in_size * 2 := Nat.mod_eq_of_lt hw
  have h1 : ¬ in_size * 2 % 2 ^ E.w < in_size := by rw [hmod]; omega
  have h2 : ¬ in_size * 2 % 2 ^ E.w > ICONV_CGO_MAX_BUF_SIZE E.w := by
    rw [hmod]; unfold ICONV_CGO_MAX_BUF_SIZE; omega
  rw [alloc_sized E s in_size h1 h2, hmod]
  by_cases hge : s.h.buf_size ≥ in_size * 2
  · rw [if_pos hge]
    refine ⟨0, s, rfl, Or.inl rfl, fun _ => ⟨rfl, rfl⟩, min_cap_exists _, ?_,
      fun h => absurd h (by omega)⟩
    intro _ m hm
    rcases hc with h0 | ⟨k, hk, _⟩
    · omega
    · have hle : m ≤ 256 * 2 ^ k := hm.2.2 k (by rw [← hk]; exact hge)
      rw [← hk] at hle
      exact (Nat.max_eq_left hle).symm
  · rw [if_neg hge]
    obtain ⟨m, hg, hg', _, hmin, hcm, _⟩ :=
      alloc_grow_result E.w s.h.buf_size (in_size * 2) hc hout (by omega)
    rw [hg]
    dsimp only
    by_cases hr : E.realloc_ok s.trace m = true
    · rw [if_pos hr]
      refine ⟨0, _, rfl, Or.inl rfl, fun h => absurd h hge, ⟨m, hmin⟩, ?_, fun _ => ⟨m, rfl, hg', hmin⟩⟩
      intro _ m1 hm1
      have : m = m1 := is_min_cap_unique hmin hm1
      subst this
      exact (Nat.max_eq_right (Nat.le_of_lt hcm)).symm
    · rw [if_neg hr]
      refine ⟨-1, _, rfl, Or.inr ⟨rfl, rfl⟩, fun h => absurd h hge, ⟨m, hmin⟩, ?_,
        fun _ => ⟨m, rfl, hg', hmin⟩⟩
      intro h
      exact absurd h (by decide)

theorem alloc_capacity_witness :
    (toyFresh.h.buf_size = 0 ∨
      ∃ k, toyFresh.h.buf_size = 256 * 2 ^ k ∧ toyFresh.h.buf_size ≤ 2 ^ (toyEnv.w - 1)) ∧
    200 * 2 ≤ 2 ^ (toyEnv.w - 1) ∧ 200 ≠ 0 ∧
    ∃ ra sA, iconv_cgo_alloc toyEnv toyFresh 200 = some (ra, sA) ∧
      (ra = 0 ∨ (ra = -1 ∧ sA.h = toyFresh.h)) ∧
      (200 * 2 ≤ toyFresh.h.buf_size → ra = 0 ∧ sA = toyFresh) ∧
      (∃ m, is_min_cap m (200 * 2)) ∧
      (ra = 0 → ∀ m, is_min_cap m (200 * 2) →
        sA.h.buf_size = max toyFresh.h.buf_size m) ∧
      (toyFresh.h.buf_size < 200 * 2 →
        ∃ m, alloc_grow toyEnv.w (200 * 2 % 2 ^ toyEnv.w) (toyEnv.w + 1)
            (if toyFresh.h.buf_size ≠ 0 then (toyFresh.h.buf_size * 2) % 2 ^ toyEnv.w
              else ICONV_CGO_MIN_BUF_SIZE) = some m ∧
          grow_exact (200 * 2) (toyEnv.w + 1)
            (if toyFresh.h.buf_size ≠ 0 then toyFresh.h.buf_size * 2
              else ICONV_CGO_MIN_BUF_SIZE) = some m ∧
          is_min_cap m (200 * 2)) :=
  ⟨Or.inl rfl, by decide, by decide,
    alloc_capacity toyEnv toyFresh 200 (Or.inl rfl) (by decide) (by decide)⟩

/-- With `in_size = 0` the function `iconv_cgo_alloc` changes nothing, whatever
the capacity is. `iconv_cgo_conv` returns before it would make this call. -/
theorem alloc_zero_noop {σ : Type} (E : Env σ) (s : Sys σ) :
    iconv_cgo_alloc E s 0 = some (0, s) := by
  unfold iconv_cgo_alloc
  simp

/-! ## The capacity over a session -/

theorem double_mono {w b : Nat} (h : cap_ok w b) (hlt : b < ICONV_CGO_MAX_BUF_SIZE w) :
    b ≤ b * 2 % 2 ^ w := by
  rcases h with rfl | ⟨a, _, _, rfl⟩
  · simp
  · unfold ICONV_CGO_MAX_BUF_SIZE at hlt
    have ha1 : a < w - 1 := (Nat.pow_lt_pow_iff_right (by decide)).1 hlt
    have hlt2 : 2 ^ a * 2 < 2 ^ w := by
      rw [← Nat.pow_succ]
      exact Nat.pow_lt_pow_right (by decide) (by omega)
    rw [Nat.mod_eq_of_lt hlt2]
    omega

theorem cap_ok_form {w b : Nat} (h : cap_ok w b) :
    (b = 0 ∨ ∃ k, b = 256 * 2 ^ k) ∧ (1 ≤ w → b ≤ ICONV_CGO_MAX_BUF_SIZE w) := by
  rcases h with rfl | ⟨a, h8, ha, rfl⟩
  · exact ⟨Or.inl rfl, fun _ => Nat.zero_le _⟩
  · refine ⟨Or.inr ⟨a - 8, ?_⟩, fun _ => ?_⟩
    · rw [pow_256]; congr 1; omega
    · unfold ICONV_CGO_MAX_BUF_SIZE
      exact Nat.pow_le_pow_right (by decide) ha

/-- The loop keeps every property of the capacity that doubling below the
maximum keeps. -/
theorem loop_cap {σ : Type} (E : Env σ) (inp : List Byte) (P : Nat → Prop)
    (hP : ∀ b, b < ICONV_CGO_MAX_BUF_SIZE E.w → P b → P (b * 2 % 2 ^ E.w)) :
    ∀ (fuel : Nat) (s : Sys σ) (c : Cursors) {mem : List Byte} {res : Int} {s1 : Sys σ}
      {c1 : Cursors},
      s.h.buf = some mem → out_inv E.w s.h.buf_size c.out_left c.out_size_left →
      conv_core_loop E inp fuel s c = some (res, s1, c1) →
      P s.h.buf_size → P s1.h.buf_size := by
  intro fuel
  induction fuel with
  | zero => intro s c mem res s1 c1 _ _ h; simp [conv_core_loop] at h
  | succ fuel ih =>
    intro s c mem res s1 c1 hbuf hinv h hp
    rw [conv_core_loop] at h
    by_cases hne : c.in_size_left = 0
    · simp only [loop_body, hne, if_true, Option.some.injEq, Prod.mk.injEq] at h
      obtain ⟨-, rfl, rfl⟩ := h
      exact hp
    · cases hb : loop_body E inp s c with
      | none => simp [hb] at h
      | some ls =>
        have hpost := body_spec E inp s c hbuf hinv hne hb
        rw [hb] at h
        obtain ⟨p, ev, m1, -, -, a3, -, -, a6, a7, -⟩ := hpost
        have hp2 : P ls.sys.h.buf_size := by
          rcases a6 with a6 | ⟨a6, a6'⟩
          · rw [a6]; exact hp
          · rw [a6']; exact hP _ a6 hp
        cases ls with
        | exit r s2 c2 =>
          simp only [Option.some.injEq, Prod.mk.injEq] at h
          obtain ⟨-, rfl, rfl⟩ := h
          exact hp2
        | next s2 c2 =>
          dsimp only at h
          exact ih s2 c2 a3 a7 h hp2

theorem alloc_mono {σ : Type} (E : Env σ) (s : Sys σ) (in_size : Nat) (hw : 9 ≤ E.w)
    (hcap : cap_ok E.w s.h.buf_size) {ra : Int} {sA : Sys σ}
    (h : iconv_cgo_alloc E s in_size = some (ra, sA)) :
    s.h.buf_size ≤ sA.h.buf_size ∧ cap_ok E.w sA.h.buf_size := by
  obtain ⟨ra', sA', b1, b2, b3, -⟩ := alloc_cap E s in_size hw hcap
  rw [h] at b1
  simp only [Option.some.injEq, Prod.mk.injEq] at b1
  obtain ⟨rfl, rfl⟩ := b1
  refine ⟨?_, b2⟩
  by_cases h1 : in_size * 2 % 2 ^ E.w < in_size
  · unfold iconv_cgo_alloc at h
    dsimp only at h
    rw [if_pos h1] at h
    simp only [Option.some.injEq, Prod.mk.injEq] at h
    rw [← h.2]
  · by_cases h2 : in_size * 2 % 2 ^ E.w > ICONV_CGO_MAX_BUF_SIZE E.w
    · unfold iconv_cgo_alloc at h
      dsimp only at h
      rw [if_neg h1, if_pos h2] at h
      simp only [Option.some.injEq, Prod.mk.injEq] at h
      rw [← h.2]
    · rcases alloc_sized_result E s in_size h1 h2 h with h0 | ⟨-, hh, -⟩
      · by_cases hge : s.h.buf_size ≥ in_size * 2 % 2 ^ E.w
        · rw [alloc_sized E s in_size h1 h2, if_pos hge] at h
          simp only [Option.some.injEq, Prod.mk.injEq] at h
          rw [← h.2]
        · have := b3 h0
          omega
      · rw [hh]

theorem conv_mono {σ : Type} (E : Env σ) (s : Sys σ) (fuel : Nat)
    (inp : Option (List Byte)) (in_size : Nat) (out : Option (List Byte))
    (out_size : Option Nat) (r : ConvRet σ) (h1 : iconv_cgo_t σ) (hw : 9 ≤ E.w)
    (hcd : s.h.cd.isSome = true) (hcap : cap_ok E.w s.h.buf_size)
    (h : iconv_cgo_conv E fuel s.errno s.trace (some s.h) inp in_size out out_size = some r)
    (hh : r.h = some h1) : s.h.buf_size ≤ h1.buf_size := by
  obtain ⟨cd, hcd⟩ := Option.isSome_iff_exists.1 hcd
  rcases conv_cases E fuel s.errno s.trace s.h cd inp in_size out out_size r hcd h with
    ⟨e1, -⟩ | ⟨err, sR, hR, hz, hcase⟩
  · rw [hh, Option.some.injEq] at e1
    subst e1
    exact le_refl _
  · obtain ⟨-, -, r3, -, -, -⟩ := conv_reset_spec E
      { h := s.h, errno := s.errno, trace := s.trace } cd
    rw [hR] at r3
    dsimp only at r3
    rcases hcase with ⟨-, e1, -⟩ | ⟨-, ra, sA, hA, hcase⟩
    · rw [hh, Option.some.injEq] at e1
      subst e1
      rw [r3]
    · obtain ⟨m1, m2⟩ := alloc_mono E sR in_size hw (by rw [r3]; exact hcap) hA
      rw [r3] at m1
      rcases hcase with ⟨-, e1, -⟩ | ⟨-, res, s1, c1, hL, e1, -⟩
      · rw [hh, Option.some.injEq] at e1
        subst e1
        exact m1
      · rw [hh, Option.some.injEq] at e1
        subst e1
        obtain ⟨mem, hbA⟩ := loop_needs_buf E _ fuel sA _ hz hL
        have hl := loop_cap E (inp.getD [])
          (fun b => s.h.buf_size ≤ b ∧ cap_ok E.w b)
          (fun b hb hp => ⟨le_trans hp.1 (double_mono hp.2 hb), cap_ok_double hp.2 hb⟩)
          fuel sA _ hbA (out_inv_start _ _) hL ⟨m1, m2⟩
        exact hl.1

/-- C14: on a platform with `9 ≤ w`, every state that a sequence of calls of
`iconv_cgo_conv` (any arguments, any primitive, any allocation outcome)
reaches from a fresh session, whose capacity is `0`, has a capacity that is
`0` or `256 * 2 ^ k` and is at most `ICONV_CGO_MAX_BUF_SIZE = 2 ^ (w - 1)`;
and a further call of `iconv_cgo_conv` from such a state leaves a capacity
that is not smaller than before the call, again `0` or `256 * 2 ^ k` and at
most the maximum. -/
theorem capacity_invariant {σ : Type} (E : Env σ) (s0 s : Sys σ) (hw : 9 ≤ E.w)
    (hfresh : fresh s0) (hreach : Reach E s0 s) :
    s0.h.buf_size = 0 ∧
    (s.h.buf_size = 0 ∨ ∃ k, s.h.buf_size = 256 * 2 ^ k) ∧
    s.h.buf_size ≤ ICONV_CGO_MAX_BUF_SIZE E.w ∧
    ∀ (fuel : Nat) (inp : Option (List Byte)) (in_size : Nat) (out : Option (List Byte))
      (out_size : Option Nat) (r : ConvRet σ) (h1 : iconv_cgo_t σ),
      iconv_cgo_conv E fuel s.errno s.trace (some s.h) inp in_size out out_size = some r →
      r.h = some h1 →
      s.h.buf_size ≤ h1.buf_size ∧ (h1.buf_size = 0 ∨ ∃ k, h1.buf_size = 256 * 2 ^ k) ∧
      h1.buf_size ≤ ICONV_CGO_MAX_BUF_SIZE E.w := by
  obtain ⟨-, i2, i3, -⟩ := reach_inv E s0 s hfresh hreach
  have hform := cap_ok_form (i3 hw)
  refine ⟨hfresh.2.2.1, hform.1, hform.2 (by omega), ?_⟩
  intro fuel inp in_size out out_size r h1 h hh
  obtain ⟨-, -, j3, -⟩ := conv_keeps_inv E s0 s fuel inp in_size out out_size r h1
    (reach_inv E s0 s hfresh hreach) h hh
  have hform1 := cap_ok_form (j3 hw)
  exact ⟨conv_mono E s fuel inp in_size out out_size r h1 hw i2 (i3 hw) h hh,
    hform1.1, hform1.2 (by omega)⟩

theorem capacity_invariant_witness :
    9 ≤ shiftEnv.w ∧ fresh shiftFresh ∧ Reach shiftEnv shiftFresh shiftUsed ∧
    shiftFresh.h.buf_size = 0 ∧
    (shiftUsed.h.buf_size = 0 ∨ ∃ k, shiftUsed.h.buf_size = 256 * 2 ^ k) ∧
    shiftUsed.h.buf_size ≤ ICONV_CGO_MAX_BUF_SIZE shiftEnv.w ∧
    ∀ (fuel : Nat) (inp : Option (List Byte)) (in_size : Nat) (out : Option (List Byte))
      (out_size : Option Nat) (r : ConvRet Nat) (h1 : iconv_cgo_t Nat),
      iconv_cgo_conv shiftEnv fuel shiftUsed.errno shiftUsed.trace (some shiftUsed.h) inp
        in_size out out_size = some r →
      r.h = some h1 →
      shiftUsed.h.buf_size ≤ h1.buf_size ∧
      (h1.buf_size = 0 ∨ ∃ k, h1.buf_size = 256 * 2 ^ k) ∧
      h1.buf_size ≤ ICONV_CGO_MAX_BUF_SIZE shiftEnv.w := by
  have hr : Reach shiftEnv shiftFresh shiftUsed :=
    Reach.conv Reach.start
      (show iconv_cgo_conv shiftEnv 1 shiftFresh.errno shiftFresh.trace (some shiftFresh.h)
        (some [65]) 1 (some []) (some 0) = some shiftRet from rfl)
      (show shiftRet.h = some shiftUsed.h from rfl)
  have hf : fresh shiftFresh := ⟨rfl, rfl, rfl, by decide⟩
  exact ⟨by decide, hf, hr, capacity_invariant shiftEnv shiftFresh shiftUsed (by decide) hf hr⟩

/-! ## The calls of `iconv_cgo_conv_last` -/

/-- The calls of `iconv_cgo_conv_last` on an open handle with a buffer, case by
case on what the first flush `f1` and the second flush `f2` report. -/
theorem last_calls {σ : Type} (E : Env σ) (s : Sys σ) (ol osl : Nat) {cd : σ}
    {mem : List Byte} (hcd : s.h.cd = some cd) (hbuf : s.h.buf = some mem)
    (hinv : out_inv E.w s.h.buf_size ol osl) :
    ∀ (f1 : IconvOut σ) (b2 off : Nat) (f2 : IconvOut σ), E.iconv_flush cd osl = f1 →
      s.h.buf_size * 2 % 2 ^ E.w = b2 → (ol + f1.produced.length) % 2 ^ E.w = off →
      E.iconv_flush f1.cd (size_sub E.w b2 off) = f2 →
      ∃ res s1 ol1 osl1, iconv_cgo_conv_last E s ol osl = some (res, s1, ol1, osl1) ∧
        (s1.trace = s.trace ++ [Event.flush f1.produced] ∨
          s1.trace = s.trace ++ [Event.flush f1.produced, Event.realloc b2] ∨
          s1.trace = s.trace ++
            [Event.flush f1.produced, Event.realloc b2, Event.flush f2.produced]) ∧
        (f1.err = none → res = 0 ∧ s1.trace = s.trace ++ [Event.flush f1.produced] ∧
          s1.h.buf_size = s.h.buf_size ∧ ol1 = ol + f1.produced.length) ∧
        (∀ e, f1.err = some e → e ≠ Errno.E2BIG →
          res = -1 ∧ s1.errno = e ∧ s1.trace = s.trace ++ [Event.flush f1.produced] ∧
          s1.h.buf_size = s.h.buf_size) ∧
        (f1.err = some Errno.E2BIG → ICONV_CGO_MAX_BUF_SIZE E.w ≤ s.h.buf_size →
          res = -1 ∧ s1.errno = Errno.ENOMEM ∧
          s1.trace = s.trace ++ [Event.flush f1.produced] ∧
          s1.h.buf_size = s.h.buf_size) ∧
        (f1.err = some Errno.E2BIG → s.h.buf_size < ICONV_CGO_MAX_BUF_SIZE E.w →
          E.realloc_ok (s.trace ++ [Event.flush f1.produced]) b2 = false →
          res = -1 ∧ s1.errno = Errno.ENOMEM ∧
          s1.trace = s.trace ++ [Event.flush f1.produced, Event.realloc b2] ∧
          s1.h.buf_size = s.h.buf_size) ∧
        (f1.err = some Errno.E2BIG → s.h.buf_size < ICONV_CGO_MAX_BUF_SIZE E.w →
          E.realloc_ok (s.trace ++ [Event.flush f1.produced]) b2 = true →
          s1.trace = s.trace ++
            [Event.flush f1.produced, Event.realloc b2, Event.flush f2.produced] ∧
          s1.h.buf_size = b2 ∧ ol1 = off + f2.produced.length ∧
          osl1 = size_sub E.w (size_sub E.w b2 off) f2.produced.length ∧
          (f2.err = none → res = 0) ∧ (∀ e, f2.err = some e → res = -1 ∧ s1.errno = e)) := by
  intro f1 b2 off f2 hf1 hb2 hoff hf2
  have hinv1 : out_inv E.w s.h.buf_size (ol + f1.produced.length)
      (size_sub E.w osl f1.produced.length) := out_inv_write _ hinv
  have hoffset : size_sub E.w s.h.buf_size (size_sub E.w osl f1.produced.length) = off := by
    rw [size_sub_of_sum hinv1, hoff]
  rw [iconv_cgo_conv_last, call_flush_eq E s ol osl hcd hbuf, hf1]
  obtain ⟨cd1, k1, q1, err1⟩ := f1
  dsimp only at hinv1 hoffset hoff hf2 ⊢
  cases err1 with
  | none =>
    refine ⟨0, _, _, _, rfl, Or.inl rfl, fun _ => ⟨rfl, rfl, rfl, rfl⟩,
      fun e h => absurd h (by simp), fun h => absurd h (by simp),
      fun h => absurd h (by simp), fun h => absurd h (by simp)⟩
  | some e =>
    simp only [Option.getD_some]
    by_cases he : e = Errno.E2BIG
    · subst he
      rw [if_pos rfl]
      unfold iconv_cgo_realloc
      dsimp only
      by_cases hmax : s.h.buf_size ≥ ICONV_CGO_MAX_BUF_SIZE E.w
      · rw [if_pos hmax]
        dsimp only
        rw [if_pos rfl]
        refine ⟨-1, _, _, _, rfl, Or.inl rfl, fun h => absurd h (by simp),
          fun e h hne => absurd (Option.some.inj h).symm hne,
          fun _ _ => ⟨rfl, rfl, rfl, rfl⟩, fun _ h => absurd hmax (by omega),
          fun _ h => absurd hmax (by omega)⟩
      · rw [if_neg hmax, hb2]
        by_cases hr : E.realloc_ok (s.trace ++ [Event.flush q1]) b2 = true
        · rw [if_pos hr]
          dsimp only
          rw [if_neg (by decide), hoffset,
            @call_flush_eq σ E _ _ _ cd1 (mem_write mem ol q1) rfl rfl]
          dsimp only
          rw [hf2]
          obtain ⟨cd2, k2, q2, err2⟩ := f2
          dsimp only
          cases err2 with
          | none =>
            refine ⟨0, _, _, _, rfl, Or.inr (Or.inr (by simp)), fun h => absurd h (by simp),
              fun e h hne => absurd (Option.some.inj h).symm hne,
              fun _ h => absurd h hmax, fun _ _ h => absurd hr (by simp [h]),
              fun _ _ _ => ⟨by simp, rfl, rfl, rfl, fun _ => rfl, fun e h => absurd h (by simp)⟩⟩
          | some e2 =>
            refine ⟨-1, _, _, _, rfl, Or.inr (Or.inr (by simp)), fun h => absurd h (by simp),
              fun e h hne => absurd (Option.some.inj h).symm hne,
              fun _ h => absurd h hmax, fun _ _ h => absurd hr (by simp [h]),
              fun _ _ _ => ⟨by simp, rfl, rfl, rfl, fun h => absurd h (by simp),
                fun e h => ⟨rfl, (Option.some.inj h)⟩⟩⟩
        · rw [if_neg hr]
          dsimp only
          rw [if_pos rfl]
          refine ⟨-1, _, _, _, rfl, Or.inr (Or.inl (by simp)), fun h => absurd h (by simp),
            fun e h hne => absurd (Option.some.inj h).symm hne,
            fun _ h => absurd h hmax, fun _ _ _ => ⟨rfl, rfl, by simp, rfl⟩,
            fun _ _ h => absurd h hr⟩
    · rw [if_neg he]
      refine ⟨-1, _, _, _, rfl, Or.inl rfl, fun h => absurd h (by simp),
        fun e1 h _ => ⟨rfl, (Option.some.inj h), rfl, rfl⟩,
        fun h => absurd (Option.some.inj h) he, fun h => absurd (Option.some.inj h) he,
        fun h => absurd (Option.some.inj h) he⟩

/-! ## The branches of the flush step and of the loop body -/

theorem realloc_cases {σ : Type} (E : Env σ) (s : Sys σ) :
    (ICONV_CGO_MAX_BUF_SIZE E.w ≤ s.h.buf_size ∧
      iconv_cgo_realloc E s = (-1, { s with errno := Errno.ENOMEM })) ∨
    (s.h.buf_size < ICONV_CGO_MAX_BUF_SIZE E.w ∧
      E.realloc_ok s.trace (s.h.buf_size * 2 % 2 ^ E.w) = false ∧
      iconv_cgo_realloc E s =
        (-1, { s with errno := Errno.ENOMEM,
                      trace := s.trace ++ [Event.realloc (s.h.buf_size * 2 % 2 ^ E.w)] })) ∨
    (s.h.buf_size < ICONV_CGO_MAX_BUF_SIZE E.w ∧
      E.realloc_ok s.trace (s.h.buf_size * 2 % 2 ^ E.w) = true ∧
      iconv_cgo_realloc E s =
        (0, { s with h := { s.h with buf := some (s.h.buf.getD []),
                                     buf_size := s.h.buf_size * 2 % 2 ^ E.w },
                     trace := s.trace ++ [Event.realloc (s.h.buf_size * 2 % 2 ^ E.w)] })) := by
  unfold iconv_cgo_realloc
  by_cases hmax : s.h.buf_size ≥ ICONV_CGO_MAX_BUF_SIZE E.w
  · rw [if_pos hmax]
    exact Or.inl ⟨hmax, rfl⟩
  · rw [if_neg hmax]
    dsimp only
    by_cases hr : E.realloc_ok s.trace (s.h.buf_size * 2 % 2 ^ E.w) = true
    · rw [if_pos hr]
      exact Or.inr (Or.inr ⟨by omega, hr, rfl⟩)
    · rw [if_neg hr]
      exact Or.inr (Or.inl ⟨by omega, by simpa using hr, rfl⟩)

theorem call_flush_facts {σ : Type} (E : Env σ) (s : Sys σ) (ol osl : Nat) {cd : σ}
    {mem : List Byte} (hcd : s.h.cd = some cd) (hbuf : s.h.buf = some mem) :
    ∃ s1, call_flush E s ol osl =
        some ((E.iconv_flush cd osl).err, s1, ol + (E.iconv_flush cd osl).produced.length,
          size_sub E.w osl (E.iconv_flush cd osl).produced.length) ∧
      s1.h.cd = some (E.iconv_flush cd osl).cd ∧
      s1.h.buf = some (mem_write mem ol (E.iconv_flush cd osl).produced) ∧
      s1.errno = (E.iconv_flush cd osl).err.getD s.errno ∧
      s1.trace = s.trace ++ [Event.flush (E.iconv_flush cd osl).produced] ∧
      s1.h.suffix = s.h.suffix ∧ s1.h.buf_size = s.h.buf_size :=
  ⟨_, call_flush_eq E s ol osl hcd hbuf, rfl, rfl, rfl, rfl, rfl, rfl⟩

theorem call_iconv_facts {σ : Type} (E : Env σ) (s : Sys σ) (inp : List Byte) (c : Cursors)
    {cd : σ} {mem : List Byte} (hcd : s.h.cd = some cd) (hbuf : s.h.buf = some mem) :
    ∀ r, E.iconv_step cd ((inp.drop c.in_left).take c.in_size_left) c.out_size_left = r →
    ∃ s1 c1, call_iconv E s inp c = some (r.err, s1, c1) ∧
      s1.h.cd = some r.cd ∧ s1.h.buf = some (mem_write mem c.out_left r.produced) ∧
      s1.errno = r.err.getD s.errno ∧ s1.trace = s.trace ++ [Event.step r.produced] ∧
      s1.h.suffix = s.h.suffix ∧ s1.h.buf_size = s.h.buf_size ∧
      c1.in_left = c.in_left + r.consumed ∧
      c1.in_size_left = size_sub E.w c.in_size_left r.consumed ∧
      c1.out_left = c.out_left + r.produced.length ∧
      c1.out_size_left = size_sub E.w c.out_size_left r.produced.length := by
  intro r hr
  subst hr
  exact ⟨_, _, call_iconv_eq E s inp c hcd hbuf, rfl, rfl, rfl, rfl, rfl, rfl, rfl, rfl, rfl, rfl⟩

/-- The four ways through `iconv_cgo_conv_last`, in terms of its calls. -/
theorem last_cases {σ : Type} (E : Env σ) (s : Sys σ) (ol osl : Nat)
    {err1 : Option Errno} {s1 : Sys σ} {ol1 osl1 : Nat}
    (h1 : call_flush E s ol osl = some (err1, s1, ol1, osl1)) :
    (err1 = none ∧ iconv_cgo_conv_last E s ol osl = some (0, s1, ol1, osl1)) ∨
    (err1.isSome = true ∧ s1.errno ≠ Errno.E2BIG ∧
      iconv_cgo_conv_last E s ol osl = some (-1, s1, ol1, osl1)) ∨
    (err1.isSome = true ∧ s1.errno = Errno.E2BIG ∧
      (iconv_cgo_realloc E { s1 with errno := Errno.E0 }).1 = -1 ∧
      iconv_cgo_conv_last E s ol osl =
        some (-1, (iconv_cgo_realloc E { s1 with errno := Errno.E0 }).2, ol1, osl1)) ∨
    (err1.isSome = true ∧ s1.errno = Errno.E2BIG ∧
      (iconv_cgo_realloc E { s1 with errno := Errno.E0 }).1 ≠ -1 ∧
      iconv_cgo_conv_last E s ol osl =
        match call_flush E (iconv_cgo_realloc E { s1 with errno := Errno.E0 }).2
            (size_sub E.w s1.h.buf_size osl1)
            (size_sub E.w (iconv_cgo_realloc E { s1 with errno := Errno.E0 }).2.h.buf_size
              (size_sub E.w s1.h.buf_size osl1)) with
        | none => none
        | some (none, s2, ol2, osl2) => some (0, s2, ol2, osl2)
        | some (some _, s2, ol2, osl2) => some (-1, s2, ol2, osl2)) := by
  rw [iconv_cgo_conv_last, h1]
  cases err1 with
  | none => exact Or.inl ⟨rfl, rfl⟩
  | some e =>
    right
    dsimp only
    by_cases he : s1.errno = Errno.E2BIG
    · rw [if_pos he]
      right
      generalize iconv_cgo_realloc E { s1 with errno := Errno.E0 } = R
      obtain ⟨r, s3⟩ := R
      dsimp only
      by_cases hr : r = -1
      · rw [if_pos hr]
        exact Or.inl ⟨rfl, he, hr, rfl⟩
      · rw [if_neg hr]
        exact Or.inr ⟨rfl, he, hr, rfl⟩
    · rw [if_neg he]
      exact Or.inl ⟨rfl, he, rfl⟩

/-- The ways through one pass of the loop body, in terms of its calls. -/
theorem body_cases {σ : Type} (E : Env σ) (inp : List Byte) (s : Sys σ) (c : Cursors)
    {err : Option Errno} {s1 : Sys σ} {c1 : Cursors} (hne : c.in_size_left ≠ 0)
    (h1 : call_iconv E s inp c = some (err, s1, c1)) :
    (err = none ∧ loop_body E inp s c =
      match iconv_cgo_conv_last E s1 c1.out_left c1.out_size_left with
      | none => none
      | some (result, s2, out_left, out_size_left) =>
        some (LoopStep.exit result s2
          { c1 with out_left := out_left, out_size_left := out_size_left })) ∨
    (err.isSome = true ∧ s1.errno = Errno.E2BIG ∧
      (iconv_cgo_realloc E { s1 with errno := Errno.E0 }).1 = -1 ∧
      loop_body E inp s c =
        some (LoopStep.exit (-1) (iconv_cgo_realloc E { s1 with errno := Errno.E0 }).2 c1)) ∨
    (err.isSome = true ∧ s1.errno = Errno.E2BIG ∧
      (iconv_cgo_realloc E { s1 with errno := Errno.E0 }).1 ≠ -1 ∧
      loop_body E inp s c =
        some (LoopStep.next (iconv_cgo_realloc E { s1 with errno := Errno.E0 }).2
          { c1 with
            out_left := size_sub E.w s1.h.buf_size c1.out_size_left,
            out_size_left :=
              size_sub E.w (iconv_cgo_realloc E { s1 with errno := Errno.E0 }).2.h.buf_size
                (size_sub E.w s1.h.buf_size c1.out_size_left) })) ∨
    (err.isSome = true ∧ s1.errno ≠ Errno.E2BIG ∧
      (s1.h.suffix ≠ Suffix.IGNORE ∨ (s1.errno ≠ Errno.EILSEQ ∧ s1.errno ≠ Errno.EINVAL)) ∧
      loop_body E inp s c = some (LoopStep.exit (-1) s1 c1)) ∨
    (err.isSome = true ∧ s1.h.suffix = Suffix.IGNORE ∧ s1.errno = Errno.EILSEQ ∧
      loop_body E inp s c =
        some (LoopStep.next { s1 with errno := Errno.E0 }
          { c1 with in_left := c1.in_left + 1,
                    in_size_left := size_sub E.w c1.in_size_left 1 })) ∨
    (err.isSome = true ∧ s1.h.suffix = Suffix.IGNORE ∧ s1.errno = Errno.EINVAL ∧
      loop_body E inp s c =
        match iconv_cgo_conv_last E { s1 with errno := Errno.E0 } c1.out_left
            c1.out_size_left with
        | none => none
        | some (result, s2, out_left, out_size_left) =>
          some (LoopStep.exit result s2
            { c1 with out_left := out_left, out_size_left := out_size_left })) := by
  rw [loop_body, if_neg hne, h1]
  cases err with
  | none => exact Or.inl ⟨rfl, rfl⟩
  | some e =>
    right
    dsimp only
    by_cases he : s1.errno = Errno.E2BIG
    · rw [if_pos he]
      generalize iconv_cgo_realloc E { s1 with errno := Errno.E0 } = R
      obtain ⟨r, s3⟩ := R
      dsimp only
      by_cases hr : r = -1
      · rw [if_pos hr]
        exact Or.inl ⟨rfl, he, hr, rfl⟩
      · rw [if_neg hr]
        exact Or.inr (Or.inl ⟨rfl, he, hr, rfl⟩)
    · rw [if_neg he]
      right; right
      by_cases hs : s1.h.suffix ≠ Suffix.IGNORE
      · rw [if_pos hs]
        exact Or.inl ⟨rfl, he, Or.inl hs, rfl⟩
      · rw [if_neg hs]
        have hs1 : s1.h.suffix = Suffix.IGNORE := by
          by_contra hcon; exact hs hcon
        by_cases hi : s1.errno = Errno.EILSEQ
        · rw [if_pos hi]
          exact Or.inr (Or.inl ⟨rfl, hs1, hi, rfl⟩)
        · rw [if_neg hi]
          by_cases hv : s1.errno = Errno.EINVAL
          · rw [if_pos hv]
            exact Or.inr (Or.inr ⟨rfl, hs1, hv, rfl⟩)
          · rw [if_neg hv]
            exact Or.inl ⟨rfl, he, Or.inr ⟨hi, hv⟩, rfl⟩

/-! ## The flush step, call by call -/

/-- C17: `iconv_cgo_conv_last` on an open handle with a buffer returns, and its
events are one flush, or a flush and a `realloc`, or a flush, a `realloc` and
a second flush, so it calls the primitive at most twice and grows at most
once. With `f1` the first flush call: when `f1` succeeds the result is `0` and
nothing else is called; when `f1` fails with an error other than `E2BIG` the
result is `-1` with that error; when `f1` reports `E2BIG` and the capacity is
at least `ICONV_CGO_MAX_BUF_SIZE` the result is `-1` with `errno = ENOMEM` and
no `realloc`; when the `realloc` to the doubled capacity `b2` fails the result
is `-1` with `errno = ENOMEM`; when it succeeds the capacity is `b2`, the
second flush `f2` is called once, with the output window at the offset `off`
up to which bytes were written and with `b2 - off` bytes of room, and the
result is `0` when `f2` succeeds and `-1` with the error of `f2` when it fails
(a second `E2BIG` included). When the flush step follows a step call that
reported no error, its result is the result with which the loop of
`iconv_cgo_conv_core` ends. -/
theorem conv_last_flush_calls {σ : Type} (E : Env σ) (s : Sys σ) (ol osl : Nat) {cd : σ}
    {mem : List Byte} (hcd : s.h.cd = some cd) (hbuf : s.h.buf = some mem)
    (hinv : out_inv E.w s.h.buf_size ol osl) :
    ∀ (f1 : IconvOut σ) (b2 off : Nat) (f2 : IconvOut σ), E.iconv_flush cd osl = f1 →
      s.h.buf_size * 2 % 2 ^ E.w = b2 → (ol + f1.produced.length) % 2 ^ E.w = off →
      E.iconv_flush f1.cd (size_sub E.w b2 off) = f2 →
      ∃ res s1 ol1 osl1, iconv_cgo_conv_last E s ol osl = some (res, s1, ol1, osl1) ∧
        (s1.trace = s.trace ++ [Event.flush f1.produced] ∨
          s1.trace = s.trace ++ [Event.flush f1.produced, Event.realloc b2] ∨
          s1.trace = s.trace ++
            [Event.flush f1.produced, Event.realloc b2, Event.flush f2.produced]) ∧
        (f1.err = none → res = 0 ∧ s1.trace = s.trace ++ [Event.flush f1.produced] ∧
          s1.h.buf_size = s.h.buf_size ∧ ol1 = ol + f1.produced.length) ∧
        (∀ e, f1.err = some e → e ≠ Errno.E2BIG →
          res = -1 ∧ s1.errno = e ∧ s1.trace = s.trace ++ [Event.flush f1.produced] ∧
          s1.h.buf_size = s.h.buf_size) ∧
        (f1.err = some Errno.E2BIG → ICONV_CGO_MAX_BUF_SIZE E.w ≤ s.h.buf_size →
          res = -1 ∧ s1.errno = Errno.ENOMEM ∧
          s1.trace = s.trace ++ [Event.flush f1.produced] ∧
          s1.h.buf_size = s.h.buf_size) ∧
        (f1.err = some Errno.E2BIG → s.h.buf_size < ICONV_CGO_MAX_BUF_SIZE E.w →
          E.realloc_ok (s.trace ++ [Event.flush f1.produced]) b2 = false →
          res = -1 ∧ s1.errno = Errno.ENOMEM ∧
          s1.trace = s.trace ++ [Event.flush f1.produced, Event.realloc b2] ∧
          s1.h.buf_size = s.h.buf_size) ∧
        (f1.err = some Errno.E2BIG → s.h.buf_size < ICONV_CGO_MAX_BUF_SIZE E.w →
          E.realloc_ok (s.trace ++ [Event.flush f1.produced]) b2 = true →
          s1.trace = s.trace ++
            [Event.flush f1.produced, Event.realloc b2, Event.flush f2.produced] ∧
          s1.h.buf_size = b2 ∧ ol1 = off + f2.produced.length ∧
          osl1 = size_sub E.w (size_sub E.w b2 off) f2.produced.length ∧
          (f2.err = none → res = 0) ∧ (∀ e, f2.err = some e → res = -1 ∧ s1.errno = e)) ∧
        (∀ (inp : List Byte) (s0 : Sys σ) (c c1 : Cursors) (fuel : Nat),
          c.in_size_left ≠ 0 → call_iconv E s0 inp c = some (none, s, c1) →
          c1.out_left = ol → c1.out_size_left = osl →
          conv_core_loop E inp (fuel + 1) s0 c =
            some (res, s1, { c1 with out_left := ol1, out_size_left := osl1 })) := by
  intro f1 b2 off f2 hf1 hb2 hoff hf2
  obtain ⟨res, s1, ol1, osl1, hl, h1, h2, h3, h4, h5, h6⟩ :=
    last_calls E s ol osl hcd hbuf hinv f1 b2 off f2 hf1 hb2 hoff hf2
  refine ⟨res, s1, ol1, osl1, hl, h1, h2, h3, h4, h5, h6, ?_⟩
  intro inp s0 c c1 fuel hne hc hol hosl
  subst hol hosl
  rw [conv_core_loop]
  rcases body_cases E inp s0 c hne hc with ⟨-, hb⟩ | ⟨he, -⟩ | ⟨he, -⟩ | ⟨he, -⟩ | ⟨he, -⟩ |
    ⟨he, -⟩
  · rw [hb, hl]
  all_goals exact absurd he (by simp)

theorem conv_last_flush_calls_witness :
    toyFull.h.cd = some 1 ∧ toyFull.h.buf = some (List.replicate 256 65) ∧
    out_inv toyEnv.w toyFull.h.buf_size 256 0 ∧
    (∃ res s1 ol1 osl1, iconv_cgo_conv_last toyEnv toyFull 256 0 = some (res, s1, ol1, osl1) ∧
      (s1.trace = toyFull.trace ++ [Event.flush []] ∨
        s1.trace = toyFull.trace ++ [Event.flush [], Event.realloc 512] ∨
        s1.trace = toyFull.trace ++ [Event.flush [], Event.realloc 512, Event.flush [15]]) ∧
      (s1.trace = toyFull.trace ++ [Event.flush [], Event.realloc 512, Event.flush [15]] ∧
        s1.h.buf_size = 512 ∧ ol1 = 256 + 1 ∧ osl1 = 255 ∧ res = 0)) := by
  refine ⟨rfl, rfl, by unfold out_inv; decide, ?_⟩
  obtain ⟨res, s1, ol1, osl1, h, h1, -, -, -, -, h6, -⟩ :=
    conv_last_flush_calls toyEnv toyFull 256 0
      (show toyFull.h.cd = some 1 from rfl)
      (show toyFull.h.buf = some (List.replicate 256 65) from rfl) (by unfold out_inv; decide)
      { cd := 1, consumed := 0, produced := [], err := some Errno.E2BIG } 512 256
      { cd := 0, consumed := 0, produced := [15], err := none } rfl rfl rfl rfl
  obtain ⟨a1, a2, a3, a4, a5, -⟩ := h6 rfl (by decide) rfl
  exact ⟨res, s1, ol1, osl1, h, h1, a1, a2, a3, a4, a5 rfl⟩

/-! ## Results of the flush step and of the loop body -/

/-- The function `iconv_cgo_conv_last` returns on an open handle with a
buffer. It returns `0` or `-1`; when it returns `0` the last thing it did is a
flush call that reported no error. It calls `realloc` at most once, and only
below the maximum capacity; the capacity stays or doubles. -/
theorem last_result {σ : Type} (E : Env σ) (s : Sys σ) (ol osl : Nat) {cd : σ}
    {mem : List Byte} (hcd : s.h.cd = some cd) (hbuf : s.h.buf = some mem) :
    ∃ res s' ol' osl' fl, iconv_cgo_conv_last E s ol osl = some (res, s', ol', osl') ∧
      s'.trace = s.trace ++ fl ∧ s'.h.cd.isSome = true ∧ s'.h.buf.isSome = true ∧
      s'.h.suffix = s.h.suffix ∧
      fl.countP Event.is_realloc ≤ 1 ∧
      (fl.countP Event.is_realloc = 1 → s.h.buf_size < ICONV_CGO_MAX_BUF_SIZE E.w) ∧
      (s'.h.buf_size = s.h.buf_size ∨
        (s.h.buf_size < ICONV_CGO_MAX_BUF_SIZE E.w ∧
          s'.h.buf_size = s.h.buf_size * 2 % 2 ^ E.w)) ∧
      (res = -1 ∨ (res = 0 ∧ ∃ s2 ol2 osl2 ev, s2.trace = s.trace ++ ev ∧
        call_flush E s2 ol2 osl2 = some (none, s', ol', osl'))) := by
  obtain ⟨s1, hf, f1, f2, f3, f4, f5, f6⟩ := call_flush_facts E s ol osl hcd hbuf
  rcases last_cases E s ol osl hf with ⟨he, hl⟩ | ⟨he, hne, hl⟩ | ⟨he, h2, hr, hl⟩ |
    ⟨he, h2, hr, hl⟩
  · refine ⟨0, s1, _, _, _, hl, f4, by rw [f1]; rfl, by rw [f2]; rfl, f5, by simp [Event.is_realloc],
      by simp [Event.is_realloc], Or.inl f6, Or.inr ⟨rfl, s, ol, osl, [], by simp, ?_⟩⟩
    rw [hf, he]
  · refine ⟨-1, s1, _, _, _, hl, f4, by rw [f1]; rfl, by rw [f2]; rfl, f5,
      by simp [Event.is_realloc], by simp [Event.is_realloc], Or.inl f6, Or.inl rfl⟩
  · rcases realloc_cases E { s1 with errno := Errno.E0 } with ⟨hm, hre⟩ | ⟨hm, hok, hre⟩ |
      ⟨hm, hok, hre⟩
    · rw [hre] at hl
      dsimp only at hl
      refine ⟨-1, _, _, _, _, hl, f4, by rw [f1]; rfl, by rw [f2]; rfl, f5,
        by simp [Event.is_realloc], by simp [Event.is_realloc], Or.inl f6, Or.inl rfl⟩
    · rw [hre] at hl
      dsimp only at hl hm
      refine ⟨-1, _, _, _, [Event.flush (E.iconv_flush cd osl).produced,
          Event.realloc (s1.h.buf_size * 2 % 2 ^ E.w)], hl, by simp [f4],
        by rw [f1]; rfl, by rw [f2]; rfl, f5,
        by simp [Event.is_realloc], fun _ => by rw [← f6]; exact hm, Or.inl f6, Or.inl rfl⟩
    · rw [hre] at hr
      dsimp only at hr
      exact absurd hr (by decide)
  · rcases realloc_cases E { s1 with errno := Errno.E0 } with ⟨hm, hre⟩ | ⟨hm, hok, hre⟩ |
      ⟨hm, hok, hre⟩
    · rw [hre] at hr
      exact absurd rfl hr
    · rw [hre] at hr
      exact absurd rfl hr
    · rw [hre] at hl
      dsimp only at hl hm
      rw [f6] at hm
      obtain ⟨s2, hf2, g1, g2, g3, g4, g5, g6⟩ := call_flush_facts E
        { s1 with h := { s1.h with buf := some (s1.h.buf.getD []),
                                   buf_size := s1.h.buf_size * 2 % 2 ^ E.w },
                  errno := Errno.E0,
                  trace := s1.trace ++ [Event.realloc (s1.h.buf_size * 2 % 2 ^ E.w)] }
        (size_sub E.w s1.h.buf_size (size_sub E.w osl (E.iconv_flush cd osl).produced.length))
        (size_sub E.w (s1.h.buf_size * 2 % 2 ^ E.w)
          (size_sub E.w s1.h.buf_size
            (size_sub E.w osl (E.iconv_flush cd osl).produced.length)))
        f1 rfl
      dsimp only at g4 g5 g6
      rw [hf2] at hl
      have htr : s2.trace = s.trace ++ [Event.flush (E.iconv_flush cd osl).produced,
          Event.realloc (s1.h.buf_size * 2 % 2 ^ E.w),
          Event.flush (E.iconv_flush (E.iconv_flush cd osl).cd
            (size_sub E.w (s1.h.buf_size * 2 % 2 ^ E.w)
              (size_sub E.w s1.h.buf_size
                (size_sub E.w osl (E.iconv_flush cd osl).produced.length)))).produced] := by
        rw [g4, f4]; simp
      cases herr : (E.iconv_flush (E.iconv_flush cd osl).cd
            (size_sub E.w (s1.h.buf_size * 2 % 2 ^ E.w)
              (size_sub E.w s1.h.buf_size
                (size_sub E.w osl (E.iconv_flush cd osl).produced.length)))).err with
      | none =>
        rw [herr] at hl hf2
        dsimp only at hl
        refine ⟨0, s2, _, _, _, hl, htr, by rw [g1]; rfl, by rw [g2]; rfl, by rw [g5, f5],
          by simp [Event.is_realloc], fun _ => hm,
          Or.inr ⟨hm, by rw [g6, f6]⟩, Or.inr ⟨rfl, _, _, _,
            [Event.flush (E.iconv_flush cd osl).produced,
              Event.realloc (s1.h.buf_size * 2 % 2 ^ E.w)], ?_, hf2⟩⟩
        dsimp only
        rw [f4]; simp
      | some e2 =>
        rw [herr] at hl
        dsimp only at hl
        exact ⟨-1, s2, _, _, _, hl, htr, by rw [g1]; rfl, by rw [g2]; rfl, by rw [g5, f5],
          by simp [Event.is_realloc], fun _ => hm,
          Or.inr ⟨hm, by rw [g6, f6]⟩, Or.inl rfl⟩

theorem err_of_errno {err : Option Errno} {e0 e : Errno} (h : err.isSome = true)
    (he : err.getD e0 = e) : err = some e := by
  cases err with
  | none => simp at h
  | some x => simpa using he

/-- One pass through the loop body on an open handle with a buffer and input
left: it returns, after one step call `r` and then at most one `realloc`,
attempted only below the maximum capacity. When it leaves the loop the result
is `0` only after a flush call that reported no error. When it continues,
either the capacity is unchanged, the step reported `EILSEQ` under the policy
`IGNORE` and the driver moved one byte further than the primitive; or the step
reported `E2BIG`, the capacity doubled, and the input variables are as the
primitive left them. -/
theorem body_result {σ : Type} (E : Env σ) (inp : List Byte) (s : Sys σ) (c : Cursors)
    {cd : σ} {mem : List Byte} (hcd : s.h.cd = some cd) (hbuf : s.h.buf = some mem)
    (hne : c.in_size_left ≠ 0) :
    ∀ r, E.iconv_step cd ((inp.drop c.in_left).take c.in_size_left) c.out_size_left = r →
    ∃ ls ev, loop_body E inp s c = some ls ∧
      ls.sys.trace = s.trace ++ Event.step r.produced :: ev ∧
      ls.sys.h.cd.isSome = true ∧ ls.sys.h.buf.isSome = true ∧
      ls.sys.h.suffix = s.h.suffix ∧
      ev.countP Event.is_realloc ≤ 1 ∧
      (ev.countP Event.is_realloc = 1 → s.h.buf_size < ICONV_CGO_MAX_BUF_SIZE E.w) ∧
      (∀ res s2 c2, ls = LoopStep.exit res s2 c2 →
        (s2.h.buf_size = s.h.buf_size ∨
          (s.h.buf_size < ICONV_CGO_MAX_BUF_SIZE E.w ∧
            s2.h.buf_size = s.h.buf_size * 2 % 2 ^ E.w)) ∧
        (res = -1 ∨ (res = 0 ∧ ∃ s3 ol osl ev3, s3.trace = s.trace ++ ev3 ∧
          call_flush E s3 ol osl = some (none, s2, c2.out_left, c2.out_size_left)))) ∧
      (∀ s2 c2, ls = LoopStep.next s2 c2 →
        (s2.h.buf_size = s.h.buf_size ∧ r.err = some Errno.EILSEQ ∧
          s.h.suffix = Suffix.IGNORE ∧ ev = [] ∧
          c2.in_left = c.in_left + r.consumed + 1 ∧
          c2.in_size_left = size_sub E.w (size_sub E.w c.in_size_left r.consumed) 1) ∨
        (s.h.buf_size < ICONV_CGO_MAX_BUF_SIZE E.w ∧
          s2.h.buf_size = s.h.buf_size * 2 % 2 ^ E.w ∧ r.err = some Errno.E2BIG ∧
          ev = [Event.realloc (s.h.buf_size * 2 % 2 ^ E.w)] ∧
          c2.in_left = c.in_left + r.consumed ∧
          c2.in_size_left = size_sub E.w c.in_size_left r.consumed)) := by
  intro r hr
  obtain ⟨s1, c1, h1, f1, f2, f3, f4, f5, f6, k1, k2, k3, k4⟩ :=
    call_iconv_facts E s inp c hcd hbuf r hr
  rcases body_cases E inp s c hne h1 with ⟨he, hb⟩ | ⟨he, h2, hre, hb⟩ | ⟨he, h2, hre, hb⟩ |
    ⟨he, h2, h3, hb⟩ | ⟨he, h2, h3, hb⟩ | ⟨he, h2, h3, hb⟩
  · obtain ⟨res, s', ol', osl', fl, hl, l1, l2, l3, l4, l5, l6, l7, l8⟩ :=
      last_result E s1 c1.out_left c1.out_size_left f1 f2
    rw [hl] at hb
    dsimp only at hb
    refine ⟨_, fl, hb, by simp [LoopStep.sys, l1, f4], l2, l3, by rw [← f5]; exact l4, l5,
      fun h => by rw [← f6]; exact l6 h, ?_, fun _ _ h => LoopStep.noConfusion h⟩
    intro res2 s2 c2 h
    simp only [LoopStep.exit.injEq] at h
    obtain ⟨rfl, rfl, rfl⟩ := h
    refine ⟨by rw [← f6]; exact l7, ?_⟩
    rcases l8 with l8 | ⟨l8, s3, ol, osl, ev3, t1, t2⟩
    · exact Or.inl l8
    · exact Or.inr ⟨l8, s3, ol, osl, Event.step r.produced :: ev3, by simp [t1, f4], t2⟩
  · rcases realloc_cases E { s1 with errno := Errno.E0 } with ⟨hm, hq⟩ | ⟨hm, hok, hq⟩ |
      ⟨hm, hok, hq⟩
    · rw [hq] at hb
      dsimp only at hb
      refine ⟨_, [], hb, by simp [LoopStep.sys, f4], f1 ▸ rfl, f2 ▸ rfl, f5, by simp,
        by simp, ?_, fun _ _ h => LoopStep.noConfusion h⟩
      intro res2 s2 c2 h
      simp only [LoopStep.exit.injEq] at h
      obtain ⟨rfl, rfl, rfl⟩ := h
      exact ⟨Or.inl f6, Or.inl rfl⟩
    · rw [hq] at hb
      dsimp only at hb hm
      refine ⟨_, [Event.realloc (s1.h.buf_size * 2 % 2 ^ E.w)], hb,
        by simp [LoopStep.sys, f4], f1 ▸ rfl, f2 ▸ rfl, f5, by simp [Event.is_realloc],
        fun _ => by rw [← f6]; exact hm, ?_, fun _ _ h => LoopStep.noConfusion h⟩
      intro res2 s2 c2 h
      simp only [LoopStep.exit.injEq] at h
      obtain ⟨rfl, rfl, rfl⟩ := h
      exact ⟨Or.inl f6, Or.inl rfl⟩
    · rw [hq] at hre
      dsimp only at hre
      exact absurd hre (by decide)
  · rcases realloc_cases E { s1 with errno := Errno.E0 } with ⟨hm, hq⟩ | ⟨hm, hok, hq⟩ |
      ⟨hm, hok, hq⟩
    · rw [hq] at hre
      exact absurd rfl hre
    · rw [hq] at hre
      exact absurd rfl hre
    · rw [hq] at hb
      dsimp only at hb hm
      have herr : r.err = some Errno.E2BIG := err_of_errno he (f3 ▸ h2)
      refine ⟨_, [Event.realloc (s1.h.buf_size * 2 % 2 ^ E.w)], hb,
        by simp [LoopStep.sys, f4], by simp [LoopStep.sys, f1], by simp [LoopStep.sys],
        f5, by simp [Event.is_realloc],
        fun _ => by rw [← f6]; exact hm, fun _ _ _ h => LoopStep.noConfusion h, ?_⟩
      intro s2 c2 h
      simp only [LoopStep.next.injEq] at h
      obtain ⟨rfl, rfl⟩ := h
      exact Or.inr ⟨by rw [← f6]; exact hm, by rw [f6], herr, by rw [f6], k1, k2⟩
  · refine ⟨_, [], hb, by simp [LoopStep.sys, f4], by simp [LoopStep.sys, f1],
      by simp [LoopStep.sys, f2], f5, by simp, by simp, ?_, fun _ _ h => LoopStep.noConfusion h⟩
    intro res2 s2 c2 h
    simp only [LoopStep.exit.injEq] at h
    obtain ⟨rfl, rfl, rfl⟩ := h
    exact ⟨Or.inl f6, Or.inl rfl⟩
  · have herr : r.err = some Errno.EILSEQ := err_of_errno he (f3 ▸ h3)
    refine ⟨_, [], hb, by simp [LoopStep.sys, f4], by simp [LoopStep.sys, f1],
      by simp [LoopStep.sys, f2], f5, by simp, by simp, fun _ _ _ h => LoopStep.noConfusion h, ?_⟩
    intro s2 c2 h
    simp only [LoopStep.next.injEq] at h
    obtain ⟨rfl, rfl⟩ := h
    exact Or.inl ⟨f6, herr, by rw [← f5]; exact h2, rfl, by dsimp only; rw [k1],
      by dsimp only; rw [k2]⟩
  · obtain ⟨res, s', ol', osl', fl, hl, l1, l2, l3, l4, l5, l6, l7, l8⟩ :=
      last_result E { s1 with errno := Errno.E0 } c1.out_left c1.out_size_left
        f1 f2
    rw [hl] at hb
    dsimp only at hb l1 l4 l6 l7 l8
    refine ⟨_, fl, hb, by simp [LoopStep.sys, l1, f4], l2, l3, by rw [← f5]; exact l4, l5,
      fun h => by rw [← f6]; exact l6 h, ?_, fun _ _ h => LoopStep.noConfusion h⟩
    intro res2 s2 c2 h
    simp only [LoopStep.exit.injEq] at h
    obtain ⟨rfl, rfl, rfl⟩ := h
    refine ⟨by rw [← f6]; exact l7, ?_⟩
    rcases l8 with l8 | ⟨l8, s3, ol, osl, ev3, t1, t2⟩
    · exact Or.inl l8
    · exact Or.inr ⟨l8, s3, ol, osl, Event.step r.produced :: ev3, by simp [t1, f4], t2⟩

/-! ## Termination of the driver loop -/

theorem size_sub_exact {w a b : Nat} (hb : b ≤ a) (ha : a < 2 ^ w) : size_sub w a b = a - b := by
  unfold size_sub
  rw [Nat.mod_eq_of_lt (show b < 2 ^ w by omega)]
  have h1 : a + 2 ^ w - b = (a - b) + 2 ^ w := by omega
  rw [h1, Nat.add_mod_right, Nat.mod_eq_of_lt (by omega)]

theorem window_length (inp : List Byte) (i n : Nat) : ((inp.drop i).take n).length ≤ n := by
  rw [List.length_take]
  exact Nat.min_le_left _ _

theorem pow_double {w a : Nat} (h : 2 ^ a < ICONV_CGO_MAX_BUF_SIZE w) :
    a < w - 1 ∧ 2 ^ a * 2 % 2 ^ w = 2 ^ (a + 1) := by
  unfold ICONV_CGO_MAX_BUF_SIZE at h
  have ha1 : a < w - 1 := (Nat.pow_lt_pow_iff_right (by decide)).1 h
  refine ⟨ha1, ?_⟩
  rw [← Nat.pow_succ]
  exact Nat.mod_eq_of_lt (Nat.pow_lt_pow_right (by decide) (by omega))

/-- One pass through the loop body when the primitive never consumes more
than its window and reports `EILSEQ` only with input left: the pass returns,
and it leaves the loop, or continues with less input left and the same
capacity, or continues with the capacity doubled and no more input left than
before. -/
theorem body_progress {σ : Type} (E : Env σ) (inp : List Byte)
    (hcons : ∀ cd win room, (E.iconv_step cd win room).consumed ≤ win.length)
    (hilseq : ∀ cd win room, (E.iconv_step cd win room).err = some Errno.EILSEQ →
      (E.iconv_step cd win room).consumed < win.length)
    (s : Sys σ) (c : Cursors) (a : Nat)
    (hcd : s.h.cd.isSome = true) (hbuf : s.h.buf.isSome = true)
    (hbs : s.h.buf_size = 2 ^ a) (hin : c.in_size_left < 2 ^ E.w)
    (hne : c.in_size_left ≠ 0) :
    ∃ ls p ev, loop_body E inp s c = some ls ∧
      ls.sys.trace = s.trace ++ Event.step p :: ev ∧
      ((∃ res s1 c1, ls = LoopStep.exit res s1 c1 ∧ (res = 0 ∨ res = -1) ∧
          ev.countP Event.is_realloc ≤ E.w - 1 - a) ∨
        (∃ s1 c1, ls = LoopStep.next s1 c1 ∧ s1.h.cd.isSome = true ∧
          s1.h.buf.isSome = true ∧ c1.in_size_left < 2 ^ E.w ∧
          ((c1.in_size_left < c.in_size_left ∧ s1.h.buf_size = s.h.buf_size ∧ ev = []) ∨
            (c1.in_size_left ≤ c.in_size_left ∧ a < E.w - 1 ∧
              s1.h.buf_size = s.h.buf_size * 2 ∧ s1.h.buf_size = 2 ^ (a + 1) ∧
              ev.countP Event.is_realloc = 1)))) := by
  obtain ⟨cd, hcd⟩ := Option.isSome_iff_exists.1 hcd
  obtain ⟨mem, hbuf⟩ := Option.isSome_iff_exists.1 hbuf
  obtain ⟨ls, ev, hb, b1, b2, b3, -, b5, b6, b7, b8⟩ :=
    body_result E inp s c hcd hbuf hne _ rfl
  have hwin := window_length inp c.in_left c.in_size_left
  have hk := hcons cd ((inp.drop c.in_left).take c.in_size_left) c.out_size_left
  refine ⟨ls, _, ev, hb, b1, ?_⟩
  cases ls with
  | exit res s1 c1 =>
    left
    obtain ⟨-, hres⟩ := b7 res s1 c1 rfl
    refine ⟨res, s1, c1, rfl, ?_, ?_⟩
    · rcases hres with h | ⟨h, -⟩
      · exact Or.inr h
      · exact Or.inl h
    · by_cases h1 : ev.countP Event.is_realloc = 1
      · have := (pow_double (hbs ▸ b6 h1)).1
        omega
      · omega
  | next s1 c1 =>
    right
    refine ⟨s1, c1, rfl, b2, b3, ?_⟩
    rcases b8 s1 c1 rfl with ⟨n1, n2, -, n4, -, n6⟩ | ⟨n1, n2, -, n4, -, n6⟩
    · have hlt := hilseq cd _ _ n2
      have e1 : size_sub E.w c.in_size_left
          (E.iconv_step cd ((inp.drop c.in_left).take c.in_size_left)
            c.out_size_left).consumed = c.in_size_left -
          (E.iconv_step cd ((inp.drop c.in_left).take c.in_size_left)
            c.out_size_left).consumed := size_sub_exact (by omega) hin
      rw [e1, size_sub_exact (by omega) (by omega)] at n6
      exact ⟨by omega, Or.inl ⟨by omega, n1, n4⟩⟩
    · rw [size_sub_exact (by omega) hin] at n6
      rw [hbs] at n1 n2
      obtain ⟨p1, p2⟩ := pow_double n1
      refine ⟨by omega, Or.inr ⟨by omega, p1, ?_, by rw [n2, p2], by rw [n4]; simp [Event.is_realloc]⟩⟩
      rw [n2, p2, hbs, Nat.pow_succ]

theorem loop_returns {σ : Type} (E : Env σ) (inp : List Byte)
    (hcons : ∀ cd win room, (E.iconv_step cd win room).consumed ≤ win.length)
    (hilseq : ∀ cd win room, (E.iconv_step cd win room).err = some Errno.EILSEQ →
      (E.iconv_step cd win room).consumed < win.length) :
    ∀ (fuel : Nat) (s : Sys σ) (c : Cursors) (a : Nat),
      s.h.cd.isSome = true → s.h.buf.isSome = true → s.h.buf_size = 2 ^ a →
      c.in_size_left < 2 ^ E.w → c.in_size_left + (E.w - 1 - a) < fuel →
      ∃ res s1 c1 ev, conv_core_loop E inp fuel s c = some (res, s1, c1) ∧
        s1.trace = s.trace ++ ev ∧ ev.countP Event.is_realloc ≤ E.w - 1 - a ∧
        (res = 0 ∨ res = -1) := by
  intro fuel
  induction fuel with
  | zero => intro s c a _ _ _ _ h; omega
  | succ fuel ih =>
    intro s c a hcd hbuf hbs hin hf
    rw [conv_core_loop]
    by_cases hne : c.in_size_left = 0
    · simp only [loop_body, hne, if_true]
      exact ⟨-1, s, c, [], rfl, by simp, by simp, Or.inr rfl⟩
    · obtain ⟨ls, p, ev, hb, htr, hcase⟩ :=
        body_progress E inp hcons hilseq s c a hcd hbuf hbs hin hne
      rw [hb]
      rcases hcase with ⟨res, s1, c1, rfl, hres, hcnt⟩ |
        ⟨s1, c1, rfl, n1, n2, n3, hcase⟩
      · exact ⟨res, s1, c1, _, rfl, htr, by simpa [Event.is_realloc] using hcnt, hres⟩
      · dsimp only [LoopStep.sys] at htr ⊢
        rcases hcase with ⟨m1, m2, m3⟩ | ⟨m1, m2, -, m4, m5⟩
        · obtain ⟨res, s2, c2, ev2, hl, t1, t2, t3⟩ :=
            ih s1 c1 a n1 n2 (m2.trans hbs) n3 (by omega)
          refine ⟨res, s2, c2, Event.step p :: (ev ++ ev2), hl, by simp [t1, htr], ?_, t3⟩
          rw [m3]
          simpa [Event.is_realloc] using t2
        · obtain ⟨res, s2, c2, ev2, hl, t1, t2, t3⟩ :=
            ih s1 c1 (a + 1) n1 n2 m4 n3 (by omega)
          refine ⟨res, s2, c2, Event.step p :: (ev ++ ev2), hl, by simp [t1, htr], ?_, t3⟩
          rw [List.countP_cons_of_neg _ _ (by simp [Event.is_realloc]), List.countP_append, m5]
          omega

theorem toy_scan_consumed : ∀ (n : Nat) (inp : List Byte), inp.length ≤ n →
    ∀ (st k : Nat) (acc : List Byte) (room : Nat),
      (toy_scan st k acc inp room).consumed ≤ k + inp.length ∧
      ((toy_scan st k acc inp room).err = some Errno.EILSEQ →
        (toy_scan st k acc inp room).consumed < k + inp.length) := by
  intro n
  induction n with
  | zero =>
    intro inp h st k acc room
    have : inp = [] := List.length_eq_zero.1 (by omega)
    subst this
    simp [toy_scan]
  | succ n ih =>
    intro inp h st k acc room
    cases inp with
    | nil => simp [toy_scan]
    | cons b rest =>
      have hrest : rest.length ≤ n := by simpa using h
      rw [toy_scan.eq_def]
      dsimp only
      by_cases h1 : b < 0x80
      · rw [if_pos h1]
        generalize (if st = 1 then [0x0F, b] else [b]) = bs
        by_cases h2 : bs.length ≤ room
        · rw [if_pos h2]
          have := ih rest hrest 0 (k + 1) (acc ++ bs) (room - bs.length)
          simp only [List.length_cons]
          exact ⟨by omega, fun he => by have := this.2 he; omega⟩
        · rw [if_neg h2]
          simp
      · rw [if_neg h1]
        by_cases h3 : 0xC2 ≤ b ∧ b ≤ 0xDF
        · rw [if_pos h3]
          cases rest with
          | nil => simp
          | cons b2 rest2 =>
            have hrest2 : rest2.length ≤ n := by simp at hrest; omega
            dsimp only
            by_cases h4 : 0x80 ≤ b2 ∧ b2 < 0xC0
            · rw [if_pos h4]
              generalize (if st = 1 then [(b % 4) * 64 + b2 % 64 - 0x80]
                else [0x0E, (b % 4) * 64 + b2 % 64 - 0x80]) = bs
              by_cases h5 : bs.length ≤ room
              · rw [if_pos h5]
                have := ih rest2 hrest2 1 (k + 2) (acc ++ bs) (room - bs.length)
                simp only [List.length_cons]
                exact ⟨by omega, fun he => by have := this.2 he; omega⟩
              · rw [if_neg h5]
                simp
            · rw [if_neg h4]
              simp
        · rw [if_neg h3]
          simp

/-- C18: when the primitive never consumes more than its input window (the
remaining input never grows) and reports `EILSEQ` only with at least one byte
of the window unconsumed, the loop of `iconv_cgo_conv_core`, started on an open
handle with a buffer of capacity `2 ^ a` (`8 ≤ a ≤ w - 1`) and
`in_size_left < 2 ^ w`, returns for every fuel above `in_size_left + (w - 1 -
a)`, with `result` `0` or `-1`; it calls `realloc` at most `w - 1 - a` times,
which is at most `w - 9`, where `ICONV_CGO_MAX_BUF_SIZE = 256 * 2 ^ (w - 9)`.
Each pass leaves the loop, or continues with strictly less input left and the
same capacity (the skip under `IGNORE`), or continues with the capacity
doubled and no more input left than before. -/
theorem driver_loop_terminates {σ : Type} (E : Env σ) (inp : List Byte)
    (hcons : ∀ cd win room, (E.iconv_step cd win room).consumed ≤ win.length)
    (hilseq : ∀ cd win room, (E.iconv_step cd win room).err = some Errno.EILSEQ →
      (E.iconv_step cd win room).consumed < win.length)
    (s : Sys σ) (c : Cursors) (a : Nat)
    (hcd : s.h.cd.isSome = true) (hbuf : s.h.buf.isSome = true)
    (hbs : s.h.buf_size = 2 ^ a) (h8 : 8 ≤ a) (ha : a ≤ E.w - 1)
    (hin : c.in_size_left < 2 ^ E.w) :
    (∀ fuel, c.in_size_left + (E.w - 1 - a) < fuel →
      ∃ res s1 c1 ev, conv_core_loop E inp fuel s c = some (res, s1, c1) ∧
        s1.trace = s.trace ++ ev ∧ ev.countP Event.is_realloc ≤ E.w - 1 - a ∧
        (res = 0 ∨ res = -1)) ∧
    E.w - 1 - a ≤ E.w - 9 ∧
    ICONV_CGO_MAX_BUF_SIZE E.w = ICONV_CGO_MIN_BUF_SIZE * 2 ^ (E.w - 9) ∧
    (c.in_size_left = 0 → loop_body E inp s c = some (LoopStep.exit (-1) s c)) ∧
    (c.in_size_left ≠ 0 →
      ∃ ls p ev, loop_body E inp s c = some ls ∧
        ls.sys.trace = s.trace ++ Event.step p :: ev ∧
        ((∃ res s1 c1, ls = LoopStep.exit res s1 c1 ∧ (res = 0 ∨ res = -1) ∧
            ev.countP Event.is_realloc ≤ E.w - 1 - a) ∨
          (∃ s1 c1, ls = LoopStep.next s1 c1 ∧ s1.h.cd.isSome = true ∧
            s1.h.buf.isSome = true ∧ c1.in_size_left < 2 ^ E.w ∧
            ((c1.in_size_left < c.in_size_left ∧ s1.h.buf_size = s.h.buf_size ∧ ev = []) ∨
              (c1.in_size_left ≤ c.in_size_left ∧ a < E.w - 1 ∧
                s1.h.buf_size = s.h.buf_size * 2 ∧ s1.h.buf_size = 2 ^ (a + 1) ∧
                ev.countP Event.is_realloc = 1))))) := by
  refine ⟨fun fuel hf => loop_returns E inp hcons hilseq fuel s c a hcd hbuf hbs hin hf,
    by omega, ?_, fun h0 => by simp [loop_body, h0],
    fun hne => body_progress E inp hcons hilseq s c a hcd hbuf hbs hin hne⟩
  unfold ICONV_CGO_MAX_BUF_SIZE ICONV_CGO_MIN_BUF_SIZE
  rw [pow_256]
  congr 1
  omega

theorem driver_loop_terminates_witness :
    (∀ cd win room, (toyEnv.iconv_step cd win room).consumed ≤ win.length) ∧
    (∀ cd win room, (toyEnv.iconv_step cd win room).err = some Errno.EILSEQ →
      (toyEnv.iconv_step cd win room).consumed < win.length) ∧
    (toyReady "X//IGNORE" "UTF-8").h.cd.isSome = true ∧
    (toyReady "X//IGNORE" "UTF-8").h.buf.isSome = true ∧
    (toyReady "X//IGNORE" "UTF-8").h.buf_size = 2 ^ 8 ∧ 8 ≤ 8 ∧ 8 ≤ toyEnv.w - 1 ∧
    toyStartCur.in_size_left < 2 ^ toyEnv.w ∧
    (∀ fuel, toyStartCur.in_size_left + (toyEnv.w - 1 - 8) < fuel →
      ∃ res s1 c1 ev, conv_core_loop toyEnv [65, 255, 66] fuel
          (toyReady "X//IGNORE" "UTF-8") toyStartCur = some (res, s1, c1) ∧
        s1.trace = (toyReady "X//IGNORE" "UTF-8").trace ++ ev ∧
        ev.countP Event.is_realloc ≤ toyEnv.w - 1 - 8 ∧ (res = 0 ∨ res = -1)) ∧
    (conv_core_loop toyEnv [65, 255, 66] 3 (toyReady "X//IGNORE" "UTF-8") toyStartCur).map
      (fun x => (x.1, x.2.1.trace)) =
      some (0, [Event.realloc 256, Event.step [65], Event.step [66], Event.flush []]) := by
  have hcons : ∀ cd win room, (toyEnv.iconv_step cd win room).consumed ≤ win.length := by
    intro cd win room
    have := (toy_scan_consumed win.length win (le_refl _) cd 0 [] room).1
    simpa [toyEnv] using this
  have hilseq : ∀ cd win room, (toyEnv.iconv_step cd win room).err = some Errno.EILSEQ →
      (toyEnv.iconv_step cd win room).consumed < win.length := by
    intro cd win room he
    have := (toy_scan_consumed win.length win (le_refl _) cd 0 [] room).2 he
    simpa [toyEnv] using this
  exact ⟨hcons, hilseq, rfl, rfl, rfl, le_refl _, by decide, by decide,
    (driver_loop_terminates toyEnv [65, 255, 66] hcons hilseq
      (toyReady "X//IGNORE" "UTF-8") toyStartCur 8 rfl rfl rfl (le_refl _) (by decide)
      (by decide)).1, by decide⟩

/-! ## Success needs a successful flush -/

theorem call_flush_trace {σ : Type} (E : Env σ) (s : Sys σ) (ol osl : Nat)
    {err : Option Errno} {s1 : Sys σ} {ol1 osl1 : Nat}
    (h : call_flush E s ol osl = some (err, s1, ol1, osl1)) :
    ∃ q, s1.trace = s.trace ++ [Event.flush q] := by
  cases hcd : s.h.cd with
  | none => simp [call_flush, hcd] at h
  | some cd =>
    cases hbuf : s.h.buf with
    | none => simp [call_flush, hcd, hbuf] at h
    | some mem =>
      rw [call_flush_eq E s ol osl hcd hbuf] at h
      simp only [Option.some.injEq, Prod.mk.injEq] at h
      obtain ⟨-, rfl, -, -⟩ := h
      exact ⟨_, rfl⟩

theorem loop_result {σ : Type} (E : Env σ) (inp : List Byte) :
    ∀ (fuel : Nat) (s : Sys σ) (c : Cursors) {res : Int} {s1 : Sys σ} {c1 : Cursors},
      conv_core_loop E inp fuel s c = some (res, s1, c1) →
      (res = 0 ∨ res = -1) ∧
      (res = 0 → ∃ s3 ol osl ev3, s3.trace = s.trace ++ ev3 ∧
        call_flush E s3 ol osl = some (none, s1, c1.out_left, c1.out_size_left)) := by
  intro fuel
  induction fuel with
  | zero => intro s c res s1 c1 h; simp [conv_core_loop] at h
  | succ fuel ih =>
    intro s c res s1 c1 h
    rw [conv_core_loop] at h
    by_cases hne : c.in_size_left = 0
    · simp only [loop_body, hne, if_true, Option.some.injEq, Prod.mk.injEq] at h
      obtain ⟨rfl, -, -⟩ := h
      exact ⟨Or.inr rfl, fun h0 => absurd h0 (by decide)⟩
    · cases hcd : s.h.cd with
      | none => simp [loop_body, hne, call_iconv, hcd] at h
      | some cd =>
        cases hbuf : s.h.buf with
        | none => simp [loop_body, hne, call_iconv, hcd, hbuf] at h
        | some mem =>
          obtain ⟨ls, ev, hb, b1, b2, b3, -, -, -, b7, -⟩ :=
            body_result E inp s c hcd hbuf hne _ rfl
          rw [hb] at h
          cases ls with
          | exit r s2 c2 =>
            simp only [Option.some.injEq, Prod.mk.injEq] at h
            obtain ⟨rfl, rfl, rfl⟩ := h
            obtain ⟨-, hres⟩ := b7 _ _ _ rfl
            rcases hres with h1 | ⟨h1, hx⟩
            · exact ⟨Or.inr h1, fun h0 => absurd (h0.symm.trans h1) (by decide)⟩
            · exact ⟨Or.inl h1, fun _ => hx⟩
          | next s2 c2 =>
            dsimp only at h
            obtain ⟨i1, i2⟩ := ih s2 c2 h
            refine ⟨i1, fun h0 => ?_⟩
            obtain ⟨s3, ol, osl, ev3, t1, t2⟩ := i2 h0
            dsimp only [LoopStep.sys] at b1
            exact ⟨s3, ol, osl, Event.step (E.iconv_step cd ((inp.drop c.in_left).take c.in_size_left)
              c.out_size_left).produced :: (ev ++ ev3), by rw [t1, b1]; simp, t2⟩

/-- The ways through `iconv_cgo_conv` on a non-empty input: it returns `-1`
before the driver, or it runs the loop of `iconv_cgo_conv_core` and returns
what the loop left. -/
theorem conv_result_cases {σ : Type} (E : Env σ) (fuel : Nat) (errno : Errno)
    (trace : List Event) (hopt : Option (iconv_cgo_t σ)) (inp : Option (List Byte))
    (in_size : Nat) (out : Option (List Byte)) (out_size : Option Nat) (r : ConvRet σ)
    (h : iconv_cgo_conv E fuel errno trace hopt inp in_size out out_size = some r)
    (hz : in_size ≠ 0) :
    (r.result = -1 ∧ ∃ ev, r.trace = trace ++ ev ∧ ∀ e ∈ ev, e.is_flush = false) ∨
    ∃ hd cd sR ra sA res s1 c1, hopt = some hd ∧ hd.cd = some cd ∧
      conv_reset E { h := hd, errno := errno, trace := trace } cd = (none, sR) ∧
      iconv_cgo_alloc E sR in_size = some (ra, sA) ∧ ra ≠ -1 ∧
      conv_core_loop E (inp.getD []) fuel sA
        { in_left := 0, in_size_left := in_size, out_left := 0,
          out_size_left := sA.h.buf_size } = some (res, s1, c1) ∧
      r = { result := res, h := some s1.h, errno := s1.errno, trace := s1.trace,
            out := some (s1.h.buf.getD []),
            out_size := some (size_sub E.w s1.h.buf_size c1.out_size_left) } := by
  unfold iconv_cgo_conv at h
  cases hopt with
  | none =>
    simp only [Option.some.injEq] at h
    subst h
    exact Or.inl ⟨rfl, [], by simp, by simp⟩
  | some hd =>
    cases hcd : hd.cd with
    | none =>
      simp only [hcd, Option.some.injEq] at h
      subst h
      exact Or.inl ⟨rfl, [], by simp, by simp⟩
    | some cd =>
      simp only [hcd] at h
      split at h
      · simp only [Option.some.injEq] at h
        subst h
        exact Or.inl ⟨rfl, [], by simp, by simp⟩
      · have hrs := conv_reset_spec E { h := hd, errno := errno, trace := trace } cd
        generalize hR : conv_reset E { h := hd, errno := errno, trace := trace } cd = R at h hrs
        obtain ⟨err, sR⟩ := R
        obtain ⟨-, -, -, r4, -, -⟩ := hrs
        dsimp only at r4
        have hRflush : ∀ e ∈ (if hd.buf.isSome then [Event.reset] else []),
            e.is_flush = false := by
          intro e he
          split at he
          · simp at he; subst he; rfl
          · simp at he
        cases err with
        | some e =>
          dsimp only at h
          simp only [Option.some.injEq] at h
          subst h
          exact Or.inl ⟨rfl, _, r4, hRflush⟩
        | none =>
          dsimp only at h
          cases hA : iconv_cgo_alloc E sR in_size with
          | none => simp [hA] at h
          | some x =>
            obtain ⟨ra, sA⟩ := x
            rw [hA] at h
            dsimp only at h
            by_cases hra : ra = -1
            · rw [if_pos hra] at h
              simp only [Option.some.injEq] at h
              subst h
              obtain ⟨ev, a1, a2, -⟩ := alloc_spec E sR in_size hA
              refine Or.inl ⟨rfl, (if hd.buf.isSome then [Event.reset] else []) ++ ev,
                by dsimp only; rw [a1, r4, List.append_assoc], ?_⟩
              intro e he
              rcases List.mem_append.1 he with he | he
              · exact hRflush e he
              · exact (no_conv_of_realloc a2 e he).2
            · rw [if_neg hra, iconv_cgo_conv_core] at h
              cases hL : conv_core_loop E (inp.getD []) fuel sA
                  { in_left := 0, in_size_left := in_size, out_left := 0,
                    out_size_left := sA.h.buf_size } with
              | none => simp [hL] at h
              | some y =>
                obtain ⟨res, s1, c1⟩ := y
                rw [hL] at h
                simp only [Option.some.injEq] at h
                exact Or.inr ⟨hd, cd, sR, ra, sA, res, s1, c1, rfl, hcd, hR, hA, hra, hL,
                  h.symm⟩

/-- C19: a call of `iconv_cgo_conv` with `in_size ≠ 0` returns `0` or `-1`.
When it returns `0`, the last thing the call did is a flush call of the
primitive, made in `iconv_cgo_conv_last`, that reported no error: the handle,
`errno` and the trace it returns are those this call left, and the trace ends
with its event. A call whose events contain no flush (it failed before the
driver, or the loop ended by `break` or with no input left without reaching
`iconv_cgo_conv_last`) returns `-1`. -/
theorem conv_success_needs_flush {σ : Type} (E : Env σ) (fuel : Nat) (errno : Errno)
    (trace : List Event) (hopt : Option (iconv_cgo_t σ)) (inp : Option (List Byte))
    (in_size : Nat) (out : Option (List Byte)) (out_size : Option Nat) (r : ConvRet σ)
    (h : iconv_cgo_conv E fuel errno trace hopt inp in_size out out_size = some r)
    (hz : in_size ≠ 0) :
    (r.result = 0 ∨ r.result = -1) ∧
    (r.result = 0 → ∃ s3 ol osl sF olF oslF ev3 q, s3.trace = trace ++ ev3 ∧
      call_flush E s3 ol osl = some (none, sF, olF, oslF) ∧
      r.h = some sF.h ∧ r.errno = sF.errno ∧ r.trace = sF.trace ∧
      r.trace = trace ++ (ev3 ++ [Event.flush q])) ∧
    (∀ evs, r.trace = trace ++ evs → (∀ e ∈ evs, e.is_flush = false) → r.result = -1) := by
  rcases conv_result_cases E fuel errno trace hopt inp in_size out out_size r h hz with
    ⟨h1, ev, h2, h3⟩ | ⟨hd, cd, sR, ra, sA, res, s1, c1, -, -, hR, hA, -, hL, rfl⟩
  · exact ⟨Or.inr h1, fun h0 => absurd (h0.symm.trans h1) (by decide), fun _ _ _ => h1⟩
  · dsimp only
    obtain ⟨-, -, -, r4, -, -⟩ := conv_reset_spec E
      { h := hd, errno := errno, trace := trace } cd
    rw [hR] at r4
    dsimp only at r4
    obtain ⟨evA, a1, -, -⟩ := alloc_spec E sR in_size hA
    obtain ⟨l1, l2⟩ := loop_result E (inp.getD []) fuel sA _ hL
    have hflush : res = 0 → ∃ s3 ol osl ev3 q, s3.trace = trace ++ ev3 ∧
        call_flush E s3 ol osl = some (none, s1, c1.out_left, c1.out_size_left) ∧
        s1.trace = trace ++ (ev3 ++ [Event.flush q]) := by
      intro h0
      obtain ⟨s3, ol, osl, ev3, t1, t2⟩ := l2 h0
      obtain ⟨q, hq⟩ := call_flush_trace E s3 ol osl t2
      refine ⟨s3, ol, osl, (if hd.buf.isSome then [Event.reset] else []) ++ evA ++ ev3, q,
        by rw [t1, a1, r4]; simp, t2, by rw [hq, t1, a1, r4]; simp⟩
    refine ⟨l1, fun h0 => ?_, fun evs hevs hno => ?_⟩
    · obtain ⟨s3, ol, osl, ev3, q, t1, t2, t3⟩ := hflush h0
      exact ⟨s3, ol, osl, s1, _, _, ev3, q, t1, t2, rfl, rfl, rfl, t3⟩
    · rcases l1 with h0 | h1
      · obtain ⟨s3, ol, osl, ev3, q, -, -, t3⟩ := hflush h0
        rw [t3] at hevs
        have := List.append_cancel_left hevs
        have hmem : Event.flush q ∈ evs := by rw [← this]; simp
        exact absurd (hno _ hmem) (by simp [Event.is_flush])
      · exact h1

theorem conv_success_needs_flush_witness :
    (1 : Nat) ≠ 0 ∧
    iconv_cgo_conv shiftEnv 1 shiftFresh.errno shiftFresh.trace (some shiftFresh.h)
      (some [65]) 1 (some []) (some 0) = some shiftRet ∧ shiftRet.result = 0 ∧
    (shiftRet.result = 0 → ∃ s3 ol osl sF olF oslF ev3 q, s3.trace = shiftFresh.trace ++ ev3 ∧
      call_flush shiftEnv s3 ol osl = some (none, sF, olF, oslF) ∧
      shiftRet.h = some sF.h ∧ shiftRet.errno = sF.errno ∧ shiftRet.trace = sF.trace ∧
      shiftRet.trace = shiftFresh.trace ++ (ev3 ++ [Event.flush q])) :=
  ⟨by decide, rfl, rfl,
    (conv_success_needs_flush shiftEnv 1 shiftFresh.errno shiftFresh.trace (some shiftFresh.h)
      (some [65]) 1 (some []) (some 0) shiftRet rfl (by decide)).2.1⟩

/-! ## The bytes written and the room left -/

theorem double_lt {w b : Nat} (h : b < ICONV_CGO_MAX_BUF_SIZE w) : b * 2 < 2 ^ w := by
  unfold ICONV_CGO_MAX_BUF_SIZE at h
  by_cases hw : w = 0
  · subst hw
    simp at h
    subst h
    simp
  · have : 2 ^ w = 2 ^ (w - 1) * 2 := by
      rw [← Nat.pow_succ]; congr 1; omega
    omega

/-- With a primitive that never writes more than the room it is given,
`iconv_cgo_conv_last` keeps cursor plus room equal to the capacity, and the
buffer below the new cursor is the buffer below the old one followed by the
bytes of its flush calls. -/
theorem last_exact {σ : Type} (E : Env σ)
    (hflush : ∀ cd room, (E.iconv_flush cd room).produced.length ≤ room)
    (s : Sys σ) (ol osl : Nat) {cd : σ} {mem : List Byte} {res : Int} {s' : Sys σ}
    {ol' osl' : Nat} (hcd : s.h.cd = some cd) (hbuf : s.h.buf = some mem)
    (hsum : ol + osl = s.h.buf_size) (hbs : s.h.buf_size < 2 ^ E.w)
    (h : iconv_cgo_conv_last E s ol osl = some (res, s', ol', osl')) :
    ol' + osl' = s'.h.buf_size ∧ s'.h.buf_size < 2 ^ E.w ∧
    ∃ fl mem', s'.trace = s.trace ++ fl ∧ s'.h.buf = some mem' ∧
      ol' = ol + (trace_bytes fl).length ∧
      mem_read mem' ol' = mem_read mem ol ++ trace_bytes fl := by
  obtain ⟨s1, hf, f1, f2, f3, f4, f5, f6⟩ := call_flush_facts E s ol osl hcd hbuf
  have hq := hflush cd osl
  have hosl : size_sub E.w osl (E.iconv_flush cd osl).produced.length =
      osl - (E.iconv_flush cd osl).produced.length := size_sub_exact hq (by omega)
  have hplain : ∀ (res2 : Int) (s2 : Sys σ) (fl : List Event), s2.h = s1.h →
      s2.trace = s.trace ++ fl → trace_bytes fl = (E.iconv_flush cd osl).produced →
      iconv_cgo_conv_last E s ol osl =
        some (res2, s2, ol + (E.iconv_flush cd osl).produced.length,
          size_sub E.w osl (E.iconv_flush cd osl).produced.length) →
      ol' + osl' = s'.h.buf_size ∧ s'.h.buf_size < 2 ^ E.w ∧
      ∃ fl mem', s'.trace = s.trace ++ fl ∧ s'.h.buf = some mem' ∧
        ol' = ol + (trace_bytes fl).length ∧
        mem_read mem' ol' = mem_read mem ol ++ trace_bytes fl := by
    intro res2 s2 fl hh htr hby hl
    rw [hl] at h
    simp only [Option.some.injEq, Prod.mk.injEq] at h
    obtain ⟨-, rfl, rfl, rfl⟩ := h
    rw [hh, f6, hosl]
    refine ⟨by omega, hbs, fl, _, htr, f2, by rw [hby], ?_⟩
    rw [hby, mem_read_write]
  rcases last_cases E s ol osl hf with ⟨he, hl⟩ | ⟨he, hne, hl⟩ | ⟨he, h2, hr, hl⟩ |
    ⟨he, h2, hr, hl⟩
  · exact hplain _ s1 _ rfl f4 (by simp [trace_bytes, Event.bytes]) hl
  · exact hplain _ s1 _ rfl f4 (by simp [trace_bytes, Event.bytes]) hl
  · rcases realloc_cases E { s1 with errno := Errno.E0 } with ⟨hm, hre⟩ | ⟨hm, hok, hre⟩ |
      ⟨hm, hok, hre⟩
    · rw [hre] at hl
      dsimp only at hl
      exact hplain _ { h := s1.h, errno := Errno.ENOMEM, trace := s1.trace } _ rfl f4
        (by simp [trace_bytes, Event.bytes]) hl
    · rw [hre] at hl
      dsimp only at hl
      refine hplain _
        (Sys.mk s1.h Errno.ENOMEM (s1.trace ++ [Event.realloc (s1.h.buf_size * 2 % 2 ^ E.w)]))
        [Event.flush (E.iconv_flush cd osl).produced,
          Event.realloc (s1.h.buf_size * 2 % 2 ^ E.w)] rfl ?_
        (by simp [trace_bytes, Event.bytes]) hl
      dsimp only
      rw [f4]; simp
    · rw [hre] at hr
      dsimp only at hr
      exact absurd hr (by decide)
  · rcases realloc_cases E { s1 with errno := Errno.E0 } with ⟨hm, hre⟩ | ⟨hm, hok, hre⟩ |
      ⟨hm, hok, hre⟩
    · rw [hre] at hr
      exact absurd rfl hr
    · rw [hre] at hr
      exact absurd rfl hr
    · rw [hre] at hl
      dsimp only at hl hm
      rw [f6] at hm
      have hoff : size_sub E.w s1.h.buf_size
          (size_sub E.w osl (E.iconv_flush cd osl).produced.length) =
          ol + (E.iconv_flush cd osl).produced.length := by
        rw [f6, hosl, size_sub_exact (by omega) hbs]; omega
      have hb2 : s1.h.buf_size * 2 % 2 ^ E.w = s.h.buf_size * 2 := by
        rw [f6]; exact Nat.mod_eq_of_lt (double_lt hm)
      have hlt2 := double_lt hm
      obtain ⟨s2, hf2, g1, g2, g3, g4, g5, g6⟩ := call_flush_facts E
        { s1 with h := { s1.h with buf := some (s1.h.buf.getD []),
                                   buf_size := s1.h.buf_size * 2 % 2 ^ E.w },
                  errno := Errno.E0,
                  trace := s1.trace ++ [Event.realloc (s1.h.buf_size * 2 % 2 ^ E.w)] }
        (size_sub E.w s1.h.buf_size (size_sub E.w osl (E.iconv_flush cd osl).produced.length))
        (size_sub E.w (s1.h.buf_size * 2 % 2 ^ E.w)
          (size_sub E.w s1.h.buf_size
            (size_sub E.w osl (E.iconv_flush cd osl).produced.length)))
        f1 rfl
      rw [hf2] at hl
      have hl2 : iconv_cgo_conv_last E s ol osl = some (res, s2, ol', osl') ∧
          ol' = size_sub E.w s1.h.buf_size
            (size_sub E.w osl (E.iconv_flush cd osl).produced.length) +
            (E.iconv_flush (E.iconv_flush cd osl).cd
              (size_sub E.w (s1.h.buf_size * 2 % 2 ^ E.w)
                (size_sub E.w s1.h.buf_size
                  (size_sub E.w osl (E.iconv_flush cd osl).produced.length)))).produced.length ∧
          osl' = size_sub E.w (size_sub E.w (s1.h.buf_size * 2 % 2 ^ E.w)
              (size_sub E.w s1.h.buf_size
                (size_sub E.w osl (E.iconv_flush cd osl).produced.length)))
            (E.iconv_flush (E.iconv_flush cd osl).cd
              (size_sub E.w (s1.h.buf_size * 2 % 2 ^ E.w)
                (size_sub E.w s1.h.buf_size
                  (size_sub E.w osl (E.iconv_flush cd osl).produced.length)))).produced.length ∧
          s' = s2 := by
        cases herr : (E.iconv_flush (E.iconv_flush cd osl).cd
            (size_sub E.w (s1.h.buf_size * 2 % 2 ^ E.w)
              (size_sub E.w s1.h.buf_size
                (size_sub E.w osl (E.iconv_flush cd osl).produced.length)))).err with
        | none =>
          rw [herr] at hl
          dsimp only at hl
          rw [hl] at h
          simp only [Option.some.injEq, Prod.mk.injEq] at h
          obtain ⟨rfl, rfl, rfl, rfl⟩ := h
          exact ⟨hl, rfl, rfl, rfl⟩
        | some e2 =>
          rw [herr] at hl
          dsimp only at hl
          rw [hl] at h
          simp only [Option.some.injEq, Prod.mk.injEq] at h
          obtain ⟨rfl, rfl, rfl, rfl⟩ := h
          exact ⟨hl, rfl, rfl, rfl⟩
      obtain ⟨-, e1, e2, rfl⟩ := hl2
      dsimp only at g2 g4 g6
      rw [hoff, hb2] at e1 e2 g2 g4
      rw [hb2] at g6
      have hq2 := hflush (E.iconv_flush cd osl).cd
        (size_sub E.w (s.h.buf_size * 2) (ol + (E.iconv_flush cd osl).produced.length))
      have hroom : size_sub E.w (s.h.buf_size * 2)
          (ol + (E.iconv_flush cd osl).produced.length) =
          s.h.buf_size * 2 - (ol + (E.iconv_flush cd osl).produced.length) :=
        size_sub_exact (by omega) hlt2
      rw [hroom] at e1 e2 g2 g4 hq2
      rw [size_sub_exact hq2 (by omega)] at e2
      rw [f2] at g2
      rw [f4] at g4
      dsimp only [Option.getD_some] at g2
      refine ⟨by rw [g6, e1, e2]; omega, by rw [g6]; exact hlt2,
        [Event.flush (E.iconv_flush cd osl).produced, Event.realloc (s.h.buf_size * 2),
          Event.flush (E.iconv_flush (E.iconv_flush cd osl).cd
            (s.h.buf_size * 2 - (ol + (E.iconv_flush cd osl).produced.length))).produced],
        _, by rw [g4]; simp, g2, ?_, ?_⟩
      · rw [e1]; simp [trace_bytes, Event.bytes]; omega
      · rw [e1, mem_read_write, mem_read_write]
        simp [trace_bytes, Event.bytes]

/-- With a primitive that never writes more than the room it is given, one
pass through the loop body keeps cursor plus room equal to the capacity; the
buffer below the new cursor is the buffer below the old one followed by the
bytes of the calls of the pass; and a pass that grows the buffer and continues
leaves the input variables and the output cursor where the step call left
them, with the buffer contents unchanged and the capacity doubled. -/
theorem body_exact {σ : Type} (E : Env σ)
    (hstep : ∀ cd win room, (E.iconv_step cd win room).produced.length ≤ room)
    (hflush : ∀ cd room, (E.iconv_flush cd room).produced.length ≤ room)
    (inp : List Byte) (s : Sys σ) (c : Cursors) {cd : σ} {mem : List Byte} {ls : LoopStep σ}
    (hcd : s.h.cd = some cd) (hbuf : s.h.buf = some mem) (hne : c.in_size_left ≠ 0)
    (hsum : c.out_left + c.out_size_left = s.h.buf_size) (hbs : s.h.buf_size < 2 ^ E.w)
    (h : loop_body E inp s c = some ls) :
    (ls.cur.out_left + ls.cur.out_size_left = ls.sys.h.buf_size ∧
      ls.sys.h.buf_size < 2 ^ E.w ∧ ls.sys.h.cd.isSome = true ∧
      ∃ ev mem2, ls.sys.trace = s.trace ++ ev ∧ ls.sys.h.buf = some mem2 ∧
        ls.cur.out_left = c.out_left + (trace_bytes ev).length ∧
        mem_read mem2 ls.cur.out_left = mem_read mem c.out_left ++ trace_bytes ev) ∧
    (∀ s2 c2 p n, ls = LoopStep.next s2 c2 →
      s2.trace = s.trace ++ [Event.step p, Event.realloc n] →
      ∃ s1 c1 mem1, call_iconv E s inp c = some (some Errno.E2BIG, s1, c1) ∧
        c2.in_left = c1.in_left ∧ c2.in_size_left = c1.in_size_left ∧
        c2.out_left = c1.out_left ∧ s1.h.buf = some mem1 ∧ s2.h.buf = some mem1 ∧
        s2.h.buf_size = s.h.buf_size * 2) := by
  obtain ⟨r, hr⟩ : ∃ r, E.iconv_step cd ((inp.drop c.in_left).take c.in_size_left)
      c.out_size_left = r := ⟨_, rfl⟩
  obtain ⟨s1, c1, h1, f1, f2, f3, f4, f5, f6, k1, k2, k3, k4⟩ :=
    call_iconv_facts E s inp c hcd hbuf r hr
  have hp : r.produced.length ≤ c.out_size_left := by
    rw [← hr]; exact hstep cd _ _
  rw [size_sub_exact hp (by omega)] at k4
  have hsum1 : c1.out_left + c1.out_size_left = s1.h.buf_size := by rw [k3, k4, f6]; omega
  have hbs1 : s1.h.buf_size < 2 ^ E.w := by rw [f6]; exact hbs
  have hsame : ∀ (s2 : Sys σ) (rl : List Event), s2.h = s1.h → s2.trace = s1.trace ++ rl →
      trace_bytes rl = [] →
      c1.out_left + c1.out_size_left = s2.h.buf_size ∧
      s2.h.buf_size < 2 ^ E.w ∧ s2.h.cd.isSome = true ∧
      ∃ ev mem2, s2.trace = s.trace ++ ev ∧ s2.h.buf = some mem2 ∧
        c1.out_left = c.out_left + (trace_bytes ev).length ∧
        mem_read mem2 c1.out_left = mem_read mem c.out_left ++ trace_bytes ev := by
    intro s2 rl hh htr hby
    rw [hh]
    refine ⟨hsum1, hbs1, by rw [f1]; rfl, Event.step r.produced :: rl, _,
      by rw [htr, f4]; simp, f2, ?_, ?_⟩
    · rw [k3]; simp [trace_bytes, Event.bytes, hby]
    · rw [k3, mem_read_write]; simp [trace_bytes, Event.bytes, hby]
  have hlast : ∀ (e0 : Errno) (res : Int) (s2 : Sys σ) (ol2 osl2 : Nat),
      iconv_cgo_conv_last E { s1 with errno := e0 } c1.out_left c1.out_size_left =
        some (res, s2, ol2, osl2) →
      ol2 + osl2 = s2.h.buf_size ∧
      s2.h.buf_size < 2 ^ E.w ∧ s2.h.cd.isSome = true ∧
      ∃ ev mem2, s2.trace = s.trace ++ ev ∧ s2.h.buf = some mem2 ∧
        ol2 = c.out_left + (trace_bytes ev).length ∧
        mem_read mem2 ol2 = mem_read mem c.out_left ++ trace_bytes ev := by
    intro e0 res s2 ol2 osl2 hl
    obtain ⟨a1, a2, fl, mem2, a3, a4, a5, a6⟩ :=
      last_exact E hflush { s1 with errno := e0 } c1.out_left c1.out_size_left
        f1 f2 hsum1 hbs1 hl
    obtain ⟨_, _, _, _, _, hl', -, hcd2, -⟩ :=
      last_result E { s1 with errno := e0 } c1.out_left c1.out_size_left
        f1 f2
    rw [hl] at hl'
    simp only [Option.some.injEq, Prod.mk.injEq] at hl'
    obtain ⟨-, rfl, -, -⟩ := hl'
    dsimp only at a3
    refine ⟨a1, a2, hcd2, Event.step r.produced :: fl, mem2, by rw [a3, f4]; simp, a4, ?_, ?_⟩
    · rw [a5, k3]; simp [trace_bytes, Event.bytes]; omega
    · rw [a6, k3, mem_read_write]; simp [trace_bytes, Event.bytes]
  rcases body_cases E inp s c hne h1 with ⟨he, hb⟩ | ⟨he, h2, hre, hb⟩ | ⟨he, h2, hre, hb⟩ |
    ⟨he, h2, h3, hb⟩ | ⟨he, h2, h3, hb⟩ | ⟨he, h2, h3, hb⟩
  · rw [hb] at h
    cases hl : iconv_cgo_conv_last E s1 c1.out_left c1.out_size_left with
    | none => rw [hl] at h; cases h
    | some x =>
      obtain ⟨res, s2, ol2, osl2⟩ := x
      rw [hl] at h
      simp only [Option.some.injEq] at h
      subst h
      exact ⟨hlast s1.errno res s2 ol2 osl2 hl, fun _ _ _ _ hx => LoopStep.noConfusion hx⟩
  · rw [hb] at h
    simp only [Option.some.injEq] at h
    subst h
    rcases realloc_cases E { s1 with errno := Errno.E0 } with ⟨hm, hq⟩ | ⟨hm, hok, hq⟩ |
      ⟨hm, hok, hq⟩
    · rw [hq]
      exact ⟨hsame _ [] rfl (List.append_nil _).symm rfl, fun _ _ _ _ hx => LoopStep.noConfusion hx⟩
    · rw [hq]
      exact ⟨hsame _ [Event.realloc (s1.h.buf_size * 2 % 2 ^ E.w)] rfl rfl rfl,
        fun _ _ _ _ hx => LoopStep.noConfusion hx⟩
    · rw [hq] at hre
      dsimp only at hre
      exact absurd hre (by decide)
  · rw [hb] at h
    simp only [Option.some.injEq] at h
    subst h
    rcases realloc_cases E { s1 with errno := Errno.E0 } with ⟨hm, hq⟩ | ⟨hm, hok, hq⟩ |
      ⟨hm, hok, hq⟩
    · rw [hq] at hre
      exact absurd rfl hre
    · rw [hq] at hre
      exact absurd rfl hre
    · rw [hq]
      dsimp only [LoopStep.sys, LoopStep.cur] at hm ⊢
      have hm1 : s.h.buf_size < ICONV_CGO_MAX_BUF_SIZE E.w := by rw [← f6]; exact hm
      have hlt2 := double_lt hm1
      have hb2 : s1.h.buf_size * 2 % 2 ^ E.w = s.h.buf_size * 2 := by
        rw [f6]; exact Nat.mod_eq_of_lt hlt2
      have hoff : size_sub E.w s1.h.buf_size c1.out_size_left = c1.out_left := by
        rw [size_sub_exact (by omega) hbs1]; omega
      rw [hb2, hoff, size_sub_exact (by omega) hlt2]
      refine ⟨⟨by omega, hlt2, by rw [f1]; rfl,
        [Event.step r.produced, Event.realloc (s.h.buf_size * 2)],
        mem_write mem c.out_left r.produced, by rw [f4]; simp, by rw [f2]; rfl,
        by rw [k3]; simp [trace_bytes, Event.bytes],
        by rw [k3, mem_read_write]; simp [trace_bytes, Event.bytes]⟩, ?_⟩
      intro s2 c2 p n hx _
      simp only [LoopStep.next.injEq] at hx
      obtain ⟨rfl, rfl⟩ := hx
      have herr : r.err = some Errno.E2BIG := err_of_errno he (f3 ▸ h2)
      exact ⟨s1, c1, mem_write mem c.out_left r.produced, by rw [h1, herr], rfl, rfl, rfl, f2,
        by rw [f2]; rfl, rfl⟩
  · rw [hb] at h
    simp only [Option.some.injEq] at h
    subst h
    exact ⟨hsame s1 [] rfl (List.append_nil _).symm rfl, fun _ _ _ _ hx => LoopStep.noConfusion hx⟩
  · rw [hb] at h
    simp only [Option.some.injEq] at h
    subst h
    refine ⟨hsame { s1 with errno := Errno.E0 } [] rfl (List.append_nil _).symm rfl, ?_⟩
    intro s2 c2 p n hx htr
    simp only [LoopStep.next.injEq] at hx
    obtain ⟨rfl, rfl⟩ := hx
    dsimp only at htr
    rw [f4] at htr
    have := List.append_cancel_left htr
    simp at this
  · rw [hb] at h
    cases hl : iconv_cgo_conv_last E { s1 with errno := Errno.E0 } c1.out_left
        c1.out_size_left with
    | none => rw [hl] at h; cases h
    | some x =>
      obtain ⟨res, s2, ol2, osl2⟩ := x
      rw [hl] at h
      simp only [Option.some.injEq] at h
      subst h
      exact ⟨hlast Errno.E0 res s2 ol2 osl2 hl, fun _ _ _ _ hx => LoopStep.noConfusion hx⟩

theorem loop_body_open {σ : Type} (E : Env σ) (inp : List Byte) (s : Sys σ) (c : Cursors)
    {ls : LoopStep σ} (hne : c.in_size_left ≠ 0) (h : loop_body E inp s c = some ls) :
    ∃ cd, s.h.cd = some cd := by
  cases hcd : s.h.cd with
  | none => simp [loop_body, hne, call_iconv, hcd] at h
  | some cd => exact ⟨cd, rfl⟩

/-- The invariant of `body_exact` over the passes of the loop that continue. -/
theorem loop_at_exact {σ : Type} (E : Env σ)
    (hstep : ∀ cd win room, (E.iconv_step cd win room).produced.length ≤ room)
    (hflush : ∀ cd room, (E.iconv_flush cd room).produced.length ≤ room)
    (inp : List Byte) :
    ∀ (n : Nat) (s : Sys σ) (c : Cursors) {mem : List Byte} {s1 : Sys σ} {c1 : Cursors},
      s.h.buf = some mem → c.out_left + c.out_size_left = s.h.buf_size →
      s.h.buf_size < 2 ^ E.w → loop_at E inp n s c = some (s1, c1) →
      c1.out_left + c1.out_size_left = s1.h.buf_size ∧ s1.h.buf_size < 2 ^ E.w ∧
      ∃ ev mem1, s1.trace = s.trace ++ ev ∧ s1.h.buf = some mem1 ∧
        c1.out_left = c.out_left + (trace_bytes ev).length ∧
        mem_read mem1 c1.out_left = mem_read mem c.out_left ++ trace_bytes ev := by
  intro n
  induction n with
  | zero =>
    intro s c mem s1 c1 hbuf hsum hbs h
    simp only [loop_at, Option.some.injEq, Prod.mk.injEq] at h
    obtain ⟨rfl, rfl⟩ := h
    exact ⟨hsum, hbs, [], mem, by simp, hbuf, by simp [trace_bytes], by simp [trace_bytes]⟩
  | succ n ih =>
    intro s c mem s1 c1 hbuf hsum hbs h
    rw [loop_at] at h
    split at h
    · rename_i s2 c2 hb
      have hne : c.in_size_left ≠ 0 := by
        intro h0
        simp [loop_body, h0] at hb
      obtain ⟨cd, hcd⟩ := loop_body_open E inp s c hne hb
      obtain ⟨⟨a1, a2, -, ev, mem2, a3, a4, a5, a6⟩, -⟩ :=
        body_exact E hstep hflush inp s c hcd hbuf hne hsum hbs hb
      dsimp only [LoopStep.sys, LoopStep.cur] at a1 a2 a3 a4 a5 a6
      obtain ⟨b1, b2, ev2, mem1, b3, b4, b5, b6⟩ := ih s2 c2 a4 a1 a2 h
      refine ⟨b1, b2, ev ++ ev2, mem1, by rw [b3, a3, List.append_assoc], b4, ?_, ?_⟩
      · rw [b5, a5, trace_bytes_append, List.length_append]; omega
      · rw [b6, a6, trace_bytes_append, List.append_assoc]
    · cases h

/-- The invariant of `body_exact` at the exit of the loop. -/
theorem loop_exact {σ : Type} (E : Env σ)
    (hstep : ∀ cd win room, (E.iconv_step cd win room).produced.length ≤ room)
    (hflush : ∀ cd room, (E.iconv_flush cd room).produced.length ≤ room)
    (inp : List Byte) :
    ∀ (fuel : Nat) (s : Sys σ) (c : Cursors) {mem : List Byte} {res : Int} {s1 : Sys σ}
      {c1 : Cursors},
      s.h.buf = some mem → c.out_left + c.out_size_left = s.h.buf_size →
      s.h.buf_size < 2 ^ E.w → conv_core_loop E inp fuel s c = some (res, s1, c1) →
      c1.out_left + c1.out_size_left = s1.h.buf_size ∧ s1.h.buf_size < 2 ^ E.w ∧
      ∃ ev mem1, s1.trace = s.trace ++ ev ∧ s1.h.buf = some mem1 ∧
        c1.out_left = c.out_left + (trace_bytes ev).length ∧
        mem_read mem1 c1.out_left = mem_read mem c.out_left ++ trace_bytes ev := by
  intro fuel
  induction fuel with
  | zero => intro s c mem res s1 c1 _ _ _ h; simp [conv_core_loop] at h
  | succ fuel ih =>
    intro s c mem res s1 c1 hbuf hsum hbs h
    rw [conv_core_loop] at h
    by_cases hne : c.in_size_left = 0
    · simp only [loop_body, hne, if_true, Option.some.injEq, Prod.mk.injEq] at h
      obtain ⟨-, rfl, rfl⟩ := h
      exact ⟨hsum, hbs, [], mem, by simp, hbuf, by simp [trace_bytes], by simp [trace_bytes]⟩
    · cases hb : loop_body E inp s c with
      | none => simp [hb] at h
      | some ls =>
        obtain ⟨cd, hcd⟩ := loop_body_open E inp s c hne hb
        obtain ⟨⟨a1, a2, -, ev, mem2, a3, a4, a5, a6⟩, -⟩ :=
          body_exact E hstep hflush inp s c hcd hbuf hne hsum hbs hb
        rw [hb] at h
        cases ls with
        | exit r s2 c2 =>
          simp only [Option.some.injEq, Prod.mk.injEq] at h
          obtain ⟨-, rfl, rfl⟩ := h
          exact ⟨a1, a2, ev, mem2, a3, a4, a5, a6⟩
        | next s2 c2 =>
          dsimp only at h
          dsimp only [LoopStep.sys, LoopStep.cur] at a1 a2 a3 a4 a5 a6
          obtain ⟨b1, b2, ev2, mem1, b3, b4, b5, b6⟩ := ih s2 c2 a4 a1 a2 h
          refine ⟨b1, b2, ev ++ ev2, mem1, by rw [b3, a3, List.append_assoc], b4, ?_, ?_⟩
          · rw [b5, a5, trace_bytes_append, List.length_append]; omega
          · rw [b6, a6, trace_bytes_append, List.append_assoc]

theorem toy_scan_produced : ∀ (n : Nat) (inp : List Byte), inp.length ≤ n →
    ∀ (st k : Nat) (acc : List Byte) (room : Nat),
      (toy_scan st k acc inp room).produced.length ≤ acc.length + room := by
  intro n
  induction n with
  | zero =>
    intro inp h st k acc room
    have : inp = [] := List.length_eq_zero.1 (by omega)
    subst this
    simp [toy_scan]
  | succ n ih =>
    intro inp h st k acc room
    cases inp with
    | nil => simp [toy_scan]
    | cons b rest =>
      have hrest : rest.length ≤ n := by simpa using h
      rw [toy_scan.eq_def]
      dsimp only
      by_cases h1 : b < 0x80
      · rw [if_pos h1]
        generalize (if st = 1 then [0x0F, b] else [b]) = bs
        by_cases h2 : bs.length ≤ room
        · rw [if_pos h2]
          have := ih rest hrest 0 (k + 1) (acc ++ bs) (room - bs.length)
          rw [List.length_append] at this
          omega
        · rw [if_neg h2]
          simp
      · rw [if_neg h1]
        by_cases h3 : 0xC2 ≤ b ∧ b ≤ 0xDF
        · rw [if_pos h3]
          cases rest with
          | nil => simp
          | cons b2 rest2 =>
            have hrest2 : rest2.length ≤ n := by simp at hrest; omega
            dsimp only
            by_cases h4 : 0x80 ≤ b2 ∧ b2 < 0xC0
            · rw [if_pos h4]
              generalize (if st = 1 then [(b % 4) * 64 + b2 % 64 - 0x80]
                else [0x0E, (b % 4) * 64 + b2 % 64 - 0x80]) = bs
              by_cases h5 : bs.length ≤ room
              · rw [if_pos h5]
                have := ih rest2 hrest2 1 (k + 2) (acc ++ bs) (room - bs.length)
                rw [List.length_append] at this
                omega
              · rw [if_neg h5]
                simp
            · rw [if_neg h4]
              simp
        · rw [if_neg h3]
          simp

theorem cap_ok_lt {w b : Nat} (hw : 9 ≤ w) (h : cap_ok w b) : b < 2 ^ w := by
  have h1 := (cap_ok_form h).2 (by omega)
  unfold ICONV_CGO_MAX_BUF_SIZE at h1
  have h2 : 2 ^ (w - 1) < 2 ^ w := Nat.pow_lt_pow_right (by decide) (by omega)
  omega

/-- C16: assume the primitive never writes more than the room it is given (it
never increases `out_size_left`), `9 ≤ w`, and the capacity of the handle is
`0` or a power of two from `256` to the maximum, as in every session. Then a
call of `iconv_cgo_conv` on a non-empty input that returns `0` ran the loop of
`iconv_cgo_conv_core` to an end with variables `c1` in a state `s1`, and: the
view it reports is exactly the bytes produced by the step and flush calls of
this call, in call order; `*out_size` is `buf_size - out_size_left`, a
subtraction that does not underflow, and bytes written plus room left is the
capacity. Throughout the loop, after any number of passes that continue,
`out_left + out_size_left = buf_size`, and the buffer below the cursor holds
the bytes produced so far. A pass that grows the buffer and continues (its
events are a step and a `realloc`) followed a step that reported `E2BIG`; it
leaves `in_left`, `in_size_left` and the output cursor as that step left them,
keeps the buffer contents, and doubles the capacity. -/
theorem conv_view_is_produced {σ : Type} (E : Env σ)
    (hstep : ∀ cd win room, (E.iconv_step cd win room).produced.length ≤ room)
    (hflush : ∀ cd room, (E.iconv_flush cd room).produced.length ≤ room)
    (hw : 9 ≤ E.w) (fuel : Nat) (errno : Errno) (trace : List Event) (hd : iconv_cgo_t σ)
    (inp : Option (List Byte)) (in_size : Nat) (out : Option (List Byte))
    (out_size : Option Nat) (r : ConvRet σ) (hcap : cap_ok E.w hd.buf_size)
    (h : iconv_cgo_conv E fuel errno trace (some hd) inp in_size out out_size = some r)
    (hz : in_size ≠ 0) (hres : r.result = 0) :
    ∃ sA s1 c1 evs,
      conv_core_loop E (inp.getD []) fuel sA
        { in_left := 0, in_size_left := in_size, out_left := 0,
          out_size_left := sA.h.buf_size } = some (0, s1, c1) ∧
      r.h = some s1.h ∧ r.trace = trace ++ evs ∧
      r.view = trace_bytes evs ∧
      c1.out_size_left ≤ s1.h.buf_size ∧
      r.out_size = some (s1.h.buf_size - c1.out_size_left) ∧
      (trace_bytes evs).length + c1.out_size_left = s1.h.buf_size ∧
      ∀ (n : Nat) (s : Sys σ) (c : Cursors),
        loop_at E (inp.getD []) n sA
          { in_left := 0, in_size_left := in_size, out_left := 0,
            out_size_left := sA.h.buf_size } = some (s, c) →
        c.out_left + c.out_size_left = s.h.buf_size ∧
        (∃ ev mem, s.trace = sA.trace ++ ev ∧ s.h.buf = some mem ∧
          c.out_left = (trace_bytes ev).length ∧ mem_read mem c.out_left = trace_bytes ev) ∧
        ∀ (s2 : Sys σ) (c2 : Cursors) (p : List Byte) (m : Nat),
          loop_body E (inp.getD []) s c = some (LoopStep.next s2 c2) →
          s2.trace = s.trace ++ [Event.step p, Event.realloc m] →
          ∃ s3 c3 mem3, call_iconv E s (inp.getD []) c = some (some Errno.E2BIG, s3, c3) ∧
            c2.in_left = c3.in_left ∧ c2.in_size_left = c3.in_size_left ∧
            c2.out_left = c3.out_left ∧ s3.h.buf = some mem3 ∧ s2.h.buf = some mem3 ∧
            s2.h.buf_size = s.h.buf_size * 2 := by
  rcases conv_result_cases E fuel errno trace (some hd) inp in_size out out_size r h hz with
    ⟨h1, -⟩ | ⟨hd1, cd, sR, ra, sA, res, s1, c1, hh, hcd, hR, hA, hra, hL, rfl⟩
  · rw [hres] at h1
    exact absurd h1 (by decide)
  · simp only [Option.some.injEq] at hh
    subst hh
    dsimp only at hres
    subst hres
    obtain ⟨-, -, r3, r4, -, -⟩ := conv_reset_spec E
      { h := hd, errno := errno, trace := trace } cd
    rw [hR] at r3 r4
    dsimp only at r3 r4
    obtain ⟨ra1, sA1, c1a, c2a, -⟩ := alloc_cap E sR in_size hw (by rw [r3]; exact hcap)
    rw [hA] at c1a
    simp only [Option.some.injEq, Prod.mk.injEq] at c1a
    obtain ⟨rfl, rfl⟩ := c1a
    obtain ⟨evA, a1, a2, -⟩ := alloc_spec E sR in_size hA
    obtain ⟨mem, hbA⟩ := loop_needs_buf E _ fuel sA _ hz hL
    have hbsA : sA.h.buf_size < 2 ^ E.w := cap_ok_lt hw c2a
    obtain ⟨e1, e2, ev2, mem1, e3, e4, e5, e6⟩ :=
      loop_exact E hstep hflush (inp.getD []) fuel sA _ hbA (by simp) hbsA hL
    dsimp only at e5 e6
    have hreset : trace_bytes (if hd.buf.isSome then [Event.reset] else []) = [] := by
      split <;> simp [trace_bytes, Event.bytes]
    have hbytes : trace_bytes ((if hd.buf.isSome then [Event.reset] else []) ++ evA ++ ev2) =
        trace_bytes ev2 := by
      rw [trace_bytes_append, trace_bytes_append, hreset, trace_bytes_realloc a2]
      simp
    have hol : c1.out_left = (trace_bytes ev2).length := by rw [e5]; simp
    have hsize : size_sub E.w s1.h.buf_size c1.out_size_left =
        s1.h.buf_size - c1.out_size_left := size_sub_exact (by omega) e2
    refine ⟨sA, s1, c1, (if hd.buf.isSome then [Event.reset] else []) ++ evA ++ ev2, hL, rfl,
      by dsimp only; rw [e3, a1, r4]; simp, ?_, by omega, by dsimp only; rw [hsize],
      by rw [hbytes]; omega, ?_⟩
    · unfold ConvRet.view
      dsimp only
      rw [hbytes, e4, hsize]
      have hm : mem_read mem 0 = [] := by simp [mem_read]
      rw [hm] at e6
      have : s1.h.buf_size - c1.out_size_left = c1.out_left := by omega
      simpa [this] using e6
    · intro n s c hat
      obtain ⟨b1, b2, ev, mem2, b3, b4, b5, b6⟩ :=
        loop_at_exact E hstep hflush (inp.getD []) n sA _ hbA (by simp) hbsA hat
      dsimp only at b5 b6
      refine ⟨b1, ⟨ev, mem2, b3, b4, by simpa using b5, by simpa [mem_read] using b6⟩, ?_⟩
      intro s2 c2 p m hb htr
      have hne : c.in_size_left ≠ 0 := by
        intro h0
        simp [loop_body, h0] at hb
      obtain ⟨cd2, hcd2⟩ := loop_body_open E (inp.getD []) s c hne hb
      exact (body_exact E hstep hflush (inp.getD []) s c hcd2 b4 hne b1 b2 hb).2
        s2 c2 p m rfl htr

theorem conv_view_is_produced_witness :
    (∀ cd win room, (toyEnv.iconv_step cd win room).produced.length ≤ room) ∧
    (∀ cd room, (toyEnv.iconv_flush cd room).produced.length ≤ room) ∧
    9 ≤ toyEnv.w ∧ cap_ok toyEnv.w toyFresh.h.buf_size ∧
    iconv_cgo_conv toyEnv 2 toyFresh.errno toyFresh.trace (some toyFresh.h) (some [65, 66]) 2
      (some []) (some 0) = some toyOkRet ∧
    (2 : Nat) ≠ 0 ∧ toyOkRet.result = 0 ∧
    toyOkRet.view = [65, 66] ∧
    ∃ sA s1 c1 evs,
      conv_core_loop toyEnv [65, 66] 2 sA
        { in_left := 0, in_size_left := 2, out_left := 0,
          out_size_left := sA.h.buf_size } = some (0, s1, c1) ∧
      toyOkRet.h = some s1.h ∧ toyOkRet.trace = toyFresh.trace ++ evs ∧
      toyOkRet.view = trace_bytes evs ∧
      c1.out_size_left ≤ s1.h.buf_size ∧
      toyOkRet.out_size = some (s1.h.buf_size - c1.out_size_left) ∧
      (trace_bytes evs).length + c1.out_size_left = s1.h.buf_size := by
  have hstep : ∀ cd win room, (toyEnv.iconv_step cd win room).produced.length ≤ room := by
    intro cd win room
    have := toy_scan_produced win.length win (le_refl _) cd 0 [] room
    simpa [toyEnv] using this
  have hflush : ∀ cd room, (toyEnv.iconv_flush cd room).produced.length ≤ room := by
    intro cd room
    simp only [toyEnv, toy_flush]
    split_ifs <;> simp
    omega
  obtain ⟨sA, s1, c1, evs, h1, h2, h3, h4, h5, h6, h7, -⟩ :=
    conv_view_is_produced toyEnv hstep hflush (by decide) 2 toyFresh.errno toyFresh.trace
      toyFresh.h (some [65, 66]) 2 (some []) (some 0) toyOkRet (Or.inl rfl) rfl (by decide) rfl
  exact ⟨hstep, hflush, by decide, Or.inl rfl, rfl, by decide, rfl, by decide,
    sA, s1, c1, evs, h1, h2, h3, h4, h5, h6, h7⟩

end IconvCgo
